import Mathlib

/-!
# SM4 (T-table strategy) and SM4-GCM

A shallow embedding of `Project1/project1.cpp`.  Bytes (`uint8_t`) and words
(`uint32_t`) are natural numbers; a byte buffer is a `List Nat`, a `uint32_t[4]`
register file is a 4-tuple, an `__m128i` value is the list of its 16 bytes in
memory order.  Truncation to the machine width is written explicitly with `u32`
wherever the C arithmetic can exceed the width.
-/

/-! ## Constants -/

def SM4_BLOCK_SIZE : Nat := 16

def SM4_NUM_ROUNDS : Nat := 32

def FK : List Nat := [0xA3B1BAC6, 0x56AA3350, 0x677D9197, 0xB27022DC]

def CK : List Nat :=
  [0x00070E15, 0x1C232A31, 0x383F464D, 0x545B6269,
   0x70777E85, 0x8C939AA1, 0xA8AFB6BD, 0xC4CBD2D9,
   0xE0E7EEF5, 0xFC030A11, 0x181F262D, 0x343B4249,
   0x50575E65, 0x6C737A81, 0x888F969D, 0xA4ABB2B9,
   0xC0C7CED5, 0xDCE3EAF1, 0xF8FF060D, 0x141B2229,
   0x30373E45, 0x4C535A61, 0x686F767D, 0x848B9299,
   0xA0A7AEB5, 0xBCC3CAD1, 0xD8DFE6ED, 0xF4FB0209,
   0x10171E25, 0x2C333A41, 0x484F565D, 0x646B7279]

def SM4_SBOX : List Nat :=
  [0xD6, 0x90, 0xE9, 0xFE, 0xCC, 0xE1, 0x3D, 0xB7, 0x16, 0xB6, 0x14, 0xC2, 0x28, 0xFB, 0x2C, 0x05,
   0x2B, 0x67, 0x9A, 0x76, 0x2A, 0xBE, 0x04, 0xC3, 0xAA, 0x44, 0x13, 0x26, 0x49, 0x86, 0x06, 0x99,
   0x9C, 0x42, 0x50, 0xF4, 0x91, 0xEF, 0x98, 0x7A, 0x33, 0x54, 0x0B, 0x43, 0xED, 0xCF, 0xAC, 0x62,
   0xE4, 0xB3, 0x1C, 0xA9, 0xC9, 0x08, 0xE8, 0x95, 0x80, 0xDF, 0x94, 0xFA, 0x75, 0x8F, 0x3F, 0xA6,
   0x47, 0x07, 0xA7, 0xFC, 0xF3, 0x73, 0x17, 0xBA, 0x83, 0x59, 0x3C, 0x19, 0xE6, 0x85, 0x4F, 0xA8,
   0x68, 0x6B, 0x81, 0xB2, 0x71, 0x64, 0xDA, 0x8B, 0xF8, 0xEB, 0x0F, 0x4B, 0x70, 0x56, 0x9D, 0x35,
   0x1E, 0x24, 0x0E, 0x5E, 0x63, 0x58, 0xD1, 0xA2, 0x25, 0x22, 0x7C, 0x3B, 0x01, 0x21, 0x78, 0x87,
   0xD4, 0x00, 0x46, 0x57, 0x9F, 0xD3, 0x27, 0x52, 0x4C, 0x36, 0x02, 0xE7, 0xA0, 0xC4, 0xC8, 0x9E,
   0xEA, 0xBF, 0x8A, 0xD2, 0x40, 0xC7, 0x38, 0xB5, 0xA3, 0xF7, 0xF2, 0xCE, 0xF9, 0x61, 0x15, 0xA1,
   0xE0, 0xAE, 0x5D, 0xA4, 0x9B, 0x34, 0x1A, 0x55, 0xAD, 0x93, 0x32, 0x30, 0xF5, 0x8C, 0xB1, 0xE3,
   0x1D, 0xF6, 0xE2, 0x2E, 0x82, 0x66, 0xCA, 0x60, 0xC0, 0x29, 0x23, 0xAB, 0x0D, 0x53, 0x4E, 0x6F,
   0xD5, 0xDB, 0x37, 0x45, 0xDE, 0xFD, 0x8E, 0x2F, 0x03, 0xFF, 0x6A, 0x72, 0x6D, 0x6C, 0x5B, 0x51,
   0x8D, 0x1B, 0xAF, 0x92, 0xBB, 0xDD, 0xBC, 0x7F, 0x11, 0xD9, 0x5C, 0x41, 0x1F, 0x10, 0x5A, 0xD8,
   0x0A, 0xC1, 0x31, 0x88, 0xA5, 0xCD, 0x7B, 0xBD, 0x2D, 0x74, 0xD0, 0x12, 0xB8, 0xE5, 0xB4, 0xB0,
   0x89, 0x69, 0x97, 0x4A, 0x0C, 0x96, 0x77, 0x7E, 0x65, 0xB9, 0xF1, 0x09, 0xC5, 0x6E, 0xC6, 0x84,
   0x18, 0xF0, 0x7D, 0xEC, 0x3A, 0xDC, 0x4D, 0x20, 0x79, 0xEE, 0x5F, 0x3E, 0xD7, 0xCB, 0x39, 0x48]

/-! ## Machine arithmetic -/

/-- Truncation to `uint32_t`. -/
def u32 (n : Nat) : Nat := n % 2 ^ 32

/-- The source's `ROTL(x, n) = (x << n) | (x >> (32 - n))` on `uint32_t`. -/
def ROTL (x n : Nat) : Nat := u32 (x <<< n) ||| (x >>> (32 - n))

/-- The source's `L_transform(b) = b ^ ROTL(b,2) ^ ROTL(b,10) ^ ROTL(b,18) ^ ROTL(b,24)`. -/
def L_transform (b : Nat) : Nat :=
  b ^^^ ROTL b 2 ^^^ ROTL b 10 ^^^ ROTL b 18 ^^^ ROTL b 24

/-! ## The T-table block cipher -/

/-- The four private tables `T0..T3` of class `SM4_TTable`. -/
structure SM4_TTable where
  T0 : List Nat
  T1 : List Nat
  T2 : List Nat
  T3 : List Nat

/-- Entry `T0[i]` as the constructor computes it: the S-box byte `s` is written
into all four byte lanes of `t`, and `T0[i] = L_transform(t)`. -/
def SM4_TTable.entry0 (i : Nat) : Nat :=
  let s := SM4_SBOX.getD i 0
  let t := u32 (s <<< 24) ||| u32 (s <<< 16) ||| u32 (s <<< 8) ||| s
  L_transform t

/-- The constructor `SM4_TTable::SM4_TTable()`: for `i = 0..255` it stores
`T0[i]`, then `T1[i] = ROTL(T0[i], 8)`, `T2[i] = ROTL(T0[i], 16)`,
`T3[i] = ROTL(T0[i], 24)`. -/
def SM4_TTable.new : SM4_TTable :=
  { T0 := (List.range 256).map fun i => SM4_TTable.entry0 i
    T1 := (List.range 256).map fun i => ROTL (SM4_TTable.entry0 i) 8
    T2 := (List.range 256).map fun i => ROTL (SM4_TTable.entry0 i) 16
    T3 := (List.range 256).map fun i => ROTL (SM4_TTable.entry0 i) 24 }

/-- One big-endian word `(b0 << 24) | (b1 << 16) | (b2 << 8) | b3`, stored in a
`uint32_t`. -/
def load_word (b0 b1 b2 b3 : Nat) : Nat :=
  u32 ((b0 <<< 24) ||| (b1 <<< 16) ||| (b2 <<< 8) ||| b3)

/-- The source's `load_block`: four big-endian words from 16 bytes. -/
def SM4_TTable.load_block (inp : List Nat) : Nat × Nat × Nat × Nat :=
  (load_word (inp.getD 0 0) (inp.getD 1 0) (inp.getD 2 0) (inp.getD 3 0),
   load_word (inp.getD 4 0) (inp.getD 5 0) (inp.getD 6 0) (inp.getD 7 0),
   load_word (inp.getD 8 0) (inp.getD 9 0) (inp.getD 10 0) (inp.getD 11 0),
   load_word (inp.getD 12 0) (inp.getD 13 0) (inp.getD 14 0) (inp.getD 15 0))

/-- The four bytes `(x >> (24 - i*8)) & 0xFF`, `i = 0..3`, of one word. -/
def store_word (x : Nat) : List Nat :=
  (List.range 4).map fun i => (x >>> (24 - i * 8)) &&& 0xFF

/-- The source's `store_block(out, x0, x1, x2, x3)`: `out[i]`, `out[i+4]`,
`out[i+8]`, `out[i+12]` receive byte `i` of `x0`, `x1`, `x2`, `x3`. -/
def SM4_TTable.store_block (x0 x1 x2 x3 : Nat) : List Nat :=
  store_word x0 ++ store_word x1 ++ store_word x2 ++ store_word x3

/-- The four table lookups of a round, XORed together:
`T0[t & 0xFF] ^ T1[(t >> 8) & 0xFF] ^ T2[(t >> 16) & 0xFF] ^ T3[t >> 24]`
(without the leading `x[0]`). -/
def SM4_TTable.lookup (T : SM4_TTable) (t : Nat) : Nat :=
  T.T0.getD (t &&& 0xFF) 0 ^^^ T.T1.getD ((t >>> 8) &&& 0xFF) 0 ^^^
    T.T2.getD ((t >>> 16) &&& 0xFF) 0 ^^^ T.T3.getD (t >>> 24) 0

/-- The body of the round loop of `encrypt`, with round key `rki = rk[i]`. -/
def SM4_TTable.round (T : SM4_TTable) : Nat × Nat × Nat × Nat → Nat → Nat × Nat × Nat × Nat
  | (x0, x1, x2, x3), rki =>
    let t := x1 ^^^ x2 ^^^ x3 ^^^ rki
    let x4 := x0 ^^^ T.T0.getD (t &&& 0xFF) 0 ^^^ T.T1.getD ((t >>> 8) &&& 0xFF) 0 ^^^
      T.T2.getD ((t >>> 16) &&& 0xFF) 0 ^^^ T.T3.getD (t >>> 24) 0
    (x1, x2, x3, x4)

/-- The source's `SM4_TTable::encrypt(out, in, rk)`; the result is `out`. -/
def SM4_TTable.encrypt (T : SM4_TTable) (inp : List Nat) (rk : List Nat) : List Nat :=
  let x := (List.range SM4_NUM_ROUNDS).foldl (fun x i => T.round x (rk.getD i 0))
    (SM4_TTable.load_block inp)
  SM4_TTable.store_block x.2.2.2 x.2.2.1 x.2.1 x.1

/-! ## Key schedule -/

/-- The body of the round loop of `sm4_key_schedule` at index `i`.  The loop
state is the register file `k[4]` together with the round keys `rk[0..i-1]`
written so far; `rk[i] = x4` is appended. -/
def sm4_key_schedule_round (sm4 : SM4_TTable) :
    (Nat × Nat × Nat × Nat) × List Nat → Nat → (Nat × Nat × Nat × Nat) × List Nat
  | ((k0, k1, k2, k3), rk), i =>
    let t := k1 ^^^ k2 ^^^ k3 ^^^ CK.getD i 0
    let x4 := k0 ^^^ sm4.T0.getD (t &&& 0xFF) 0 ^^^ sm4.T1.getD ((t >>> 8) &&& 0xFF) 0 ^^^
      sm4.T2.getD ((t >>> 16) &&& 0xFF) 0 ^^^ sm4.T3.getD (t >>> 24) 0
    ((k1, k2, k3, x4), rk ++ [x4])

/-- The source's `sm4_key_schedule(rk, key)`; the result is `rk`. -/
def sm4_key_schedule (key : List Nat) : List Nat :=
  let k0 := load_word (key.getD 0 0) (key.getD 1 0) (key.getD 2 0) (key.getD 3 0) ^^^ FK.getD 0 0
  let k1 := load_word (key.getD 4 0) (key.getD 5 0) (key.getD 6 0) (key.getD 7 0) ^^^ FK.getD 1 0
  let k2 := load_word (key.getD 8 0) (key.getD 9 0) (key.getD 10 0) (key.getD 11 0) ^^^ FK.getD 2 0
  let k3 := load_word (key.getD 12 0) (key.getD 13 0) (key.getD 14 0) (key.getD 15 0) ^^^ FK.getD 3 0
  let sm4 := SM4_TTable.new
  ((List.range SM4_NUM_ROUNDS).foldl (sm4_key_schedule_round sm4) ((k0, k1, k2, k3), [])).2

/-- Selection of table `Tk`, `k = 0..3`. -/
def SM4_TTable.table (T : SM4_TTable) (k : Nat) : List Nat :=
  match k with
  | 0 => T.T0
  | 1 => T.T1
  | 2 => T.T2
  | _ => T.T3

/-- The byte substitution `tau` as the specification words it: each of the four
bytes of `t` is replaced, in place, by its `SM4_SBOX` image. -/
def tau (t : Nat) : Nat :=
  (SM4_SBOX.getD (t >>> 24) 0 <<< 24) ||| (SM4_SBOX.getD ((t >>> 16) &&& 0xFF) 0 <<< 16) |||
    (SM4_SBOX.getD ((t >>> 8) &&& 0xFF) 0 <<< 8) ||| SM4_SBOX.getD (t &&& 0xFF) 0

/-- Reversal of the four-word register file. -/
def rev4 : Nat × Nat × Nat × Nat → Nat × Nat × Nat × Nat
  | (x0, x1, x2, x3) => (x3, x2, x1, x0)

/-- All four registers hold a `uint32_t` value. -/
@[reducible]
def Word4 (x : Nat × Nat × Nat × Nat) : Prop :=
  x.1 < 2 ^ 32 ∧ x.2.1 < 2 ^ 32 ∧ x.2.2.1 < 2 ^ 32 ∧ x.2.2.2 < 2 ^ 32

/-- Every entry of the four tables is a `uint32_t` value. -/
@[reducible]
def SM4_TTable.Words (T : SM4_TTable) : Prop :=
  (∀ v ∈ T.T0, v < 2 ^ 32) ∧ (∀ v ∈ T.T1, v < 2 ^ 32) ∧
    (∀ v ∈ T.T2, v < 2 ^ 32) ∧ (∀ v ∈ T.T3, v < 2 ^ 32)

/-! ## SM4-GCM -/

/-- The data members of class `SM4_GCM` that the constructor fills: the round
keys and `H`.  (`H_table` stays unwritten: `precompute_H_table` has an empty body.) -/
structure SM4_GCM where
  enc_rk : List Nat
  H : List Nat

/-- The constructor `SM4_GCM::SM4_GCM(key)`. -/
def SM4_GCM.new (key : List Nat) : SM4_GCM :=
  let enc_rk := sm4_key_schedule key
  { enc_rk := enc_rk
    H := SM4_TTable.new.encrypt (List.replicate 16 0) enc_rk }

/-- The effect of `memcpy(dst, src, n)` on `dst`. -/
def memcpy (dst src : List Nat) (n : Nat) : List Nat :=
  src.take n ++ dst.drop n

/-- The source's `init_counter(counter, iv, iv_len)` with `iv_len = iv.length`;
the result is the updated `counter`. -/
def SM4_GCM.init_counter (counter iv : List Nat) : List Nat :=
  if iv.length = 12 then
    (memcpy counter iv 12).set 15 1
  else
    memcpy counter iv (min iv.length 16)

/-- The counter increment of `ctr_mode`,
`for (int j = 15; j >= 0; j--) if (++counter[j] != 0) break;`
started with `n = 16`: the call with `n = j + 1` runs the iteration at index `j`.
`++counter[j]` wraps in `uint8_t`. -/
def SM4_GCM.incr_loop : Nat → List Nat → List Nat
  | 0, counter => counter
  | j + 1, counter =>
    let v := (counter.getD j 0 + 1) % 256
    let counter := counter.set j v
    if v ≠ 0 then counter else SM4_GCM.incr_loop j counter

/-- One increment step of the counter block. -/
def SM4_GCM.counter_increment (counter : List Nat) : List Nat :=
  SM4_GCM.incr_loop 16 counter

/-- Loop state of `ctr_mode`: the bytes written to `out` so far, the counter
block, and (as a ghost log) the blocks handed to the block cipher so far. -/
structure CtrState where
  out : List Nat
  counter : List Nat
  fed : List (List Nat)

/-- The loop `for (size_t i = 0; i < len; i += 16)` of `ctr_mode`, with
`len = inp.length`.  The writes `out[i + j]` go to consecutive positions, so the
output is built by appending.  The index is a natural number: a buffer of `len`
bytes leaves `len + 16` below `2^64`, so `i += 16` does not wrap.  The first
argument bounds the number of iterations. -/
def SM4_GCM.ctr_mode_loop (g : SM4_GCM) (inp : List Nat) : Nat → Nat → CtrState → CtrState
  | 0, _, st => st
  | fuel + 1, i, st =>
    if i < inp.length then
      let keystream := SM4_TTable.new.encrypt st.counter g.enc_rk
      let counter := SM4_GCM.counter_increment st.counter
      let block_size := min 16 (inp.length - i)
      let out := st.out ++
        (List.range block_size).map fun j => inp.getD (i + j) 0 ^^^ keystream.getD j 0
      SM4_GCM.ctr_mode_loop g inp fuel (i + 16)
        { out := out, counter := counter, fed := st.fed ++ [st.counter] }
    else st

/-- The source's `ctr_mode(out, in, len, counter)` with `len = inp.length`.  The
loop runs `ceil(len / 16)` times, so `len` iterations are always enough. -/
def SM4_GCM.ctr_mode (g : SM4_GCM) (inp counter : List Nat) : CtrState :=
  g.ctr_mode_loop inp inp.length 0 { out := [], counter := counter, fed := [] }

/-- Lane-wise `_mm_xor_si128` on two 16-byte values. -/
def mm_xor_si128 (a b : List Nat) : List Nat :=
  (List.range 16).map fun i => a.getD i 0 ^^^ b.getD i 0

/-- The unaligned load `_mm_loadu_si128(data + i)`: the 16 bytes of memory that
start at `data + i`, whatever the length of the logical buffer. -/
def mm_loadu_si128 (data : List Nat) (i : Nat) : List Nat :=
  (List.range 16).map fun j => data.getD (i + j) 0

/-- The eight bytes of a 64-bit integer in memory (little-endian) order. -/
def le_bytes64 (x : Nat) : List Nat :=
  (List.range 8).map fun i => (x >>> (8 * i)) &&& 0xFF

/-- The value `_mm_set_epi64x(e1, e0)` in memory order: `e0` is the low half. -/
def mm_set_epi64x (e1 e0 : Nat) : List Nat :=
  le_bytes64 e0 ++ le_bytes64 e1

/-- Truncation to `uint64_t`. -/
def u64 (n : Nat) : Nat := n % 2 ^ 64

/-- The source's `len_block` of `compute_tag`.  The first argument of
`_mm_set_epi64x` is `(uint64_t(aad_len) * 8) << 64`: the shift count equals the
width of the type, which C++ leaves undefined; the model takes the truncating
shift, whose value is `0`. -/
def SM4_GCM.len_block (aad_len ciphertext_len : Nat) : List Nat :=
  mm_set_epi64x (u64 (u64 (aad_len * 8) <<< 64)) (u64 (ciphertext_len * 8))

/-- The loop `for (size_t i = 0; i < len; i += 16)` of `ghash_block`: each pass
XORs the 16 bytes at `data + i` into `ghash` (the multiplication by `H` is
commented out in the source). -/
def SM4_GCM.ghash_block_loop (data : List Nat) (len : Nat) : Nat → Nat → List Nat → List Nat
  | 0, _, ghash => ghash
  | fuel + 1, i, ghash =>
    if i < len then
      SM4_GCM.ghash_block_loop data len fuel (i + 16) (mm_xor_si128 ghash (mm_loadu_si128 data i))
    else ghash

/-- The source's `ghash_block(ghash, data, len)`; `data` is the memory that
starts at the pointer.  The result is the updated `ghash`. -/
def SM4_GCM.ghash_block (ghash data : List Nat) (len : Nat) : List Nat :=
  SM4_GCM.ghash_block_loop data len len 0 ghash

/-- The source's placeholder `gf_mult(a, b) = _mm_xor_si128(a, b)`. -/
def SM4_GCM.gf_mult (a b : List Nat) : List Nat :=
  mm_xor_si128 a b

/-- The accumulator `ghash` of `compute_tag` just before it is masked: after the
AAD, the ciphertext and the length block have been XORed in. -/
def SM4_GCM.compute_tag_acc (ciphertext : List Nat) (ciphertext_len : Nat)
    (aad : List Nat) (aad_len : Nat) : List Nat :=
  let ghash := List.replicate 16 0
  let ghash := SM4_GCM.ghash_block ghash aad aad_len
  let ghash := SM4_GCM.ghash_block ghash ciphertext ciphertext_len
  mm_xor_si128 ghash (SM4_GCM.len_block aad_len ciphertext_len)

/-- The source's `compute_tag(tag, ciphertext, ciphertext_len, aad, aad_len, counter)`;
the result is `tag`. -/
def SM4_GCM.compute_tag (g : SM4_GCM) (ciphertext : List Nat) (ciphertext_len : Nat)
    (aad : List Nat) (aad_len : Nat) (counter : List Nat) : List Nat :=
  let ghash := SM4_GCM.compute_tag_acc ciphertext ciphertext_len aad aad_len
  let final_block := SM4_TTable.new.encrypt counter g.enc_rk
  (List.range 16).map fun i => ghash.getD i 0 ^^^ final_block.getD i 0

/-- What one call of `SM4_GCM::encrypt` leaves behind: the `len` ciphertext bytes,
the tag, and (as a ghost log) the counter blocks given to the block cipher, in
call order. -/
structure SealResult where
  ciphertext : List Nat
  tag : List Nat
  cipher_inputs : List (List Nat)

/-- The source's `SM4_GCM::encrypt(ciphertext, tag, plaintext, len, iv, iv_len, aad, aad_len)`
with `len = plaintext.length` and `iv_len = iv.length`.  `ciphertext` is the
memory at the output pointer before the call and `aad` the memory at the AAD
pointer: `ghash_block` loads whole 16-byte blocks, so it can read past `len`
and `aad_len`. -/
def SM4_GCM.encrypt (g : SM4_GCM) (ciphertext plaintext iv aad : List Nat) (aad_len : Nat) :
    SealResult :=
  let counter := SM4_GCM.init_counter (List.replicate 16 0) iv
  let st := g.ctr_mode plaintext counter
  let tag := g.compute_tag (st.out ++ ciphertext.drop plaintext.length) plaintext.length
    aad aad_len st.counter
  { ciphertext := st.out, tag := tag, cipher_inputs := st.fed ++ [st.counter] }

/-- Value of a byte string read as a big-endian integer. -/
def be_val (l : List Nat) : Nat :=
  l.foldl (fun a b => a * 256 + b) 0

/-! ## The inputs of `main` -/

def main_key : List Nat :=
  [0x01, 0x23, 0x45, 0x67, 0x89, 0xab, 0xcd, 0xef, 0xfe, 0xdc, 0xba, 0x98, 0x76, 0x54, 0x32, 0x10]

def main_plaintext : List Nat :=
  [0x01, 0x23, 0x45, 0x67, 0x89, 0xab, 0xcd, 0xef, 0xfe, 0xdc, 0xba, 0x98, 0x76, 0x54, 0x32, 0x10]

def main_iv : List Nat :=
  [0x00, 0x01, 0x02, 0x03, 0x04, 0x05, 0x06, 0x07, 0x08, 0x09, 0x0a, 0x0b]

/-- The array `aad[20]` of `main`: eleven initialised bytes, the rest zero. -/
def main_aad : List Nat :=
  [0x54, 0x68, 0x69, 0x73, 0x20, 0x69, 0x73, 0x20, 0x41, 0x41, 0x44, 0, 0, 0, 0, 0, 0, 0, 0, 0]

/-- The array `long_plaintext[64]` of `main` (empty initialiser: all zero). -/
def main_long_plaintext : List Nat := List.replicate 64 0

/-- The call `gcm.encrypt(long_ciphertext, tag, long_plaintext, 64, iv, 12, aad, 11)`
of `main`; the output array is taken as zero before the call. -/
def main_gcm_call : SealResult :=
  (SM4_GCM.new main_key).encrypt (List.replicate 64 0) main_long_plaintext main_iv main_aad 11

/-- A well-formed 16-byte block. -/
@[reducible]
def Block16 (c : List Nat) : Prop :=
  c.length = 16 ∧ ∀ b ∈ c, b < 256

/-- Byte `p` of the keystream that `ctr_mode` produces from the starting counter
block `counter`: byte `p mod 16` of the encryption of the counter block after
`p / 16` increment steps. -/
def SM4_GCM.keystream_byte (g : SM4_GCM) (counter : List Nat) (p : Nat) : Nat :=
  (SM4_TTable.new.encrypt (SM4_GCM.counter_increment^[p / 16] counter) g.enc_rk).getD (p % 16) 0

/-- The eight bytes of the big-endian 64-bit encoding of `x`, as the
specification words the halves of the length block. -/
def be_bytes64 (x : Nat) : List Nat :=
  (List.range 8).map fun i => (x >>> (8 * (7 - i))) &&& 0xFF

/-- The buffer `data` with bit `b` of the byte at position `p` flipped. -/
def flip_bit (data : List Nat) (p b : Nat) : List Nat :=
  data.set p (data.getD p 0 ^^^ 2 ^ b)

/-- The XOR of the bytes at lane `j` of the first `n` 16-byte blocks of `data`. -/
def lane_xor (data : List Nat) (j n : Nat) : Nat :=
  (List.range n).foldl (fun a k => a ^^^ data.getD (16 * k + j) 0) 0

/-- An AAD of two blocks, and the same two blocks in the other order. -/
def aad_block_pair : List Nat :=
  [1, 0, 0, 0, 0, 0, 0, 0, 0, 0, 0, 0, 0, 0, 0, 0, 2, 0, 0, 0, 0, 0, 0, 0, 0, 0, 0, 0, 0, 0, 0, 0]

def aad_block_pair_swapped : List Nat :=
  [2, 0, 0, 0, 0, 0, 0, 0, 0, 0, 0, 0, 0, 0, 0, 0, 1, 0, 0, 0, 0, 0, 0, 0, 0, 0, 0, 0, 0, 0, 0, 0]

/-! ## The AES-NI strategy -/

/-- Multiplication by `x` in GF(2^8) modulo `x^8 + x^4 + x^3 + x + 1`. -/
def aes_xtime (b : Nat) : Nat :=
  if b &&& 0x80 ≠ 0 then ((b <<< 1) ^^^ 0x1B) &&& 0xFF else (b <<< 1) &&& 0xFF

/-- Multiplication in GF(2^8) modulo `x^8 + x^4 + x^3 + x + 1` (shift and add
over the eight bits of `b`). -/
def aes_gmul (a b : Nat) : Nat :=
  ((List.range 8).foldl (fun (st : Nat × Nat) i =>
    (if (b >>> i) &&& 1 ≠ 0 then st.1 ^^^ st.2 else st.1, aes_xtime st.2)) (0, a)).1

/-- The multiplicative inverse in GF(2^8), as the power `a^254` (and `0` for `0`). -/
def aes_inverse (a : Nat) : Nat :=
  let a2 := aes_gmul a a
  let a4 := aes_gmul a2 a2
  let a8 := aes_gmul a4 a4
  let a16 := aes_gmul a8 a8
  let a32 := aes_gmul a16 a16
  let a64 := aes_gmul a32 a32
  let a128 := aes_gmul a64 a64
  aes_gmul a128 (aes_gmul a64 (aes_gmul a32 (aes_gmul a16 (aes_gmul a8 (aes_gmul a4 a2)))))

/-- Rotation of a byte to the left. -/
def rotl8 (b n : Nat) : Nat := ((b <<< n) ||| (b >>> (8 - n))) &&& 0xFF

/-- The AES S-box by its definition: the inverse in GF(2^8) followed by the
affine map `b ^ rotl8(b,1) ^ rotl8(b,2) ^ rotl8(b,3) ^ rotl8(b,4) ^ 0x63`. -/
def aes_sbox_by_definition (a : Nat) : Nat :=
  let b := aes_inverse a
  b ^^^ rotl8 b 1 ^^^ rotl8 b 2 ^^^ rotl8 b 3 ^^^ rotl8 b 4 ^^^ 0x63

/-- The AES S-box as a table (FIPS-197, figure 7); `AES_SBOX_eq_definition` checks
it against `aes_sbox_by_definition`. -/
def AES_SBOX : List Nat :=
  [0x63, 0x7c, 0x77, 0x7b, 0xf2, 0x6b, 0x6f, 0xc5, 0x30, 0x01, 0x67, 0x2b, 0xfe, 0xd7, 0xab, 0x76,
   0xca, 0x82, 0xc9, 0x7d, 0xfa, 0x59, 0x47, 0xf0, 0xad, 0xd4, 0xa2, 0xaf, 0x9c, 0xa4, 0x72, 0xc0,
   0xb7, 0xfd, 0x93, 0x26, 0x36, 0x3f, 0xf7, 0xcc, 0x34, 0xa5, 0xe5, 0xf1, 0x71, 0xd8, 0x31, 0x15,
   0x04, 0xc7, 0x23, 0xc3, 0x18, 0x96, 0x05, 0x9a, 0x07, 0x12, 0x80, 0xe2, 0xeb, 0x27, 0xb2, 0x75,
   0x09, 0x83, 0x2c, 0x1a, 0x1b, 0x6e, 0x5a, 0xa0, 0x52, 0x3b, 0xd6, 0xb3, 0x29, 0xe3, 0x2f, 0x84,
   0x53, 0xd1, 0x00, 0xed, 0x20, 0xfc, 0xb1, 0x5b, 0x6a, 0xcb, 0xbe, 0x39, 0x4a, 0x4c, 0x58, 0xcf,
   0xd0, 0xef, 0xaa, 0xfb, 0x43, 0x4d, 0x33, 0x85, 0x45, 0xf9, 0x02, 0x7f, 0x50, 0x3c, 0x9f, 0xa8,
   0x51, 0xa3, 0x40, 0x8f, 0x92, 0x9d, 0x38, 0xf5, 0xbc, 0xb6, 0xda, 0x21, 0x10, 0xff, 0xf3, 0xd2,
   0xcd, 0x0c, 0x13, 0xec, 0x5f, 0x97, 0x44, 0x17, 0xc4, 0xa7, 0x7e, 0x3d, 0x64, 0x5d, 0x19, 0x73,
   0x60, 0x81, 0x4f, 0xdc, 0x22, 0x2a, 0x90, 0x88, 0x46, 0xee, 0xb8, 0x14, 0xde, 0x5e, 0x0b, 0xdb,
   0xe0, 0x32, 0x3a, 0x0a, 0x49, 0x06, 0x24, 0x5c, 0xc2, 0xd3, 0xac, 0x62, 0x91, 0x95, 0xe4, 0x79,
   0xe7, 0xc8, 0x37, 0x6d, 0x8d, 0xd5, 0x4e, 0xa9, 0x6c, 0x56, 0xf4, 0xea, 0x65, 0x7a, 0xae, 0x08,
   0xba, 0x78, 0x25, 0x2e, 0x1c, 0xa6, 0xb4, 0xc6, 0xe8, 0xdd, 0x74, 0x1f, 0x4b, 0xbd, 0x8b, 0x8a,
   0x70, 0x3e, 0xb5, 0x66, 0x48, 0x03, 0xf6, 0x0e, 0x61, 0x35, 0x57, 0xb9, 0x86, 0xc1, 0x1d, 0x9e,
   0xe1, 0xf8, 0x98, 0x11, 0x69, 0xd9, 0x8e, 0x94, 0x9b, 0x1e, 0x87, 0xe9, 0xce, 0x55, 0x28, 0xdf,
   0x8c, 0xa1, 0x89, 0x0d, 0xbf, 0xe6, 0x42, 0x68, 0x41, 0x99, 0x2d, 0x0f, 0xb0, 0x54, 0xbb, 0x16]

/-- The 32-bit lanes of a 128-bit value: each group of four bytes is one lane,
least significant byte first. -/
def mm_lanes : List Nat → List Nat
  | b0 :: b1 :: b2 :: b3 :: rest =>
    (b0 ||| (b1 <<< 8) ||| (b2 <<< 16) ||| (b3 <<< 24)) :: mm_lanes rest
  | _ => []

/-- The 128-bit value with the given 32-bit lanes: each lane gives four bytes,
least significant first. -/
def mm_of_lanes (l : List Nat) : List Nat :=
  l.flatMap fun w => [w &&& 0xFF, (w >>> 8) &&& 0xFF, (w >>> 16) &&& 0xFF, (w >>> 24) &&& 0xFF]

/-- The intrinsic `_mm_setzero_si128()`. -/
def mm_setzero_si128 : List Nat := List.replicate 16 0

/-- The intrinsic `_mm_set1_epi32(a)`: `a` in every lane. -/
def mm_set1_epi32 (a : Nat) : List Nat := mm_of_lanes [u32 a, u32 a, u32 a, u32 a]

/-- The intrinsic `_mm_set_epi32(e3, e2, e1, e0)`: `e0` is lane 0. -/
def mm_set_epi32 (e3 e2 e1 e0 : Nat) : List Nat := mm_of_lanes [u32 e0, u32 e1, u32 e2, u32 e3]

/-- The intrinsic `_mm_or_si128`. -/
def mm_or_si128 (a b : List Nat) : List Nat :=
  List.zipWith (fun x y => x ||| y) a b

/-- The intrinsic `_mm_sub_epi32`: lane-wise subtraction modulo `2^32`. -/
def mm_sub_epi32 (a b : List Nat) : List Nat :=
  mm_of_lanes (List.zipWith (fun x y => u32 (x + 2 ^ 32 - y)) (mm_lanes a) (mm_lanes b))

/-- The intrinsic `_mm_sllv_epi32(a, count)`: each lane of `a` shifted left by
the matching lane of `count`, and `0` when that count is 32 or more. -/
def mm_sllv_epi32 (a count : List Nat) : List Nat :=
  mm_of_lanes (List.zipWith (fun x c => if c < 32 then u32 (x <<< c) else 0)
    (mm_lanes a) (mm_lanes count))

/-- The intrinsic `_mm_srlv_epi32(a, count)`: each lane of `a` shifted right by
the matching lane of `count`, and `0` when that count is 32 or more. -/
def mm_srlv_epi32 (a count : List Nat) : List Nat :=
  mm_of_lanes (List.zipWith (fun x c => if c < 32 then x >>> c else 0)
    (mm_lanes a) (mm_lanes count))

/-- The intrinsic `_mm_shuffle_epi32(a, imm)`: lane `k` of the result is lane
`(imm >> 2k) & 3` of `a`. -/
def mm_shuffle_epi32 (a : List Nat) (imm : Nat) : List Nat :=
  mm_of_lanes ((List.range 4).map fun k => (mm_lanes a).getD ((imm >>> (2 * k)) &&& 3) 0)

/-- AES `ShiftRows` on the 16 state bytes; byte `r + 4c` is row `r`, column `c`,
and row `r` moves left by `r` columns. -/
def aes_shift_rows (s : List Nat) : List Nat :=
  (List.range 16).map fun i => s.getD (i % 4 + 4 * ((i / 4 + i % 4) % 4)) 0

/-- AES `SubBytes`. -/
def aes_sub_bytes (s : List Nat) : List Nat :=
  s.map fun b => AES_SBOX.getD b 0

/-- AES `MixColumns`: each column is multiplied by the matrix with rows
`2 3 1 1`, `1 2 3 1`, `1 1 2 3`, `3 1 1 2` over GF(2^8); `2 * a` is `aes_xtime a`
and `3 * a` is `aes_xtime a ^ a`. -/
def aes_mix_columns (s : List Nat) : List Nat :=
  (List.range 16).map fun i =>
    let c := 4 * (i / 4)
    let r := i % 4
    aes_xtime (s.getD (c + r) 0) ^^^
      (aes_xtime (s.getD (c + (r + 1) % 4) 0) ^^^ s.getD (c + (r + 1) % 4) 0) ^^^
      s.getD (c + (r + 2) % 4) 0 ^^^ s.getD (c + (r + 3) % 4) 0

/-- Modelled from the spec: the intrinsic `_mm_aesenc_si128(a, RoundKey)` is not
defined in the repository.  It is one AES encryption round: `ShiftRows`, `SubBytes`,
`MixColumns`, then XOR with the round key. -/
def mm_aesenc_si128 (a round_key : List Nat) : List Nat :=
  mm_xor_si128 (aes_mix_columns (aes_sub_bytes (aes_shift_rows a))) round_key

/-- The source's member `SM4_AESNI::_mm_rolv_epi32(x, y)`. -/
def SM4_AESNI.mm_rolv_epi32 (x y : List Nat) : List Nat :=
  mm_or_si128 (mm_sllv_epi32 x y) (mm_srlv_epi32 x (mm_sub_epi32 (mm_set1_epi32 32) y))

/-- The source's `SM4_AESNI::linear_transform(x)`. -/
def SM4_AESNI.linear_transform (x : List Nat) : List Nat :=
  let t1 := mm_xor_si128 x (SM4_AESNI.mm_rolv_epi32 x (mm_set_epi32 0 0 0 2))
  let t2 := mm_xor_si128 t1 (SM4_AESNI.mm_rolv_epi32 x (mm_set_epi32 0 0 0 10))
  let t3 := mm_xor_si128 t2 (SM4_AESNI.mm_rolv_epi32 x (mm_set_epi32 0 0 0 18))
  mm_xor_si128 t3 (SM4_AESNI.mm_rolv_epi32 x (mm_set_epi32 0 0 0 24))

/-- The body of the round loop of `SM4_AESNI::encrypt`, with `rki = rk[i]`. -/
def SM4_AESNI.round (state : List Nat) (rki : Nat) : List Nat :=
  let tmp := mm_xor_si128 state (mm_set1_epi32 rki)
  let tmp := mm_aesenc_si128 tmp mm_setzero_si128
  let state := SM4_AESNI.linear_transform tmp
  mm_shuffle_epi32 state 0x39

/-- The source's `SM4_AESNI::encrypt(out, in, rk)`; the result is `out`. -/
def SM4_AESNI.encrypt (inp : List Nat) (rk : List Nat) : List Nat :=
  let state := mm_loadu_si128 inp 0
  let state := (List.range SM4_NUM_ROUNDS).foldl
    (fun state i => SM4_AESNI.round state (rk.getD i 0)) state
  mm_shuffle_epi32 state 0x1B

/-! ## SM3 (`Project 4/sm3.cpp`) -/

def SM3_T1 : Nat := 0x79cc4519

def SM3_T2 : Nat := 0x7a879d8a

/-- The macro `ROTL32(x, n) = ((x << n) | (x >> (32 - n)))` on `uint32_t`.  For
`n` outside `1..31` a shift count leaves the range C defines; the model takes
both counts modulo 32, as the x86 shift does, which makes `ROTL32(x, n)` the left
rotation by `n mod 32`. -/
def ROTL32 (x n : Nat) : Nat :=
  u32 (x <<< (n % 32)) ||| (x >>> ((32 - n % 32) % 32))

/-- The macro `FF0(x, y, z) = x ^ y ^ z`. -/
def FF0 (x y z : Nat) : Nat := x ^^^ y ^^^ z

/-- The macro `FF1(x, y, z) = ((x & y) | x & z | y & z)`. -/
def FF1 (x y z : Nat) : Nat := (x &&& y) ||| (x &&& z) ||| (y &&& z)

/-- The macro `GG0(x, y, z) = x ^ y ^ z`. -/
def GG0 (x y z : Nat) : Nat := x ^^^ y ^^^ z

/-- The macro `GG1(x, y, z) = ((x & y) | (~x & z))`; `~x` is the complement in
`uint32_t`. -/
def GG1 (x y z : Nat) : Nat := (x &&& y) ||| ((x ^^^ 0xFFFFFFFF) &&& z)

/-- The macro `P0(x) = x ^ ROTL32(x, 9) ^ ROTL32(x, 17)`. -/
def P0 (x : Nat) : Nat := x ^^^ ROTL32 x 9 ^^^ ROTL32 x 17

/-- The macro `P1(x) = x ^ ROTL32(x, 15) ^ ROTL32(x, 23)`. -/
def P1 (x : Nat) : Nat := x ^^^ ROTL32 x 15 ^^^ ROTL32 x 23

/-- The struct `SM3_CTX`. -/
structure SM3_CTX where
  state : List Nat
  totalLength : Nat
  bufferLength : Nat
  buffer : List Nat

/-- The source's `sm3_init(ctx)`: it sets the state words and the two lengths and
leaves `buffer` as it was. -/
def sm3_init (ctx : SM3_CTX) : SM3_CTX :=
  { ctx with
    state := [0x7380166F, 0x4914B2B9, 0x172442D7, 0xDA8A0600, 0xA96F30BC, 0x163138AA,
      0xE38DEE4D, 0xB0FB0E4E]
    totalLength := 0
    bufferLength := 0 }

/-- The message expansion of `sm3_compress`: the array `W[68]`. -/
def sm3_expand (block : List Nat) : List Nat :=
  let W16 := (List.range 16).map fun i =>
    load_word (block.getD (4 * i) 0) (block.getD (4 * i + 1) 0) (block.getD (4 * i + 2) 0)
      (block.getD (4 * i + 3) 0)
  (List.range 52).foldl (fun W k =>
    let i := k + 16
    W ++ [P1 (W.getD (i - 16) 0 ^^^ W.getD (i - 9) 0 ^^^ ROTL32 (W.getD (i - 3) 0) 15) ^^^
      ROTL32 (W.getD (i - 13) 0) 7 ^^^ W.getD (i - 6) 0]) W16

/-- The working variables `A .. H` of the compression function. -/
structure SM3_Regs where
  A : Nat
  B : Nat
  C : Nat
  D : Nat
  E : Nat
  F : Nat
  G : Nat
  H : Nat

/-- One pass of the 64-round loop of `sm3_compress`, at index `i`, with
`W1[i] = W[i] ^ W[i+4]`. -/
def sm3_round (W : List Nat) (r : SM3_Regs) (i : Nat) : SM3_Regs :=
  let T := if i < 16 then SM3_T1 else SM3_T2
  let SS1 := ROTL32 (u32 (ROTL32 r.A 12 + r.E + ROTL32 T i)) 7
  let SS2 := SS1 ^^^ ROTL32 r.A 12
  let FF := if i < 16 then FF0 r.A r.B r.C else FF1 r.A r.B r.C
  let GG := if i < 16 then GG0 r.E r.F r.G else GG1 r.E r.F r.G
  let TT1 := u32 (FF + r.D + SS2 + (W.getD i 0 ^^^ W.getD (i + 4) 0))
  let TT2 := u32 (GG + r.H + SS1 + W.getD i 0)
  { A := TT1, B := r.A, C := ROTL32 r.B 9, D := r.C, E := P0 TT2, F := r.E, G := ROTL32 r.F 19,
    H := r.G }

/-- The source's `sm3_compress(ctx, block)`; the result is the updated context. -/
def sm3_compress (ctx : SM3_CTX) (block : List Nat) : SM3_CTX :=
  let W := sm3_expand block
  let r0 : SM3_Regs :=
    { A := ctx.state.getD 0 0, B := ctx.state.getD 1 0, C := ctx.state.getD 2 0,
      D := ctx.state.getD 3 0, E := ctx.state.getD 4 0, F := ctx.state.getD 5 0,
      G := ctx.state.getD 6 0, H := ctx.state.getD 7 0 }
  let r := (List.range 64).foldl (sm3_round W) r0
  { ctx with
    state := [ctx.state.getD 0 0 ^^^ r.A, ctx.state.getD 1 0 ^^^ r.B, ctx.state.getD 2 0 ^^^ r.C,
      ctx.state.getD 3 0 ^^^ r.D, ctx.state.getD 4 0 ^^^ r.E, ctx.state.getD 5 0 ^^^ r.F,
      ctx.state.getD 6 0 ^^^ r.G, ctx.state.getD 7 0 ^^^ r.H] }

/-- The number `fill` of bytes that one pass of the loop of `sm3_update` copies:
`64 - ctx->bufferLength` in `size_t`, capped by the remaining `length`. -/
def sm3_update_fill (ctx : SM3_CTX) (data : List Nat) : Nat :=
  let fill := u64 (64 + 2 ^ 64 - ctx.bufferLength)
  if fill > data.length then data.length else fill

/-- The effect of one pass of the loop of `sm3_update` on the context:
`memcpy(ctx->buffer + ctx->bufferLength, data, fill)` replaces `fill` bytes of the
buffer, and a full buffer is compressed. -/
def sm3_update_step (ctx : SM3_CTX) (data : List Nat) : SM3_CTX :=
  let fill := sm3_update_fill ctx data
  let buffer := ctx.buffer.take ctx.bufferLength ++ data.take fill ++
    ctx.buffer.drop (ctx.bufferLength + fill)
  let ctx := { ctx with buffer := buffer, bufferLength := u64 (ctx.bufferLength + fill) }
  if ctx.bufferLength = 64 then { sm3_compress ctx ctx.buffer with bufferLength := 0 }
  else ctx

/-- The loop `while (length > 0)` of `sm3_update`, with `length = data.length`:
each pass runs `sm3_update_step` and advances `data` by `fill`.  The first
argument bounds the number of passes. -/
def sm3_update_loop : Nat → SM3_CTX → List Nat → SM3_CTX
  | 0, ctx, _ => ctx
  | fuel + 1, ctx, data =>
    if data.length > 0 then
      sm3_update_loop fuel (sm3_update_step ctx data) (data.drop (sm3_update_fill ctx data))
    else ctx

/-- The source's `sm3_update(ctx, data, length)` with `length = data.length`.  With
`bufferLength <= 64` every pass but possibly the first consumes at least one
byte, so `length + 1` passes are enough. -/
def sm3_update (ctx : SM3_CTX) (data : List Nat) : SM3_CTX :=
  sm3_update_loop (data.length + 1)
    { ctx with totalLength := u64 (ctx.totalLength + u64 (data.length * 8)) } data

/-- The effect of `memset(dst + off, 0, n)` on `dst`. -/
def memset_zero (dst : List Nat) (off n : Nat) : List Nat :=
  dst.take off ++ List.replicate n 0 ++ dst.drop (off + n)

/-- The part of `sm3_final` before its last call of `sm3_compress`: the `0x80`
byte, the extra block when fewer than eight bytes are left, the zero fill and the
eight length bytes. -/
def sm3_final_pad (ctx : SM3_CTX) : SM3_CTX :=
  let ctx := { ctx with
    buffer := (ctx.buffer.set ctx.bufferLength 0x80)
    bufferLength := ctx.bufferLength + 1 }
  let ctx :=
    if ctx.bufferLength > 56 then
      let ctx := { ctx with
        buffer := (memset_zero ctx.buffer ctx.bufferLength (64 - ctx.bufferLength)) }
      { sm3_compress ctx ctx.buffer with bufferLength := 0 }
    else ctx
  let ctx := { ctx with
    buffer := (memset_zero ctx.buffer ctx.bufferLength (56 - ctx.bufferLength)) }
  { ctx with
    buffer := ((List.range 8).foldl
      (fun buf i => buf.set (56 + i) ((ctx.totalLength >>> (8 * (7 - i))) &&& 0xFF)) ctx.buffer) }

/-- The output loop of `sm3_final`: the eight state words, big-endian. -/
def sm3_digest (state : List Nat) : List Nat :=
  (List.range 8).foldl (fun d i =>
    d ++ [(state.getD i 0 >>> 24) &&& 0xFF, (state.getD i 0 >>> 16) &&& 0xFF,
      (state.getD i 0 >>> 8) &&& 0xFF, state.getD i 0 &&& 0xFF]) []

/-- The source's `sm3_final(ctx, digest)`; the result is `digest`. -/
def sm3_final (ctx : SM3_CTX) : List Nat :=
  let ctx := sm3_final_pad ctx
  sm3_digest (sm3_compress ctx ctx.buffer).state

/-- The source's `sm3_hash(data, length, digest)` with `length = data.length`; the
result is `digest`.  The argument `ctx` is the content of the local variable
`SM3_CTX ctx` before `sm3_init`, which the source does not initialise. -/
def sm3_hash (ctx : SM3_CTX) (data : List Nat) : List Nat :=
  sm3_final (sm3_update (sm3_init ctx) data)

/-- A context with every field zero. -/
def SM3_CTX.zero : SM3_CTX :=
  { state := List.replicate 8 0, totalLength := 0, bufferLength := 0,
    buffer := List.replicate 64 0 }

/-- The test message `"abc"` of `main`. -/
def sm3_test_data : List Nat := [0x61, 0x62, 0x63]

/-- Two contexts that agree on everything `sm3_update` and `sm3_final` read: the
state, the two lengths and the first `bufferLength` bytes of the 64-byte buffer. -/
def SM3_CTX.Agree (c d : SM3_CTX) : Prop :=
  c.state = d.state ∧ c.totalLength = d.totalLength ∧ c.bufferLength = d.bufferLength ∧
    c.buffer.take c.bufferLength = d.buffer.take c.bufferLength ∧
    c.buffer.length = 64 ∧ d.buffer.length = 64

/-- The source's table `T_table[64]` of `sm3.cpp`. -/
def T_table : List Nat :=
  [0x79cc4519, 0xf3988a32, 0xe7311465, 0xce6228cb,
   0x9cc45197, 0x3988a32f, 0x7311465e, 0xe6228cbc,
   0xcc451979, 0x988a32f3, 0x311465e7, 0x6228cbce,
   0xc451979c, 0x88a32f39, 0x11465e73, 0x228cbce6,
   0x7a879d8a, 0xf4c1d957, 0xe983b2ae, 0xd30664c5,
   0xa879d8a7, 0x4c1d957f, 0x983b2aed, 0x30664c5d,
   0x879d8a7a, 0xc1d957f4, 0x83b2aed9, 0x0664c5d3,
   0x79d8a7a8, 0x1d957f4c, 0x3b2aed98, 0x664c5d30,
   0x9d8a7a87, 0xd957f4c1, 0xb2aed983, 0x64c5d306,
   0xd8a7a879, 0x957f4c1d, 0x2aed983b, 0x4c5d3066,
   0x8a7a879d, 0x57f4c1d9, 0xaed983b2, 0xc5d30664,
   0xa7a879d8, 0x7f4c1d95, 0xed983b2a, 0x5d30664c,
   0x7a879d8a, 0xf4c1d957, 0xe983b2ae, 0xd30664c5,
   0xa879d8a7, 0x4c1d957f, 0x983b2aed, 0x30664c5d,
   0x879d8a7a, 0xc1d957f4, 0x83b2aed9, 0x0664c5d3,
   0x79d8a7a8, 0x1d957f4c, 0x3b2aed98, 0x664c5d30]

/-- One pass of the 64-round loop of `sm3_compress_optimized1`, at index `i`:
as `sm3_round`, with `T = T_table[i]` added in place of `ROTL32(T, i)`. -/
def sm3_round_optimized1 (W : List Nat) (r : SM3_Regs) (i : Nat) : SM3_Regs :=
  let T := T_table.getD i 0
  let SS1 := ROTL32 (u32 (ROTL32 r.A 12 + r.E + T)) 7
  let SS2 := SS1 ^^^ ROTL32 r.A 12
  let FF := if i < 16 then FF0 r.A r.B r.C else FF1 r.A r.B r.C
  let GG := if i < 16 then GG0 r.E r.F r.G else GG1 r.E r.F r.G
  let TT1 := u32 (FF + r.D + SS2 + (W.getD i 0 ^^^ W.getD (i + 4) 0))
  let TT2 := u32 (GG + r.H + SS1 + W.getD i 0)
  { A := TT1, B := r.A, C := ROTL32 r.B 9, D := r.C, E := P0 TT2, F := r.E, G := ROTL32 r.F 19,
    H := r.G }

/-- The source's `sm3_compress_optimized1(ctx, block)`; the result is the updated
context. -/
def sm3_compress_optimized1 (ctx : SM3_CTX) (block : List Nat) : SM3_CTX :=
  let W := sm3_expand block
  let r0 : SM3_Regs :=
    { A := ctx.state.getD 0 0, B := ctx.state.getD 1 0, C := ctx.state.getD 2 0,
      D := ctx.state.getD 3 0, E := ctx.state.getD 4 0, F := ctx.state.getD 5 0,
      G := ctx.state.getD 6 0, H := ctx.state.getD 7 0 }
  let r := (List.range 64).foldl (sm3_round_optimized1 W) r0
  { ctx with
    state := [ctx.state.getD 0 0 ^^^ r.A, ctx.state.getD 1 0 ^^^ r.B, ctx.state.getD 2 0 ^^^ r.C,
      ctx.state.getD 3 0 ^^^ r.D, ctx.state.getD 4 0 ^^^ r.E, ctx.state.getD 5 0 ^^^ r.F,
      ctx.state.getD 6 0 ^^^ r.G, ctx.state.getD 7 0 ^^^ r.H] }

/-- The source's `sm3_hash_optimized1(data, length, digest)` with
`length = data.length`; the result is `digest`.  Its body repeats `sm3_final` with
`sm3_compress_optimized1` in place of `sm3_compress`, and `sm3_update` still
calls `sm3_compress`.  The argument `ctx` is the content of the local variable
before `sm3_init`. -/
def sm3_hash_optimized1 (ctx : SM3_CTX) (data : List Nat) : List Nat :=
  let ctx := sm3_update (sm3_init ctx) data
  let ctx := { ctx with
    buffer := (ctx.buffer.set ctx.bufferLength 0x80)
    bufferLength := ctx.bufferLength + 1 }
  let ctx :=
    if ctx.bufferLength > 56 then
      let ctx := { ctx with
        buffer := (memset_zero ctx.buffer ctx.bufferLength (64 - ctx.bufferLength)) }
      { sm3_compress_optimized1 ctx ctx.buffer with bufferLength := 0 }
    else ctx
  let ctx := { ctx with
    buffer := (memset_zero ctx.buffer ctx.bufferLength (56 - ctx.bufferLength)) }
  let ctx := { ctx with
    buffer := ((List.range 8).foldl
      (fun buf i => buf.set (56 + i) ((ctx.totalLength >>> (8 * (7 - i))) &&& 0xFF)) ctx.buffer) }
  sm3_digest (sm3_compress_optimized1 ctx ctx.buffer).state

/-- The byte `b` repeated in all four byte lanes of a 32-bit word. -/
def broadcast8 (b : Nat) : Nat :=
  (b <<< 24) ||| (b <<< 16) ||| (b <<< 8) ||| b

/-- The XOR of the `SM4_SBOX` images of the four bytes of `t`. -/
def sbox_xor (t : Nat) : Nat :=
  SM4_SBOX.getD (t &&& 0xFF) 0 ^^^ SM4_SBOX.getD ((t >>> 8) &&& 0xFF) 0 ^^^
    SM4_SBOX.getD ((t >>> 16) &&& 0xFF) 0 ^^^ SM4_SBOX.getD (t >>> 24) 0

/-- The 16-byte block `key XOR FK`: byte `i` of the key XOR byte `i` of the four
words `FK[0..3]` written big-endian. -/
def key_xor_FK (key : List Nat) : List Nat :=
  (List.range 16).map fun i =>
    key.getD i 0 ^^^
      (SM4_TTable.store_block (FK.getD 0 0) (FK.getD 1 0) (FK.getD 2 0) (FK.getD 3 0)).getD i 0

/-- The register file after the first `n` passes of the round loop of
`SM4_TTable::encrypt` run with the constants `CK` as round keys, started from the
four big-endian key words XOR `FK[0..3]`. -/
def ck_rounds (key : List Nat) (n : Nat) : Nat × Nat × Nat × Nat :=
  (List.range n).foldl (fun x j => SM4_TTable.new.round x (CK.getD j 0))
    ((SM4_TTable.load_block key).1 ^^^ FK.getD 0 0,
     (SM4_TTable.load_block key).2.1 ^^^ FK.getD 1 0,
     (SM4_TTable.load_block key).2.2.1 ^^^ FK.getD 2 0,
     (SM4_TTable.load_block key).2.2.2 ^^^ FK.getD 3 0)

/-- One pass of the loop of `sm3_update` seen from the bytes it copies: `chunk` is
appended to the buffered bytes, and a full buffer is compressed. -/
def sm3_copy_step (ctx : SM3_CTX) (chunk : List Nat) : SM3_CTX :=
  let buffer := ctx.buffer.take ctx.bufferLength ++ chunk ++
    ctx.buffer.drop (ctx.bufferLength + chunk.length)
  let ctx := { ctx with buffer := buffer, bufferLength := u64 (ctx.bufferLength + chunk.length) }
  if ctx.bufferLength = 64 then { sm3_compress ctx ctx.buffer with bufferLength := 0 }
  else ctx

/-- The state words after `sm3_compress` on a context with state `st`. -/
def sm3_compress_state (st : List Nat) (block : List Nat) : List Nat :=
  (sm3_compress { state := st, totalLength := 0, bufferLength := 0, buffer := [] } block).state

/-- The state obtained by folding `sm3_compress` over the first `n` consecutive
64-byte blocks of `l`, as the specification words the hash. -/
def sm3_fold_blocks : List Nat → Nat → List Nat → List Nat
  | st, 0, _ => st
  | st, n + 1, l => sm3_fold_blocks (sm3_compress_state st (l.take 64)) n (l.drop 64)

/-- The number `k` of zero bytes in the padding of a message of `len` bytes. -/
def sm3_padding_zeros (len : Nat) : Nat :=
  (64 - (len + 9) % 64) % 64

/-- The padded message as the specification words it: `m`, the byte `0x80`, `k`
zero bytes, and the 8-byte big-endian encoding of `8 * |m|`. -/
def sm3_pad (m : List Nat) : List Nat :=
  m ++ [0x80] ++ List.replicate (sm3_padding_zeros m.length) 0 ++ be_bytes64 (8 * m.length)

/-- The initial state words that `sm3_init` sets. -/
def sm3_iv : List Nat :=
  [0x7380166F, 0x4914B2B9, 0x172442D7, 0xDA8A0600, 0xA96F30BC, 0x163138AA, 0xE38DEE4D,
   0xB0FB0E4E]

/-! # Theorems -/

set_option maxRecDepth 100000

/-! ## Auxiliary facts: bytes, words, buffers -/

theorem getD_lt_of_forall {l : List Nat} {B : Nat} (h : ∀ v ∈ l, v < B) (hB : 0 < B) (i : Nat) :
    l.getD i 0 < B := by
  by_cases hi : i < l.length
  · rw [List.getD_eq_getElem l 0 hi]
    exact h _ (List.getElem_mem hi)
  · rw [List.getD_eq_default l 0 (by omega)]
    exact hB

theorem and_255_eq_mod (x : Nat) : x &&& 0xFF = x % 256 :=
  Nat.and_pow_two_sub_one_eq_mod x 8

theorem or_bytes_eq_add (b0 b1 b2 b3 : Nat) (h1 : b1 < 256) (h2 : b2 < 256) (h3 : b3 < 256) :
    (b0 <<< 24) ||| (b1 <<< 16) ||| (b2 <<< 8) ||| b3
      = b0 * 2 ^ 24 + b1 * 2 ^ 16 + b2 * 2 ^ 8 + b3 := by
  have e3 : 2 ^ 8 * b2 ||| b3 = 2 ^ 8 * b2 + b3 := (Nat.mul_add_lt_is_or (by omega) b2).symm
  have e2 : 2 ^ 16 * b1 ||| (2 ^ 8 * b2 + b3) = 2 ^ 16 * b1 + (2 ^ 8 * b2 + b3) :=
    (Nat.mul_add_lt_is_or (by omega) b1).symm
  have e1 : 2 ^ 24 * b0 ||| (2 ^ 16 * b1 + (2 ^ 8 * b2 + b3))
      = 2 ^ 24 * b0 + (2 ^ 16 * b1 + (2 ^ 8 * b2 + b3)) :=
    (Nat.mul_add_lt_is_or (by omega) b0).symm
  rw [Nat.shiftLeft_eq, Nat.shiftLeft_eq, Nat.shiftLeft_eq, Nat.lor_assoc, Nat.lor_assoc,
    Nat.mul_comm b2, e3, Nat.mul_comm b1, e2, Nat.mul_comm b0, e1]
  omega

theorem load_word_eq (b0 b1 b2 b3 : Nat) (h0 : b0 < 256) (h1 : b1 < 256) (h2 : b2 < 256)
    (h3 : b3 < 256) : load_word b0 b1 b2 b3 = b0 * 2 ^ 24 + b1 * 2 ^ 16 + b2 * 2 ^ 8 + b3 := by
  unfold load_word u32
  rw [or_bytes_eq_add b0 b1 b2 b3 h1 h2 h3]
  omega

theorem store_word_eq (x : Nat) :
    store_word x = [(x / 2 ^ 24) % 256, (x / 2 ^ 16) % 256, (x / 2 ^ 8) % 256, x % 256] := by
  simp [store_word, List.range_succ, and_255_eq_mod, Nat.shiftRight_eq_div_pow]

theorem load_store_word (x : Nat) (hx : x < 2 ^ 32) :
    load_word ((x / 2 ^ 24) % 256) ((x / 2 ^ 16) % 256) ((x / 2 ^ 8) % 256) (x % 256) = x := by
  rw [load_word_eq _ _ _ _ (Nat.mod_lt _ (by norm_num)) (Nat.mod_lt _ (by norm_num))
    (Nat.mod_lt _ (by norm_num)) (Nat.mod_lt _ (by norm_num))]
  omega

theorem store_load_word (b0 b1 b2 b3 : Nat) (h0 : b0 < 256) (h1 : b1 < 256) (h2 : b2 < 256)
    (h3 : b3 < 256) : store_word (load_word b0 b1 b2 b3) = [b0, b1, b2, b3] := by
  rw [store_word_eq, load_word_eq b0 b1 b2 b3 h0 h1 h2 h3]
  have e0 : (b0 * 2 ^ 24 + b1 * 2 ^ 16 + b2 * 2 ^ 8 + b3) / 2 ^ 24 % 256 = b0 := by omega
  have e1 : (b0 * 2 ^ 24 + b1 * 2 ^ 16 + b2 * 2 ^ 8 + b3) / 2 ^ 16 % 256 = b1 := by omega
  have e2 : (b0 * 2 ^ 24 + b1 * 2 ^ 16 + b2 * 2 ^ 8 + b3) / 2 ^ 8 % 256 = b2 := by omega
  have e3 : (b0 * 2 ^ 24 + b1 * 2 ^ 16 + b2 * 2 ^ 8 + b3) % 256 = b3 := by omega
  rw [e0, e1, e2, e3]

theorem eq_of_length_16 (x : List Nat) (hx : x.length = 16) :
    x = [x.getD 0 0, x.getD 1 0, x.getD 2 0, x.getD 3 0, x.getD 4 0, x.getD 5 0, x.getD 6 0,
      x.getD 7 0, x.getD 8 0, x.getD 9 0, x.getD 10 0, x.getD 11 0, x.getD 12 0, x.getD 13 0,
      x.getD 14 0, x.getD 15 0] := by
  match x, hx with
  | [_, _, _, _, _, _, _, _, _, _, _, _, _, _, _, _], _ => rfl

theorem SM4_TTable.load_store_block (a b c d : Nat) (ha : a < 2 ^ 32) (hb : b < 2 ^ 32)
    (hc : c < 2 ^ 32) (hd : d < 2 ^ 32) :
    SM4_TTable.load_block (SM4_TTable.store_block a b c d) = (a, b, c, d) := by
  simp only [SM4_TTable.load_block, SM4_TTable.store_block, store_word_eq]
  simp only [List.cons_append, List.nil_append, List.getD_cons_zero, List.getD_cons_succ]
  rw [load_store_word a ha, load_store_word b hb, load_store_word c hc, load_store_word d hd]

theorem SM4_TTable.store_load_block (x : List Nat) (hx : x.length = 16)
    (hb : ∀ b ∈ x, b < 256) :
    SM4_TTable.store_block (SM4_TTable.load_block x).1 (SM4_TTable.load_block x).2.1
      (SM4_TTable.load_block x).2.2.1 (SM4_TTable.load_block x).2.2.2 = x := by
  have g : ∀ i, x.getD i 0 < 256 := getD_lt_of_forall hb (by norm_num)
  simp only [SM4_TTable.load_block, SM4_TTable.store_block]
  rw [store_load_word _ _ _ _ (g 0) (g 1) (g 2) (g 3),
    store_load_word _ _ _ _ (g 4) (g 5) (g 6) (g 7),
    store_load_word _ _ _ _ (g 8) (g 9) (g 10) (g 11),
    store_load_word _ _ _ _ (g 12) (g 13) (g 14) (g 15)]
  exact (eq_of_length_16 x hx).symm

/-! ## The round function is an involution up to register reversal -/

theorem SM4_TTable.round_eq (T : SM4_TTable) (x0 x1 x2 x3 rki : Nat) :
    T.round (x0, x1, x2, x3) rki = (x1, x2, x3, x0 ^^^ T.lookup (x1 ^^^ x2 ^^^ x3 ^^^ rki)) := by
  simp only [SM4_TTable.round, SM4_TTable.lookup, Nat.xor_assoc]

theorem SM4_TTable.round_rev_round (T : SM4_TTable) (x : Nat × Nat × Nat × Nat) (rki : Nat) :
    T.round (rev4 (T.round x rki)) rki = rev4 x := by
  obtain ⟨x0, x1, x2, x3⟩ := x
  rw [SM4_TTable.round_eq, rev4, SM4_TTable.round_eq, rev4]
  have e : x3 ^^^ x2 ^^^ x1 ^^^ rki = x1 ^^^ x2 ^^^ x3 ^^^ rki := by
    rw [Nat.xor_comm x3 x2, Nat.xor_assoc x2 x3 x1, Nat.xor_comm x3 x1, ← Nat.xor_assoc x2 x1 x3,
      Nat.xor_comm x2 x1]
  rw [e, Nat.xor_cancel_right]

theorem SM4_TTable.foldl_round_rev (T : SM4_TTable) (ks : List Nat) :
    ∀ x : Nat × Nat × Nat × Nat,
      ks.reverse.foldl T.round (rev4 (ks.foldl T.round x)) = rev4 x := by
  induction ks with
  | nil => intro x; rfl
  | cons k ks ih =>
    intro x
    have e : (k :: ks).foldl T.round x = ks.foldl T.round (T.round x k) := rfl
    rw [List.reverse_cons, List.foldl_append, e, ih (T.round x k)]
    exact SM4_TTable.round_rev_round T x k

theorem SM4_TTable.lookup_lt (T : SM4_TTable) (hT : T.Words) (t : Nat) : T.lookup t < 2 ^ 32 := by
  obtain ⟨h0, h1, h2, h3⟩ := hT
  unfold SM4_TTable.lookup
  exact Nat.xor_lt_two_pow (Nat.xor_lt_two_pow (Nat.xor_lt_two_pow
    (getD_lt_of_forall h0 (by norm_num) _) (getD_lt_of_forall h1 (by norm_num) _))
    (getD_lt_of_forall h2 (by norm_num) _)) (getD_lt_of_forall h3 (by norm_num) _)

theorem SM4_TTable.round_word4 (T : SM4_TTable) (hT : T.Words) (x : Nat × Nat × Nat × Nat)
    (hx : Word4 x) (rki : Nat) : Word4 (T.round x rki) := by
  obtain ⟨x0, x1, x2, x3⟩ := x
  obtain ⟨h0, h1, h2, h3⟩ := hx
  rw [SM4_TTable.round_eq]
  exact ⟨h1, h2, h3, Nat.xor_lt_two_pow h0 (T.lookup_lt hT _)⟩

theorem SM4_TTable.foldl_round_word4 (T : SM4_TTable) (hT : T.Words) (ks : List Nat) :
    ∀ x : Nat × Nat × Nat × Nat, Word4 x → Word4 (ks.foldl T.round x) := by
  induction ks with
  | nil => intro x hx; exact hx
  | cons k ks ih => intro x hx; exact ih _ (T.round_word4 hT x hx k)

/-- A loop `for i in 0..n` that reads `l[i]` visits the elements of `l` in order. -/
theorem foldl_range_getD {α : Type} (f : α → Nat → α) (l : List Nat) (n : Nat)
    (h : l.length = n) (a : α) :
    (List.range n).foldl (fun x i => f x (l.getD i 0)) a = l.foldl f a := by
  have e : (List.range n).map (fun i => l.getD i 0) = l := by
    apply List.ext_getElem
    · simp [h]
    · intro i h1 h2
      simp only [List.getElem_map, List.getElem_range]
      exact List.getD_eq_getElem l 0 h2
  calc (List.range n).foldl (fun x i => f x (l.getD i 0)) a
      = ((List.range n).map (fun i => l.getD i 0)).foldl f a := by rw [List.foldl_map]
    _ = l.foldl f a := by rw [e]

theorem SM4_TTable.encrypt_eq (T : SM4_TTable) (inp rk : List Nat) (h : rk.length = 32) :
    T.encrypt inp rk
      = SM4_TTable.store_block (rev4 (rk.foldl T.round (SM4_TTable.load_block inp))).1
          (rev4 (rk.foldl T.round (SM4_TTable.load_block inp))).2.1
          (rev4 (rk.foldl T.round (SM4_TTable.load_block inp))).2.2.1
          (rev4 (rk.foldl T.round (SM4_TTable.load_block inp))).2.2.2 := by
  unfold SM4_TTable.encrypt
  rw [foldl_range_getD T.round rk SM4_NUM_ROUNDS h]
  rfl

theorem SM4_TTable.load_block_word4 (x : List Nat) : Word4 (SM4_TTable.load_block x) := by
  refine ⟨?_, ?_, ?_, ?_⟩ <;> exact Nat.mod_lt _ (by norm_num)

theorem word4_rev4 (x : Nat × Nat × Nat × Nat) (h : Word4 x) : Word4 (rev4 x) := by
  obtain ⟨x0, x1, x2, x3⟩ := x
  obtain ⟨h0, h1, h2, h3⟩ := h
  exact ⟨h3, h2, h1, h0⟩

theorem SM4_TTable.load_store_block4 (x : Nat × Nat × Nat × Nat) (h : Word4 x) :
    SM4_TTable.load_block (SM4_TTable.store_block x.1 x.2.1 x.2.2.1 x.2.2.2) = x := by
  obtain ⟨x0, x1, x2, x3⟩ := x
  obtain ⟨h0, h1, h2, h3⟩ := h
  exact SM4_TTable.load_store_block x0 x1 x2 x3 h0 h1 h2 h3

/-- Round trip for any table set whose entries are 32-bit words. -/
theorem SM4_TTable.encrypt_reverse_of_words (T : SM4_TTable) (hT : T.Words) (x rk : List Nat)
    (hx : x.length = 16) (hb : ∀ b ∈ x, b < 256) (hrk : rk.length = 32) :
    T.encrypt (T.encrypt x rk) rk.reverse = x := by
  have hw : Word4 (rev4 (rk.foldl T.round (SM4_TTable.load_block x))) :=
    word4_rev4 _ (T.foldl_round_word4 hT rk _ (SM4_TTable.load_block_word4 x))
  rw [T.encrypt_eq _ rk.reverse (by simp [hrk]), T.encrypt_eq x rk hrk,
    SM4_TTable.load_store_block4 _ hw, T.foldl_round_rev rk]
  have e : rev4 (rev4 (SM4_TTable.load_block x)) = SM4_TTable.load_block x := rfl
  rw [e]
  exact SM4_TTable.store_load_block x hx hb

theorem ROTL_lt (x n : Nat) (hx : x < 2 ^ 32) : ROTL x n < 2 ^ 32 := by
  unfold ROTL u32
  apply Nat.or_lt_two_pow (Nat.mod_lt _ (by norm_num))
  rw [Nat.shiftRight_eq_div_pow]
  exact Nat.lt_of_le_of_lt (Nat.div_le_self _ _) hx

theorem ROTL_zero (x : Nat) (hx : x < 2 ^ 32) : ROTL x 0 = x := by
  unfold ROTL u32
  rw [Nat.shiftLeft_zero, Nat.mod_eq_of_lt hx, Nat.shiftRight_eq_div_pow,
    Nat.div_eq_of_lt (by simpa using hx), Nat.or_zero]

theorem getD_map_range (f : Nat → Nat) (n i : Nat) (h : i < n) :
    ((List.range n).map f).getD i 0 = f i := by
  rw [List.getD_eq_getElem _ 0 (by simpa using h)]
  simp

/-- Each `T0` entry is a 32-bit word, and the truncations in its computation do
not change the value. -/
theorem SM4_TTable.entry0_eq :
    ∀ i < 256, SM4_TTable.entry0 i < 2 ^ 32 ∧
      SM4_TTable.entry0 i
        = L_transform ((SM4_SBOX.getD i 0 <<< 24) ||| (SM4_SBOX.getD i 0 <<< 16) |||
            (SM4_SBOX.getD i 0 <<< 8) ||| SM4_SBOX.getD i 0) := by
  decide

theorem SM4_TTable.new_words : SM4_TTable.new.Words := by
  refine ⟨?_, ?_, ?_, ?_⟩ <;> intro v hv <;> simp only [SM4_TTable.new, List.mem_map,
    List.mem_range] at hv <;> obtain ⟨i, hi, rfl⟩ := hv
  · exact (SM4_TTable.entry0_eq i hi).1
  · exact ROTL_lt _ _ (SM4_TTable.entry0_eq i hi).1
  · exact ROTL_lt _ _ (SM4_TTable.entry0_eq i hi).1
  · exact ROTL_lt _ _ (SM4_TTable.entry0_eq i hi).1

theorem be_val_append_singleton (l : List Nat) (b : Nat) : be_val (l ++ [b]) = be_val l * 256 + b := by
  simp [be_val, List.foldl_append]

theorem be_val_lt (l : List Nat) (h : ∀ b ∈ l, b < 256) : be_val l < 256 ^ l.length := by
  induction l using List.reverseRecOn with
  | nil => simp [be_val]
  | append_singleton t b ih =>
    have hb : b < 256 := h b (by simp)
    have ht := ih (fun x hx => h x (by simp [hx]))
    rw [be_val_append_singleton, List.length_append, List.length_singleton, Nat.pow_succ]
    generalize 256 ^ t.length = P at *
    omega

theorem SM4_GCM.incr_loop_append (pre suf : List Nat) (b : Nat) :
    SM4_GCM.incr_loop (pre.length + 1) (pre ++ b :: suf)
      = if (b + 1) % 256 ≠ 0 then pre ++ ((b + 1) % 256) :: suf
        else SM4_GCM.incr_loop pre.length (pre ++ ((b + 1) % 256) :: suf) := by
  have e1 : (pre ++ b :: suf).getD pre.length 0 = b := by
    rw [List.getD_eq_getElem?_getD, List.getElem?_append_right (Nat.le_refl _)]
    simp
  have e2 : ∀ v, (pre ++ b :: suf).set pre.length v = pre ++ v :: suf := by
    intro v
    simp
  rw [SM4_GCM.incr_loop]
  simp only [e1, e2]

theorem SM4_GCM.incr_loop_spec (tl : List Nat) :
    ∀ hd suf : List Nat, (∀ b ∈ tl, b < 256) →
      ∃ tl2 : List Nat, tl2.length = tl.length ∧ (∀ b ∈ tl2, b < 256) ∧
        be_val tl2 = (be_val tl + 1) % 256 ^ tl.length ∧
        SM4_GCM.incr_loop (hd.length + tl.length) (hd ++ tl ++ suf)
          = if be_val tl + 1 < 256 ^ tl.length then hd ++ tl2 ++ suf
            else SM4_GCM.incr_loop hd.length (hd ++ tl2 ++ suf) := by
  induction tl using List.reverseRecOn with
  | nil =>
    intro hd suf _
    refine ⟨[], rfl, by simp, by simp [be_val], ?_⟩
    simp [be_val]
  | append_singleton t b ih =>
    intro hd suf h
    have hb : b < 256 := h b (by simp)
    have ht : ∀ x ∈ t, x < 256 := fun x hx => h x (by simp [hx])
    have hlt := be_val_lt t ht
    have hstep : SM4_GCM.incr_loop (hd.length + (t ++ [b]).length) (hd ++ (t ++ [b]) ++ suf)
        = if (b + 1) % 256 ≠ 0 then (hd ++ t) ++ ((b + 1) % 256) :: suf
          else SM4_GCM.incr_loop (hd ++ t).length ((hd ++ t) ++ ((b + 1) % 256) :: suf) := by
      have := SM4_GCM.incr_loop_append (hd ++ t) suf b
      simpa [Nat.add_assoc] using this
    rw [hstep, be_val_append_singleton, List.length_append, List.length_singleton, Nat.pow_succ]
    by_cases hc : b = 255
    · subst hc
      obtain ⟨t2, hl, hb2, hv, hloop⟩ := ih hd (0 :: suf) ht
      refine ⟨t2 ++ [0], by simp [hl], ?_, ?_, ?_⟩
      · intro x hx
        rcases List.mem_append.1 hx with hx | hx
        · exact hb2 x hx
        · simp at hx; omega
      · rw [be_val_append_singleton, hv]
        have : be_val t * 256 + 255 + 1 = (be_val t + 1) * 256 := by ring
        rw [this, Nat.mul_mod_mul_right, Nat.add_zero]
      · have e0 : (255 + 1) % 256 = 0 := rfl
        simp only [e0, ne_eq, not_true_eq_false, if_false, List.length_append]
        have e3 : hd ++ t ++ 0 :: suf = hd ++ t ++ (0 :: suf) := rfl
        rw [hloop]
        have e4 : hd ++ (t2 ++ [0]) ++ suf = hd ++ t2 ++ 0 :: suf := by simp
        rw [e4]
        generalize 256 ^ t.length = P at *
        by_cases hq : be_val t + 1 < P
        · have : be_val t * 256 + 255 + 1 < P * 256 := by omega
          simp [hq, this]
        · have : ¬ be_val t * 256 + 255 + 1 < P * 256 := by omega
          simp [hq, this]
    · have hne : (b + 1) % 256 ≠ 0 := by omega
      have hv : (b + 1) % 256 = b + 1 := by omega
      refine ⟨t ++ [b + 1], by simp, ?_, ?_, ?_⟩
      · intro x hx
        rcases List.mem_append.1 hx with hx | hx
        · exact ht x hx
        · simp at hx; omega
      · rw [be_val_append_singleton]
        generalize 256 ^ t.length = P at *
        have : be_val t * 256 + b + 1 < P * 256 := by omega
        rw [Nat.mod_eq_of_lt this]
        omega
      · generalize 256 ^ t.length = P at *
        have : be_val t * 256 + b + 1 < P * 256 := by omega
        simp [hne, hv, this]

theorem SM4_GCM.counter_increment_spec (c : List Nat) (h : Block16 c) :
    Block16 (SM4_GCM.counter_increment c) ∧
      be_val (SM4_GCM.counter_increment c) = (be_val c + 1) % 2 ^ 128 := by
  obtain ⟨hl, hb⟩ := h
  obtain ⟨c2, hl2, hb2, hv, hloop⟩ := SM4_GCM.incr_loop_spec c [] [] hb
  have e : SM4_GCM.counter_increment c = c2 := by
    have h16 : SM4_GCM.counter_increment c = SM4_GCM.incr_loop (([] : List Nat).length + c.length)
        ([] ++ c ++ []) := by
      simp [SM4_GCM.counter_increment, hl]
    rw [h16, hloop]
    split
    · simp
    · simp [SM4_GCM.incr_loop]
  rw [e]
  refine ⟨⟨by rw [hl2, hl], hb2⟩, ?_⟩
  rw [hv, hl]
  norm_num

theorem SM4_GCM.iterate_increment_spec (c : List Nat) (h : Block16 c) (k : Nat) :
    Block16 (SM4_GCM.counter_increment^[k] c) ∧
      be_val (SM4_GCM.counter_increment^[k] c) = (be_val c + k) % 2 ^ 128 := by
  induction k with
  | zero =>
    refine ⟨h, ?_⟩
    have := be_val_lt c h.2
    rw [h.1] at this
    simp only [Function.iterate_zero, id_eq, Nat.add_zero]
    rw [Nat.mod_eq_of_lt (by norm_num at this ⊢; exact this)]
  | succ k ih =>
    rw [Function.iterate_succ_apply']
    obtain ⟨hw, hv⟩ := ih
    obtain ⟨hw2, hv2⟩ := SM4_GCM.counter_increment_spec _ hw
    refine ⟨hw2, ?_⟩
    rw [hv2, hv]
    omega

theorem SM4_GCM.ctr_mode_loop_spec (g : SM4_GCM) (inp : List Nat) :
    ∀ (fuel i : Nat) (st : CtrState), inp.length - i ≤ 16 * fuel →
      g.ctr_mode_loop inp fuel i st =
        { out := st.out ++ (List.range (inp.length - i)).map
            (fun q => inp.getD (i + q) 0 ^^^ g.keystream_byte st.counter q)
          counter := SM4_GCM.counter_increment^[(inp.length - i + 15) / 16] st.counter
          fed := st.fed ++ (List.range ((inp.length - i + 15) / 16)).map
            (fun j => SM4_GCM.counter_increment^[j] st.counter) } := by
  intro fuel
  induction fuel with
  | zero =>
    intro i st h
    have h0 : inp.length - i = 0 := by omega
    simp [SM4_GCM.ctr_mode_loop, h0]
  | succ fuel ih =>
    intro i st h
    rw [SM4_GCM.ctr_mode_loop]
    by_cases hi : i < inp.length
    · rw [if_pos hi, ih (i + 16) _ (by omega)]
      have hm : (inp.length - i + 15) / 16 = (inp.length - (i + 16) + 15) / 16 + 1 := by omega
      have hsplit : inp.length - i = min 16 (inp.length - i) + (inp.length - (i + 16)) := by omega
      have hA : (List.range (min 16 (inp.length - i))).map
            (fun j => inp.getD (i + j) 0 ^^^
              (SM4_TTable.new.encrypt st.counter g.enc_rk).getD j 0)
          = (List.range (min 16 (inp.length - i))).map
            (fun q => inp.getD (i + q) 0 ^^^ g.keystream_byte st.counter q) := by
        apply List.map_congr_left
        intro j hj
        have hj16 : j < 16 := by
          have := List.mem_range.1 hj
          omega
        simp only [SM4_GCM.keystream_byte]
        rw [Nat.div_eq_of_lt hj16, Nat.mod_eq_of_lt hj16, Function.iterate_zero, id_eq]
      have hB : (List.range (inp.length - (i + 16))).map
            (fun q => inp.getD (i + 16 + q) 0 ^^^
              g.keystream_byte (SM4_GCM.counter_increment st.counter) q)
          = (List.range (inp.length - (i + 16))).map
            (fun q => inp.getD (i + (min 16 (inp.length - i) + q)) 0 ^^^
              g.keystream_byte st.counter (min 16 (inp.length - i) + q)) := by
        apply List.map_congr_left
        intro q hq
        have hq2 := List.mem_range.1 hq
        have hmin : min 16 (inp.length - i) = 16 := by omega
        simp only [SM4_GCM.keystream_byte, hmin]
        have e1 : (16 + q) / 16 = q / 16 + 1 := by omega
        have e2 : (16 + q) % 16 = q % 16 := by omega
        rw [e1, e2, Function.iterate_succ_apply, Nat.add_assoc]
      have hout : (List.range (inp.length - i)).map
            (fun q => inp.getD (i + q) 0 ^^^ g.keystream_byte st.counter q)
          = (List.range (min 16 (inp.length - i))).map
              (fun j => inp.getD (i + j) 0 ^^^
                (SM4_TTable.new.encrypt st.counter g.enc_rk).getD j 0)
            ++ (List.range (inp.length - (i + 16))).map
              (fun q => inp.getD (i + 16 + q) 0 ^^^
                g.keystream_byte (SM4_GCM.counter_increment st.counter) q) := by
        rw [hA, hB]
        conv_lhs => rw [hsplit, List.range_add, List.map_append, List.map_map]
        rfl
      have hfed : (List.range ((inp.length - i + 15) / 16)).map
            (fun j => SM4_GCM.counter_increment^[j] st.counter)
          = st.counter :: (List.range ((inp.length - (i + 16) + 15) / 16)).map
            (fun j => SM4_GCM.counter_increment^[j] (SM4_GCM.counter_increment st.counter)) := by
        rw [hm, List.range_succ_eq_map, List.map_cons, List.map_map]
        rfl
      rw [hout, hfed, hm, Function.iterate_succ_apply]
      simp only [List.append_assoc, List.singleton_append]
    · rw [if_neg hi]
      have h0 : inp.length - i = 0 := by omega
      simp [h0]

theorem SM4_GCM.ctr_mode_spec (g : SM4_GCM) (inp counter : List Nat) :
    g.ctr_mode inp counter =
      { out := (List.range inp.length).map
          (fun p => inp.getD p 0 ^^^ g.keystream_byte counter p)
        counter := SM4_GCM.counter_increment^[(inp.length + 15) / 16] counter
        fed := (List.range ((inp.length + 15) / 16)).map
          (fun j => SM4_GCM.counter_increment^[j] counter) } := by
  unfold SM4_GCM.ctr_mode
  rw [SM4_GCM.ctr_mode_loop_spec g inp inp.length 0 _ (by omega)]
  simp

theorem map_getD_range (l : List Nat) : (List.range l.length).map (fun p => l.getD p 0) = l := by
  apply List.ext_getElem
  · simp
  · intro i h1 h2
    simp only [List.getElem_map, List.getElem_range]
    exact List.getD_eq_getElem l 0 h2

theorem SM4_GCM.ctr_mode_involution (g : SM4_GCM) (inp counter : List Nat) :
    (g.ctr_mode (g.ctr_mode inp counter).out counter).out = inp := by
  rw [SM4_GCM.ctr_mode_spec g (g.ctr_mode inp counter).out, SM4_GCM.ctr_mode_spec g inp]
  simp only [List.length_map, List.length_range]
  conv_rhs => rw [← map_getD_range inp]
  apply List.map_congr_left
  intro p hp
  have hp2 : p < inp.length := List.mem_range.1 hp
  rw [List.getD_eq_getElem _ 0 (by simpa using hp2)]
  simp only [List.getElem_map, List.getElem_range]
  exact Nat.xor_cancel_right _ _

theorem SM4_GCM.ctr_mode_counters_nodup (g : SM4_GCM) (inp counter : List Nat)
    (hc : Block16 counter) (hlen : inp.length < 2 ^ 64) :
    ((g.ctr_mode inp counter).fed ++ [(g.ctr_mode inp counter).counter]).Nodup := by
  rw [SM4_GCM.ctr_mode_spec]
  simp only
  have e : (List.range ((inp.length + 15) / 16)).map
        (fun j => SM4_GCM.counter_increment^[j] counter)
        ++ [SM4_GCM.counter_increment^[(inp.length + 15) / 16] counter]
      = (List.range ((inp.length + 15) / 16 + 1)).map
        (fun j => SM4_GCM.counter_increment^[j] counter) := by
    rw [List.range_succ, List.map_append]
    rfl
  rw [e]
  apply List.Nodup.map_on _ (List.nodup_range _)
  intro a ha b hb hab
  have ha2 := List.mem_range.1 ha
  have hb2 := List.mem_range.1 hb
  have va := (SM4_GCM.iterate_increment_spec counter hc a).2
  have vb := (SM4_GCM.iterate_increment_spec counter hc b).2
  rw [hab, vb] at va
  have hv := be_val_lt counter hc.2
  rw [hc.1] at hv
  norm_num at hv va
  omega

theorem sm4_key_schedule_round_length (sm4 : SM4_TTable) (l : List Nat) :
    ∀ st : (Nat × Nat × Nat × Nat) × List Nat,
      (l.foldl (sm4_key_schedule_round sm4) st).2.length = st.2.length + l.length := by
  induction l with
  | nil => intro st; rfl
  | cons i l ih =>
    intro st
    obtain ⟨⟨k0, k1, k2, k3⟩, rk⟩ := st
    rw [List.foldl_cons, ih]
    simp only [sm4_key_schedule_round, List.length_append, List.length_cons, List.length_nil]
    omega

theorem sm4_key_schedule_length (key : List Nat) : (sm4_key_schedule key).length = 32 := by
  unfold sm4_key_schedule
  simp only [sm4_key_schedule_round_length]
  rfl

theorem SM4_GCM.init_counter_block16 (iv : List Nat) (h : ∀ b ∈ iv, b < 256) :
    Block16 (SM4_GCM.init_counter (List.replicate 16 0) iv) := by
  unfold SM4_GCM.init_counter memcpy
  split
  · rename_i h12
    refine ⟨by simp [h12], ?_⟩
    intro b hb
    rcases List.mem_or_eq_of_mem_set hb with hb | hb
    · rcases List.mem_append.1 hb with hb | hb
      · exact h b (List.mem_of_mem_take hb)
      · have := List.mem_of_mem_drop hb
        simp at this
        omega
    · omega
  · refine ⟨by simp, ?_⟩
    intro b hb
    rcases List.mem_append.1 hb with hb | hb
    · exact h b (List.mem_of_mem_take hb)
    · have := List.mem_of_mem_drop hb
      simp at this
      omega

theorem SM4_GCM.counter_increment_split (c : List Nat) (h : Block16 c) :
    ∃ hd2 tl2 : List Nat, SM4_GCM.counter_increment c = hd2 ++ tl2 ∧ hd2.length = 12 ∧
      tl2.length = 4 ∧ be_val tl2 = (be_val (c.drop 12) + 1) % 2 ^ 32 ∧
      (be_val (c.drop 12) + 1 < 2 ^ 32 → hd2 = c.take 12) ∧
      (¬ be_val (c.drop 12) + 1 < 2 ^ 32 →
        be_val hd2 = (be_val (c.take 12) + 1) % 2 ^ 96) := by
  obtain ⟨hl, hb⟩ := h
  have hhd : (c.take 12).length = 12 := by simp [hl]
  have htl : (c.drop 12).length = 4 := by simp [hl]
  have hbt : ∀ b ∈ c.drop 12, b < 256 := fun b hm => hb b (List.mem_of_mem_drop hm)
  have hbh : ∀ b ∈ c.take 12, b < 256 := fun b hm => hb b (List.mem_of_mem_take hm)
  obtain ⟨tl2, hl2, _, hv2, hloop⟩ := SM4_GCM.incr_loop_spec (c.drop 12) (c.take 12) [] hbt
  obtain ⟨hd2, hl3, _, hv3, hloop3⟩ := SM4_GCM.incr_loop_spec (c.take 12) [] tl2 hbh
  have e16 : SM4_GCM.counter_increment c
      = SM4_GCM.incr_loop ((c.take 12).length + (c.drop 12).length)
          (c.take 12 ++ c.drop 12 ++ []) := by
    rw [hhd, htl, List.append_nil, List.take_append_drop]
    rfl
  rw [hhd, htl] at hloop
  rw [htl] at hv2
  rw [hhd] at hv3 hloop3
  have p4 : (256 : Nat) ^ 4 = 2 ^ 32 := by norm_num
  have p12 : (256 : Nat) ^ 12 = 2 ^ 96 := by norm_num
  rw [p4] at hloop hv2
  rw [p12] at hloop3 hv3
  by_cases hlt : be_val (c.drop 12) + 1 < 2 ^ 32
  · refine ⟨c.take 12, tl2, ?_, hhd, by rw [hl2, htl], hv2, fun _ => rfl, fun hn => absurd hlt hn⟩
    rw [e16, hhd, htl, hloop, if_pos hlt, List.append_nil]
  · refine ⟨hd2, tl2, ?_, by rw [hl3, hhd], by rw [hl2, htl], hv2, fun hp => absurd hp hlt,
      fun _ => hv3⟩
    rw [e16, hhd, htl, hloop, if_neg hlt, List.append_nil]
    have e12 : SM4_GCM.incr_loop 12 (c.take 12 ++ tl2)
        = SM4_GCM.incr_loop (([] : List Nat).length + 12) ([] ++ c.take 12 ++ tl2) := by
      simp
    rw [e12, hloop3]
    split
    · simp
    · simp [SM4_GCM.incr_loop]

/-! ## Concrete evaluations shared by several results -/

theorem sm4_key_schedule_main :
    sm4_key_schedule main_key =
      [0x4E7E134D, 0x9D43BCFD, 0x073FB591, 0xFF1F2BF7, 0xC5F598C6, 0x3BE51A5B, 0x477FF5D1,
       0xAF4F7BA7, 0xAF9FF2AC, 0x5F817E3F, 0x86BE3410, 0xFD1D29F5, 0xE5D5B8E6, 0xC51BE4A5,
       0xF2CA4064, 0x23C3F72B, 0xECDCB1EF, 0x79A75819, 0xA79F1531, 0xA9497DA1, 0x96A6CB95,
       0x0AD42B6A, 0xCCF47E5A, 0xA54571AD, 0x65553866, 0x8658A7E6, 0x310983A7, 0x4CAC9844,
       0x7F4F227C, 0xCC12EDAC, 0xC5FD7753, 0x2FCFFB27] := by
  decide

/-! ## The claims -/

/-- C1 (block round trip): for every 16-byte block `x` and every sequence `rk`
of 32 round keys, encrypting `x` with `rk` and then encrypting the result with
the round keys in reverse order gives `x` back.  (Every output of
`sm4_key_schedule` has 32 words, see `sm4_key_schedule_length`.) -/
theorem SM4_TTable.encrypt_round_trip (x rk : List Nat) (hx : x.length = 16)
    (hb : ∀ b ∈ x, b < 256) (hrk : rk.length = 32) :
    SM4_TTable.new.encrypt (SM4_TTable.new.encrypt x rk) rk.reverse = x :=
  SM4_TTable.encrypt_reverse_of_words SM4_TTable.new SM4_TTable.new_words x rk hx hb hrk

/-- Instance of C1 at the block of `main` with the round keys scheduled from the
key of `main`. -/
theorem SM4_TTable.encrypt_round_trip_main :
    SM4_TTable.new.encrypt
        (SM4_TTable.new.encrypt main_plaintext (sm4_key_schedule main_key))
        (sm4_key_schedule main_key).reverse = main_plaintext :=
  SM4_TTable.encrypt_round_trip main_plaintext (sm4_key_schedule main_key) (by decide)
    (by decide) (sm4_key_schedule_length main_key)

/-- C2 (known-answer vector of the block cipher), evaluated on the code: for the
key and plaintext of `main`, `encrypt` outputs
`6e 4c 2a 08 6d 4f 29 0b 64 46 20 02 a9 8b ed cf`, which is not the published
SM4 ciphertext `68 1e df 34 d2 06 96 5e 86 b3 e9 4f 53 6e 42 46`. -/
theorem SM4_TTable.encrypt_main_vector :
    SM4_TTable.new.encrypt main_plaintext (sm4_key_schedule main_key)
        = [0x6e, 0x4c, 0x2a, 0x08, 0x6d, 0x4f, 0x29, 0x0b, 0x64, 0x46, 0x20, 0x02, 0xa9, 0x8b,
           0xed, 0xcf] ∧
      SM4_TTable.new.encrypt main_plaintext (sm4_key_schedule main_key)
        ≠ [0x68, 0x1e, 0xdf, 0x34, 0xd2, 0x06, 0x96, 0x5e, 0x86, 0xb3, 0xe9, 0x4f, 0x53, 0x6e,
           0x42, 0x46] := by
  rw [sm4_key_schedule_main]
  decide

/-- C3 (known-answer vector of the key schedule), evaluated on the code: for the
key of `main`, `sm4_key_schedule` gives `rk[0] = 0x4E7E134D` and
`rk[31] = 0x2FCFFB27`, not the published `0xF12186F9` and `0x9124A012`. -/
theorem sm4_key_schedule_main_vector :
    (sm4_key_schedule main_key).getD 0 0 = 0x4E7E134D ∧
      (sm4_key_schedule main_key).getD 31 0 = 0x2FCFFB27 ∧
      (sm4_key_schedule main_key).getD 0 0 ≠ 0xF12186F9 ∧
      (sm4_key_schedule main_key).getD 31 0 ≠ 0x9124A012 := by
  rw [sm4_key_schedule_main]
  decide

/-- C4 (the four lookups against `L(tau(t))`), evaluated on the code at `t = 0`:
the four lookups XOR to `0`, while `L(tau(0)) = 0x5B5B5B5B`. -/
theorem SM4_TTable.lookup_zero_vs_L_tau :
    SM4_TTable.new.lookup 0 = 0 ∧ L_transform (tau 0) = 0x5B5B5B5B ∧
      SM4_TTable.new.lookup 0 ≠ L_transform (tau 0) := by
  decide

/-- C5 (table builder contract): for `k = 0..3` and `i = 0..255`, entry `Tk[i]`
of the tables the constructor builds is `rotl32(L(B), 8k)`, where `B` carries the
byte `SM4_SBOX[i]` in all four byte lanes; each table has 256 entries. -/
theorem SM4_TTable.new_table_entry :
    ∀ k < 4, ∀ i < 256,
      (SM4_TTable.new.table k).length = 256 ∧
      (SM4_TTable.new.table k).getD i 0
        = ROTL (L_transform ((SM4_SBOX.getD i 0 <<< 24) ||| (SM4_SBOX.getD i 0 <<< 16) |||
            (SM4_SBOX.getD i 0 <<< 8) ||| SM4_SBOX.getD i 0)) (8 * k) := by
  intro k hk i hi
  obtain ⟨hlt, he⟩ := SM4_TTable.entry0_eq i hi
  rw [← he]
  interval_cases k
  · exact ⟨by simp [SM4_TTable.table, SM4_TTable.new], by
      rw [ROTL_zero _ hlt]
      exact getD_map_range _ 256 i hi⟩
  · exact ⟨by simp [SM4_TTable.table, SM4_TTable.new],
      getD_map_range (fun j => ROTL (SM4_TTable.entry0 j) 8) 256 i hi⟩
  · exact ⟨by simp [SM4_TTable.table, SM4_TTable.new],
      getD_map_range (fun j => ROTL (SM4_TTable.entry0 j) 16) 256 i hi⟩
  · exact ⟨by simp [SM4_TTable.table, SM4_TTable.new],
      getD_map_range (fun j => ROTL (SM4_TTable.entry0 j) 24) 256 i hi⟩

/-- Instance of C5 at table `T1`, index `0`: the S-box byte is `0xD6`. -/
theorem SM4_TTable.new_table_entry_T1_0 :
    (SM4_TTable.new.table 1).length = 256 ∧
      (SM4_TTable.new.table 1).getD 0 0
        = ROTL (L_transform ((SM4_SBOX.getD 0 0 <<< 24) ||| (SM4_SBOX.getD 0 0 <<< 16) |||
            (SM4_SBOX.getD 0 0 <<< 8) ||| SM4_SBOX.getD 0 0)) (8 * 1) :=
  SM4_TTable.new_table_entry 1 (by decide) 0 (by decide)

/-- The tag of `SM4_GCM::encrypt` is the accumulator XOR the encryption of the
counter block as `ctr_mode` left it: the block `init_counter` set up, advanced by
one increment step per keystream block. -/
theorem SM4_GCM.encrypt_tag_eq (g : SM4_GCM) (ciphertext plaintext iv aad : List Nat)
    (aad_len : Nat) :
    (g.encrypt ciphertext plaintext iv aad aad_len).tag
      = mm_xor_si128
          (SM4_GCM.compute_tag_acc
            ((g.encrypt ciphertext plaintext iv aad aad_len).ciphertext
              ++ ciphertext.drop plaintext.length) plaintext.length aad aad_len)
          (SM4_TTable.new.encrypt
            (SM4_GCM.counter_increment^[(plaintext.length + 15) / 16]
              (SM4_GCM.init_counter (List.replicate 16 0) iv)) g.enc_rk) := by
  simp only [SM4_GCM.encrypt, SM4_GCM.compute_tag, SM4_GCM.ctr_mode_spec, mm_xor_si128]

/-- C6 (decryption round trip): for every key, nonce, AAD and plaintext, applying
`ctr_mode`, started from the counter block that `init_counter` derives from the
nonce, to the ciphertext that `SM4_GCM::encrypt` produced gives the plaintext
back. -/
theorem SM4_GCM.ctr_mode_decrypts (key ciphertext plaintext iv aad : List Nat) (aad_len : Nat) :
    ((SM4_GCM.new key).ctr_mode
        ((SM4_GCM.new key).encrypt ciphertext plaintext iv aad aad_len).ciphertext
        (SM4_GCM.init_counter (List.replicate 16 0) iv)).out = plaintext :=
  SM4_GCM.ctr_mode_involution (SM4_GCM.new key) plaintext
    (SM4_GCM.init_counter (List.replicate 16 0) iv)

/-- C7 (keystream start), evaluated on the GCM call of `main`: the initial counter
block is `J0 = iv || 00 00 00 01`, the first 16 ciphertext bytes are the plaintext
XOR the encryption of `J0` itself, and they differ from the plaintext XOR the
encryption of `J0 + 1 = iv || 00 00 00 02`. -/
theorem SM4_GCM.encrypt_main_first_block :
    SM4_GCM.init_counter (List.replicate 16 0) main_iv = main_iv ++ [0, 0, 0, 1] ∧
      SM4_GCM.counter_increment (main_iv ++ [0, 0, 0, 1]) = main_iv ++ [0, 0, 0, 2] ∧
      main_gcm_call.ciphertext.take 16
        = mm_xor_si128 (main_long_plaintext.take 16)
            (SM4_TTable.new.encrypt (main_iv ++ [0, 0, 0, 1]) (sm4_key_schedule main_key)) ∧
      main_gcm_call.ciphertext.take 16
        ≠ mm_xor_si128 (main_long_plaintext.take 16)
            (SM4_TTable.new.encrypt (main_iv ++ [0, 0, 0, 2]) (sm4_key_schedule main_key)) := by
  have e : main_gcm_call.ciphertext.take 16
      = [0x50, 0x50, 0x50, 0x51, 0xd0, 0xd1, 0xd2, 0xd3, 0x29, 0x28, 0x2b, 0x2a, 0x51, 0x50,
         0x53, 0x52] := by
    simp only [main_gcm_call, SM4_GCM.encrypt, SM4_GCM.new, sm4_key_schedule_main]
    decide
  rw [e, sm4_key_schedule_main]
  decide

/-- C8 (tag mask), evaluated on the GCM call of `main` (64 plaintext bytes, four
keystream blocks): with `S` the accumulator just before masking, the tag is
`S` XOR the encryption of `iv || 00 00 00 05`, the counter block after the four
increment steps of `ctr_mode`, and it differs from `S` XOR the encryption of
`J0 = iv || 00 00 00 01`. -/
theorem SM4_GCM.encrypt_main_tag_mask :
    SM4_GCM.counter_increment^[4] (main_iv ++ [0, 0, 0, 1]) = main_iv ++ [0, 0, 0, 5] ∧
      main_gcm_call.tag
        = mm_xor_si128 (SM4_GCM.compute_tag_acc main_gcm_call.ciphertext 64 main_aad 11)
            (SM4_TTable.new.encrypt (main_iv ++ [0, 0, 0, 5]) (sm4_key_schedule main_key)) ∧
      main_gcm_call.tag
        ≠ mm_xor_si128 (SM4_GCM.compute_tag_acc main_gcm_call.ciphertext 64 main_aad 11)
            (SM4_TTable.new.encrypt (main_iv ++ [0, 0, 0, 1]) (sm4_key_schedule main_key)) := by
  have hc : SM4_GCM.counter_increment^[4] (main_iv ++ [0, 0, 0, 1]) = main_iv ++ [0, 0, 0, 5] := by
    decide
  have hct : main_gcm_call.ciphertext
      = [0x50, 0x50, 0x50, 0x51, 0xd0, 0xd1, 0xd2, 0xd3, 0x29, 0x28, 0x2b, 0x2a, 0x51, 0x50, 0x53,
         0x52, 0xea, 0xea, 0xea, 0xe8, 0xb5, 0xb4, 0xb7, 0xb6, 0x56, 0x57, 0x54, 0x55, 0x38, 0x39,
         0x3a, 0x3b, 0xad, 0xad, 0xad, 0xae, 0x2b, 0x2a, 0x29, 0x28, 0xe4, 0xe5, 0xe6, 0xe7, 0x98,
         0x99, 0x9a, 0x9b, 0xd9, 0xd9, 0xd9, 0xdd, 0x5b, 0x5a, 0x59, 0x58, 0x97, 0x96, 0x95, 0x94,
         0x65, 0x64, 0x67, 0x66] := by
    simp only [main_gcm_call, SM4_GCM.encrypt, SM4_GCM.new, sm4_key_schedule_main]
    decide
  have htag : main_gcm_call.tag
      = [0xe0, 0xde, 0xdd, 0xc6, 0xaa, 0xe2, 0xfb, 0xa9, 0x5b, 0x5a, 0x5c, 0x19, 0x43, 0x42, 0x41,
         0x40] := by
    have h := SM4_GCM.encrypt_tag_eq (SM4_GCM.new main_key) (List.replicate 64 0)
      main_long_plaintext main_iv main_aad 11
    have hi : SM4_GCM.counter_increment^[(main_long_plaintext.length + 15) / 16]
        (SM4_GCM.init_counter (List.replicate 16 0) main_iv) = main_iv ++ [0, 0, 0, 5] := by
      decide
    have hd : List.drop main_long_plaintext.length (List.replicate 64 0) = [] := by decide
    have hl : main_long_plaintext.length = 64 := by decide
    rw [hi, hd, List.append_nil, hl] at h
    have hrk : (SM4_GCM.new main_key).enc_rk = sm4_key_schedule main_key := rfl
    rw [hrk, sm4_key_schedule_main] at h
    have h2 : main_gcm_call.tag = _ := h
    rw [h2]
    have hct2 : ((SM4_GCM.new main_key).encrypt (List.replicate 64 0) main_long_plaintext main_iv
        main_aad 11).ciphertext = main_gcm_call.ciphertext := rfl
    rw [hct2, hct]
    decide
  refine ⟨hc, ?_, ?_⟩
  · rw [htag, hct, sm4_key_schedule_main]
    decide
  · rw [htag, hct, sm4_key_schedule_main]
    decide

/-- C9 (counter non-repetition): for every well-formed starting counter block and
every data length below `2^64`, the counter blocks that `ctr_mode` gives to the
block cipher (one per 16-byte chunk) followed by the counter block it leaves for
`compute_tag` are pairwise distinct; and the blocks that one call of
`SM4_GCM::encrypt` gives to the block cipher are these, started from the block
that `init_counter` derives from the nonce. -/
theorem SM4_GCM.encrypt_counters_nodup (g : SM4_GCM) :
    (∀ inp counter : List Nat, Block16 counter → inp.length < 2 ^ 64 →
      (g.ctr_mode inp counter).fed.length = (inp.length + 15) / 16 ∧
      ((g.ctr_mode inp counter).fed ++ [(g.ctr_mode inp counter).counter]).Nodup) ∧
    (∀ (ciphertext plaintext iv aad : List Nat) (aad_len : Nat), (∀ b ∈ iv, b < 256) →
      plaintext.length < 2 ^ 64 →
      (g.encrypt ciphertext plaintext iv aad aad_len).cipher_inputs
        = (g.ctr_mode plaintext (SM4_GCM.init_counter (List.replicate 16 0) iv)).fed
          ++ [(g.ctr_mode plaintext (SM4_GCM.init_counter (List.replicate 16 0) iv)).counter] ∧
      (g.encrypt ciphertext plaintext iv aad aad_len).cipher_inputs.Nodup) := by
  refine ⟨fun inp counter hc hlen => ⟨?_, SM4_GCM.ctr_mode_counters_nodup g inp counter hc hlen⟩,
    fun ciphertext plaintext iv aad aad_len hiv hlen => ⟨rfl, ?_⟩⟩
  · rw [SM4_GCM.ctr_mode_spec]
    simp
  · exact SM4_GCM.ctr_mode_counters_nodup g plaintext _ (SM4_GCM.init_counter_block16 iv hiv) hlen

/-- Instance of C9 at the GCM call of `main`: its five cipher inputs are distinct. -/
theorem SM4_GCM.encrypt_counters_nodup_main :
    (∀ b ∈ main_iv, b < 256) ∧ main_long_plaintext.length < 2 ^ 64 ∧
      main_gcm_call.cipher_inputs.Nodup :=
  ⟨by decide, by decide,
    ((SM4_GCM.encrypt_counters_nodup (SM4_GCM.new main_key)).2 (List.replicate 64 0)
      main_long_plaintext main_iv main_aad 11 (by decide) (by decide)).2⟩

/-- C10 as stated fails: the 16-byte nonce `00 .. 00 ff ff ff ff` makes
`init_counter` produce a counter block whose trailing field is `0xFFFFFFFF`, and
one increment step changes byte 11 of that block. -/
theorem SM4_GCM.counter_increment_carries_out :
    SM4_GCM.init_counter (List.replicate 16 0)
        [0, 0, 0, 0, 0, 0, 0, 0, 0, 0, 0, 0, 0xFF, 0xFF, 0xFF, 0xFF]
      = [0, 0, 0, 0, 0, 0, 0, 0, 0, 0, 0, 0, 0xFF, 0xFF, 0xFF, 0xFF] ∧
    SM4_GCM.counter_increment [0, 0, 0, 0, 0, 0, 0, 0, 0, 0, 0, 0, 0xFF, 0xFF, 0xFF, 0xFF]
      = [0, 0, 0, 0, 0, 0, 0, 0, 0, 0, 0, 1, 0, 0, 0, 0] ∧
    ¬ ((SM4_GCM.counter_increment
          [0, 0, 0, 0, 0, 0, 0, 0, 0, 0, 0, 0, 0xFF, 0xFF, 0xFF, 0xFF]).take 12
        = List.take 12 [0, 0, 0, 0, 0, 0, 0, 0, 0, 0, 0, 0, 0xFF, 0xFF, 0xFF, 0xFF]) := by
  decide

/-- C10 as amended: for every 16-byte counter block, one increment step replaces
bytes 12..15, read as a big-endian integer `c`, by `(c + 1) mod 2^32`; it leaves
bytes 0..11 unchanged when `c ≠ 0xFFFFFFFF`; and when `c = 0xFFFFFFFF` the carry
goes on into bytes 0..11, which, read as a big-endian integer `p`, become
`(p + 1) mod 2^96`.  The block keeps its length and its bytes stay bytes. -/
theorem SM4_GCM.counter_increment_fields (c : List Nat) (h : Block16 c) :
    Block16 (SM4_GCM.counter_increment c) ∧
      be_val ((SM4_GCM.counter_increment c).drop 12) = (be_val (c.drop 12) + 1) % 2 ^ 32 ∧
      (be_val (c.drop 12) ≠ 0xFFFFFFFF → (SM4_GCM.counter_increment c).take 12 = c.take 12) ∧
      (be_val (c.drop 12) = 0xFFFFFFFF →
        be_val ((SM4_GCM.counter_increment c).take 12) = (be_val (c.take 12) + 1) % 2 ^ 96) := by
  obtain ⟨hd2, tl2, he, hl1, hl2, hv, hsame, hcarry⟩ := SM4_GCM.counter_increment_split c h
  have htl : be_val (c.drop 12) < 2 ^ 32 := by
    have := be_val_lt (c.drop 12) (fun b hm => h.2 b (List.mem_of_mem_drop hm))
    have hl : (c.drop 12).length = 4 := by simp [h.1]
    rw [hl] at this
    norm_num at this ⊢
    exact this
  have e1 : (hd2 ++ tl2).drop 12 = tl2 := by
    rw [← hl1]; exact List.drop_left hd2 tl2
  have e2 : (hd2 ++ tl2).take 12 = hd2 := by
    rw [← hl1]; exact List.take_left hd2 tl2
  refine ⟨(SM4_GCM.counter_increment_spec c h).1, ?_, ?_, ?_⟩
  · rw [he, e1, hv]
  · intro hne
    rw [he, e2]
    exact hsame (by omega)
  · intro heq
    rw [he, e2]
    exact hcarry (by omega)

/-- Instance of C10 as amended at the counter block `J0` of the GCM call of `main`. -/
theorem SM4_GCM.counter_increment_fields_main :
    Block16 (main_iv ++ [0, 0, 0, 1]) ∧
      be_val ((SM4_GCM.counter_increment (main_iv ++ [0, 0, 0, 1])).drop 12)
        = (be_val ((main_iv ++ [0, 0, 0, 1]).drop 12) + 1) % 2 ^ 32 :=
  ⟨by decide, (SM4_GCM.counter_increment_fields (main_iv ++ [0, 0, 0, 1]) (by decide)).2.1⟩

set_option maxHeartbeats 4000000

/-! ## The accumulator of `ghash_block` -/

theorem mm_xor_si128_getD (a b : List Nat) (j : Nat) (hj : j < 16) :
    (mm_xor_si128 a b).getD j 0 = a.getD j 0 ^^^ b.getD j 0 :=
  getD_map_range (fun i => a.getD i 0 ^^^ b.getD i 0) 16 j hj

theorem mm_loadu_si128_getD (data : List Nat) (i j : Nat) (hj : j < 16) :
    (mm_loadu_si128 data i).getD j 0 = data.getD (i + j) 0 :=
  getD_map_range (fun j => data.getD (i + j) 0) 16 j hj

/-- The loop of `ghash_block` is a left fold over the blocks it loads. -/
theorem SM4_GCM.ghash_block_loop_eq_foldl (data : List Nat) (len : Nat) :
    ∀ (fuel i : Nat) (ghash : List Nat), len - i ≤ 16 * fuel →
      SM4_GCM.ghash_block_loop data len fuel i ghash
        = (List.range ((len - i + 15) / 16)).foldl
            (fun gh k => mm_xor_si128 gh (mm_loadu_si128 data (i + 16 * k))) ghash := by
  intro fuel
  induction fuel with
  | zero =>
    intro i ghash h
    have h0 : len - i = 0 := by omega
    simp [SM4_GCM.ghash_block_loop, h0]
  | succ fuel ih =>
    intro i ghash h
    rw [SM4_GCM.ghash_block_loop]
    by_cases hi : i < len
    · rw [if_pos hi, ih (i + 16) _ (by omega)]
      have hm : (len - i + 15) / 16 = (len - (i + 16) + 15) / 16 + 1 := by omega
      rw [hm, List.range_succ_eq_map, List.foldl_cons, List.foldl_map]
      have e : ∀ k, i + 16 * Nat.succ k = i + 16 + 16 * k := by intro k; omega
      simp only [e, Nat.mul_zero, Nat.add_zero]
    · rw [if_neg hi]
      have h0 : len - i = 0 := by omega
      simp [h0]

theorem SM4_GCM.ghash_block_eq_foldl (ghash data : List Nat) (len : Nat) :
    SM4_GCM.ghash_block ghash data len
      = (List.range ((len + 15) / 16)).foldl
          (fun gh k => mm_xor_si128 gh (mm_loadu_si128 data (16 * k))) ghash := by
  unfold SM4_GCM.ghash_block
  rw [SM4_GCM.ghash_block_loop_eq_foldl data len len 0 ghash (by omega)]
  simp

theorem foldl_blocks_lane (data : List Nat) (j : Nat) (hj : j < 16) (n : Nat) (ghash : List Nat) :
    ((List.range n).foldl (fun gh k => mm_xor_si128 gh (mm_loadu_si128 data (16 * k))) ghash).getD
        j 0 = ghash.getD j 0 ^^^ lane_xor data j n := by
  induction n with
  | zero => simp [lane_xor]
  | succ n ih =>
    rw [List.range_succ, List.foldl_append, List.foldl_cons, List.foldl_nil,
      mm_xor_si128_getD _ _ j hj, ih, mm_loadu_si128_getD _ _ j hj]
    simp only [lane_xor, List.range_succ, List.foldl_append, List.foldl_cons, List.foldl_nil]
    rw [Nat.xor_assoc]

/-- Lane `j` of the accumulator after `ghash_block`: the lane before, XOR the
bytes at lane `j` of the `ceil(len / 16)` blocks loaded. -/
theorem SM4_GCM.ghash_block_lane (ghash data : List Nat) (len j : Nat) (hj : j < 16) :
    (SM4_GCM.ghash_block ghash data len).getD j 0
      = ghash.getD j 0 ^^^ lane_xor data j ((len + 15) / 16) := by
  rw [SM4_GCM.ghash_block_eq_foldl]
  exact foldl_blocks_lane data j hj _ ghash

theorem flip_bit_getD_ne (data : List Nat) (p b q : Nat) (h : q ≠ p) :
    (flip_bit data p b).getD q 0 = data.getD q 0 := by
  simp only [flip_bit, List.getD_eq_getElem?_getD]
  rw [List.getElem?_set_ne (Ne.symm h)]

theorem flip_bit_getD_eq (data : List Nat) (p b : Nat) (h : p < data.length) :
    (flip_bit data p b).getD p 0 = data.getD p 0 ^^^ 2 ^ b := by
  simp only [flip_bit, List.getD_eq_getElem?_getD]
  rw [List.getElem?_set_eq_of_lt _ h]
  rfl

theorem lane_xor_flip_bit_above (data : List Nat) (p b j : Nat) (hj : j < 16) (n : Nat)
    (h : 16 * n ≤ p) : lane_xor (flip_bit data p b) j n = lane_xor data j n := by
  induction n with
  | zero => rfl
  | succ n ih =>
    simp only [lane_xor, List.range_succ, List.foldl_append, List.foldl_cons, List.foldl_nil]
    have ih2 := ih (by omega)
    simp only [lane_xor] at ih2
    rw [ih2, flip_bit_getD_ne data p b (16 * n + j) (by omega)]

theorem lane_xor_flip_bit (data : List Nat) (p b : Nat) (hp : p < data.length) (n : Nat)
    (h : p < 16 * n) :
    lane_xor (flip_bit data p b) (p % 16) n = lane_xor data (p % 16) n ^^^ 2 ^ b := by
  induction n with
  | zero => omega
  | succ n ih =>
    have hj : p % 16 < 16 := Nat.mod_lt _ (by norm_num)
    simp only [lane_xor, List.range_succ, List.foldl_append, List.foldl_cons, List.foldl_nil]
    by_cases hlt : p < 16 * n
    · have ih2 := ih hlt
      simp only [lane_xor] at ih2
      rw [ih2, flip_bit_getD_ne data p b (16 * n + p % 16) (by omega), Nat.xor_assoc,
        Nat.xor_assoc, Nat.xor_comm (2 ^ b)]
    · have hU := lane_xor_flip_bit_above data p b (p % 16) hj n (by omega)
      simp only [lane_xor] at hU
      have hpe : 16 * n + p % 16 = p := by omega
      rw [hU, hpe, flip_bit_getD_eq data p b hp, Nat.xor_assoc]

theorem xor_two_pow_ne (x b : Nat) : x ^^^ 2 ^ b ≠ x := by
  intro h
  have h2 : x ^^^ 2 ^ b = x ^^^ 0 := by rw [h, Nat.xor_zero]
  have h3 := Nat.xor_right_inj.1 h2
  exact absurd h3 (by positivity)

theorem SM4_GCM.compute_tag_getD (g : SM4_GCM) (ciphertext : List Nat) (ciphertext_len : Nat)
    (aad : List Nat) (aad_len : Nat) (counter : List Nat) (j : Nat) (hj : j < 16) :
    (g.compute_tag ciphertext ciphertext_len aad aad_len counter).getD j 0
      = (((List.replicate 16 0).getD j 0 ^^^ lane_xor aad j ((aad_len + 15) / 16))
          ^^^ lane_xor ciphertext j ((ciphertext_len + 15) / 16)
          ^^^ (SM4_GCM.len_block aad_len ciphertext_len).getD j 0)
        ^^^ (SM4_TTable.new.encrypt counter g.enc_rk).getD j 0 := by
  unfold SM4_GCM.compute_tag SM4_GCM.compute_tag_acc
  simp only
  rw [getD_map_range (fun i => _ ^^^ _) 16 j hj, mm_xor_si128_getD _ _ j hj,
    SM4_GCM.ghash_block_lane _ _ _ j hj, SM4_GCM.ghash_block_lane _ _ _ j hj]

/-- C11 (counter-mode apply): for every round-key set, starting counter block and
input, `ctr_mode` writes exactly `len` bytes, and output byte `i` is input byte
`i` XOR byte `i mod 16` of the encryption of the counter block after
`floor(i / 16)` increment steps. -/
theorem SM4_GCM.ctr_mode_apply (g : SM4_GCM) (inp counter : List Nat) :
    (g.ctr_mode inp counter).out.length = inp.length ∧
      ∀ i < inp.length,
        (g.ctr_mode inp counter).out.getD i 0
          = inp.getD i 0 ^^^
            (SM4_TTable.new.encrypt (SM4_GCM.counter_increment^[i / 16] counter)
              g.enc_rk).getD (i % 16) 0 := by
  rw [SM4_GCM.ctr_mode_spec]
  refine ⟨by simp, ?_⟩
  intro i hi
  exact getD_map_range (fun p => inp.getD p 0 ^^^ g.keystream_byte counter p) inp.length i hi

/-- Instance of C11 at byte 17 of the GCM call of `main`. -/
theorem SM4_GCM.ctr_mode_apply_main :
    ((SM4_GCM.new main_key).ctr_mode main_long_plaintext (main_iv ++ [0, 0, 0, 1])).out.getD 17 0
      = main_long_plaintext.getD 17 0 ^^^
        (SM4_TTable.new.encrypt (SM4_GCM.counter_increment^[17 / 16] (main_iv ++ [0, 0, 0, 1]))
          (SM4_GCM.new main_key).enc_rk).getD (17 % 16) 0 :=
  (SM4_GCM.ctr_mode_apply (SM4_GCM.new main_key) main_long_plaintext
    (main_iv ++ [0, 0, 0, 1])).2 17 (by decide)

/-- C12 (absorb step), evaluated on the code: `gf_mult(a, 0)` returns `a`, not
the zero element; `ghash_block` started from the zero accumulator leaves one
16-byte chunk `B` itself in the accumulator, whatever `H` is; and for a chunk of
one byte it absorbs the byte that follows the chunk in memory as well. -/
theorem SM4_GCM.gf_mult_and_ghash_block_are_xor :
    SM4_GCM.gf_mult [1, 0, 0, 0, 0, 0, 0, 0, 0, 0, 0, 0, 0, 0, 0, 0] (List.replicate 16 0)
        = [1, 0, 0, 0, 0, 0, 0, 0, 0, 0, 0, 0, 0, 0, 0, 0] ∧
      SM4_GCM.gf_mult [1, 0, 0, 0, 0, 0, 0, 0, 0, 0, 0, 0, 0, 0, 0, 0] (List.replicate 16 0)
        ≠ List.replicate 16 0 ∧
      SM4_GCM.ghash_block (List.replicate 16 0)
          [1, 0, 0, 0, 0, 0, 0, 0, 0, 0, 0, 0, 0, 0, 0, 0] 16
        = [1, 0, 0, 0, 0, 0, 0, 0, 0, 0, 0, 0, 0, 0, 0, 0] ∧
      SM4_GCM.ghash_block (List.replicate 16 0) [1, 2] 1
        = [1, 2, 0, 0, 0, 0, 0, 0, 0, 0, 0, 0, 0, 0, 0, 0] := by
  decide

/-- C13 (length block), evaluated on the lengths of the GCM call of `main`
(`aad_len = 11`, `ciphertext_len = 64`): bytes 0..7 of the length block are
`00 02 00 00 00 00 00 00`, the little-endian bytes of `8 * ciphertext_len`, not the
big-endian encoding `00 00 00 00 00 00 00 58` of `8 * aad_len`. -/
theorem SM4_GCM.len_block_main :
    (SM4_GCM.len_block 11 64).take 8 = [0, 2, 0, 0, 0, 0, 0, 0] ∧
      be_bytes64 (8 * 11) = [0, 0, 0, 0, 0, 0, 0, 0x58] ∧
      (SM4_GCM.len_block 11 64).take 8 ≠ be_bytes64 (8 * 11) := by
  decide

/-- C14 (single-bit tamper detection on the recomputed tag): for every key,
counter block, AAD and ciphertext, flipping one bit of a byte of the AAD within
`aad_len`, or of the ciphertext within `ciphertext_len`, all other bytes of
memory (those past a final chunk included) staying as they are, makes
`compute_tag` return a different tag. -/
theorem SM4_GCM.compute_tag_flip_bit (g : SM4_GCM) (ciphertext aad counter : List Nat)
    (ciphertext_len aad_len p b : Nat) :
    (p < aad_len → p < aad.length →
      g.compute_tag ciphertext ciphertext_len (flip_bit aad p b) aad_len counter
        ≠ g.compute_tag ciphertext ciphertext_len aad aad_len counter) ∧
    (p < ciphertext_len → p < ciphertext.length →
      g.compute_tag (flip_bit ciphertext p b) ciphertext_len aad aad_len counter
        ≠ g.compute_tag ciphertext ciphertext_len aad aad_len counter) := by
  have hj : p % 16 < 16 := Nat.mod_lt _ (by norm_num)
  constructor
  · intro hp hl heq
    have h := congrArg (fun t => t.getD (p % 16) 0) heq
    simp only at h
    rw [SM4_GCM.compute_tag_getD _ _ _ _ _ _ _ hj, SM4_GCM.compute_tag_getD _ _ _ _ _ _ _ hj,
      lane_xor_flip_bit aad p b hl _ (by omega)] at h
    have h1 := Nat.xor_left_inj.1 (Nat.xor_left_inj.1 (Nat.xor_left_inj.1 h))
    have h2 := Nat.xor_right_inj.1 h1
    exact xor_two_pow_ne _ b h2
  · intro hp hl heq
    have h := congrArg (fun t => t.getD (p % 16) 0) heq
    simp only at h
    rw [SM4_GCM.compute_tag_getD _ _ _ _ _ _ _ hj, SM4_GCM.compute_tag_getD _ _ _ _ _ _ _ hj,
      lane_xor_flip_bit ciphertext p b hl _ (by omega)] at h
    have h1 := Nat.xor_left_inj.1 (Nat.xor_left_inj.1 h)
    have h2 := Nat.xor_right_inj.1 h1
    exact xor_two_pow_ne _ b h2

/-- Instance of C14: bit 0 of byte 3 of the AAD of `main`, and bit 7 of byte 60 of
a 64-byte zero ciphertext. -/
theorem SM4_GCM.compute_tag_flip_bit_main :
    (SM4_GCM.new main_key).compute_tag (List.replicate 64 0) 64 (flip_bit main_aad 3 0) 11
        (main_iv ++ [0, 0, 0, 1])
      ≠ (SM4_GCM.new main_key).compute_tag (List.replicate 64 0) 64 main_aad 11
        (main_iv ++ [0, 0, 0, 1]) ∧
    (SM4_GCM.new main_key).compute_tag (flip_bit (List.replicate 64 0) 60 7) 64 main_aad 11
        (main_iv ++ [0, 0, 0, 1])
      ≠ (SM4_GCM.new main_key).compute_tag (List.replicate 64 0) 64 main_aad 11
        (main_iv ++ [0, 0, 0, 1]) :=
  ⟨(SM4_GCM.compute_tag_flip_bit (SM4_GCM.new main_key) (List.replicate 64 0) main_aad
      (main_iv ++ [0, 0, 0, 1]) 64 11 3 0).1 (by decide) (by decide),
    (SM4_GCM.compute_tag_flip_bit (SM4_GCM.new main_key) (List.replicate 64 0) main_aad
      (main_iv ++ [0, 0, 0, 1]) 64 11 60 7).2 (by decide) (by decide)⟩

/-- C15 (distinct AAD), evaluated on the code: with the key, nonce and plaintext
of the GCM call of `main`, the 32-byte AAD `01 00..00 02 00..00` and the AAD with
its two blocks swapped are different and get the same tag. -/
theorem SM4_GCM.encrypt_swapped_aad_same_tag :
    aad_block_pair ≠ aad_block_pair_swapped ∧
      ((SM4_GCM.new main_key).encrypt (List.replicate 64 0) main_long_plaintext main_iv
          aad_block_pair 32).tag
        = ((SM4_GCM.new main_key).encrypt (List.replicate 64 0) main_long_plaintext main_iv
          aad_block_pair_swapped 32).tag := by
  refine ⟨by decide, ?_⟩
  have h : SM4_GCM.ghash_block (List.replicate 16 0) aad_block_pair 32
      = SM4_GCM.ghash_block (List.replicate 16 0) aad_block_pair_swapped 32 := by decide
  simp only [SM4_GCM.encrypt, SM4_GCM.compute_tag, SM4_GCM.compute_tag_acc, h]

/-- C16 (J0 for the canonical nonce): for every 12-byte nonce, `init_counter` on
a zeroed block gives the nonce followed by `00 00 00 01`. -/
theorem SM4_GCM.init_counter_canonical (iv : List Nat) (h : iv.length = 12) :
    SM4_GCM.init_counter (List.replicate 16 0) iv = iv ++ [0, 0, 0, 1] := by
  unfold SM4_GCM.init_counter memcpy
  rw [if_pos h, List.take_of_length_le (by omega)]
  have e : List.drop 12 (List.replicate 16 0) = [0, 0, 0, 0] := by decide
  rw [e, List.set_append_right _ _ (by omega), h]
  rfl

/-- Instance of C16 at the nonce of `main`. -/
theorem SM4_GCM.init_counter_canonical_main :
    SM4_GCM.init_counter (List.replicate 16 0) main_iv = main_iv ++ [0, 0, 0, 1] :=
  SM4_GCM.init_counter_canonical main_iv (by decide)

/-- C17 (J0 for a non-canonical nonce), evaluated on the code: the 1-byte nonce
`00` and the 2-byte nonce `00 00` both give the all-zero counter block, and a
5-byte nonce is copied into the block as it is. -/
theorem SM4_GCM.init_counter_short_nonces :
    SM4_GCM.init_counter (List.replicate 16 0) [0] = List.replicate 16 0 ∧
      SM4_GCM.init_counter (List.replicate 16 0) [0, 0] = List.replicate 16 0 ∧
      SM4_GCM.init_counter (List.replicate 16 0) [1, 2, 3, 4, 5]
        = [1, 2, 3, 4, 5, 0, 0, 0, 0, 0, 0, 0, 0, 0, 0, 0] := by
  decide

/-- C18 as stated fails: for a plaintext of `16 * 2^32` bytes, which needs `2^32`
keystream blocks, `ctr_mode` and `SM4_GCM::encrypt` write all `16 * 2^32`
ciphertext bytes, from `2^32` keystream blocks. -/
theorem SM4_GCM.encrypt_beyond_counter_range :
    ((SM4_GCM.new main_key).ctr_mode (List.replicate (16 * 2 ^ 32) 0)
        (main_iv ++ [0, 0, 0, 1])).out.length = 16 * 2 ^ 32 ∧
      ((SM4_GCM.new main_key).ctr_mode (List.replicate (16 * 2 ^ 32) 0)
        (main_iv ++ [0, 0, 0, 1])).fed.length = 2 ^ 32 ∧
      ((SM4_GCM.new main_key).encrypt (List.replicate (16 * 2 ^ 32) 0)
        (List.replicate (16 * 2 ^ 32) 0) main_iv main_aad 11).ciphertext.length
          = 16 * 2 ^ 32 := by
  simp only [SM4_GCM.encrypt, SM4_GCM.ctr_mode_spec, List.length_map, List.length_range,
    List.length_replicate]
  norm_num

/-- C18 as amended: there is no length check.  For every data length, `ctr_mode`
and `SM4_GCM::encrypt` complete and write exactly `len` ciphertext bytes, using
`ceil(len / 16)` keystream blocks, and `encrypt` returns a 16-byte tag. -/
theorem SM4_GCM.encrypt_total (g : SM4_GCM) (ciphertext plaintext iv aad counter : List Nat)
    (aad_len : Nat) :
    (g.ctr_mode plaintext counter).out.length = plaintext.length ∧
      (g.ctr_mode plaintext counter).fed.length = (plaintext.length + 15) / 16 ∧
      (g.encrypt ciphertext plaintext iv aad aad_len).ciphertext.length = plaintext.length ∧
      (g.encrypt ciphertext plaintext iv aad aad_len).tag.length = 16 ∧
      (g.encrypt ciphertext plaintext iv aad aad_len).cipher_inputs.length
        = (plaintext.length + 15) / 16 + 1 := by
  simp only [SM4_GCM.encrypt, SM4_GCM.compute_tag, SM4_GCM.ctr_mode_spec, List.length_map,
    List.length_range, List.length_append, List.length_singleton, and_self]

/-- The table `AES_SBOX` agrees with the algebraic definition of the AES S-box. -/
theorem AES_SBOX_eq_definition : AES_SBOX = (List.range 256).map aes_sbox_by_definition := by
  decide

/-- The round model reproduces round 1 of the AES-128 example of FIPS-197,
appendix C.1: from the state `input XOR key` with round key
`d6aa74fd d2af72fa daa678f1 d6ab76fe` it gives `89d810e8 855ace68 2d1843d8 cb128fe4`. -/
theorem mm_aesenc_si128_fips197 :
    mm_aesenc_si128
        [0x00, 0x10, 0x20, 0x30, 0x40, 0x50, 0x60, 0x70, 0x80, 0x90, 0xa0, 0xb0, 0xc0, 0xd0, 0xe0,
         0xf0]
        [0xd6, 0xaa, 0x74, 0xfd, 0xd2, 0xaf, 0x72, 0xfa, 0xda, 0xa6, 0x78, 0xf1, 0xd6, 0xab, 0x76,
         0xfe]
      = [0x89, 0xd8, 0x10, 0xe8, 0x85, 0x5a, 0xce, 0x68, 0x2d, 0x18, 0x43, 0xd8, 0xcb, 0x12, 0x8f,
         0xe4] := by
  decide

/-- C19 (strategy equivalence), evaluated on the block and round keys of `main`:
`SM4_AESNI::encrypt` writes `c4 06 c7 82 d5 82 e0 bb 65 55 25 f5 7c 2a ca 5a`, while
`SM4_TTable::encrypt` writes `6e 4c 2a 08 6d 4f 29 0b 64 46 20 02 a9 8b ed cf`. -/
theorem SM4_AESNI.encrypt_main_differs :
    SM4_AESNI.encrypt main_plaintext (sm4_key_schedule main_key)
        = [0xc4, 0x06, 0xc7, 0x82, 0xd5, 0x82, 0xe0, 0xbb, 0x65, 0x55, 0x25, 0xf5, 0x7c, 0x2a,
           0xca, 0x5a] ∧
      SM4_TTable.new.encrypt main_plaintext (sm4_key_schedule main_key)
        = [0x6e, 0x4c, 0x2a, 0x08, 0x6d, 0x4f, 0x29, 0x0b, 0x64, 0x46, 0x20, 0x02, 0xa9, 0x8b,
           0xed, 0xcf] ∧
      SM4_AESNI.encrypt main_plaintext (sm4_key_schedule main_key)
        ≠ SM4_TTable.new.encrypt main_plaintext (sm4_key_schedule main_key) := by
  rw [sm4_key_schedule_main]
  have h1 : SM4_AESNI.encrypt main_plaintext
      [0x4E7E134D, 0x9D43BCFD, 0x073FB591, 0xFF1F2BF7, 0xC5F598C6, 0x3BE51A5B, 0x477FF5D1,
       0xAF4F7BA7, 0xAF9FF2AC, 0x5F817E3F, 0x86BE3410, 0xFD1D29F5, 0xE5D5B8E6, 0xC51BE4A5,
       0xF2CA4064, 0x23C3F72B, 0xECDCB1EF, 0x79A75819, 0xA79F1531, 0xA9497DA1, 0x96A6CB95,
       0x0AD42B6A, 0xCCF47E5A, 0xA54571AD, 0x65553866, 0x8658A7E6, 0x310983A7, 0x4CAC9844,
       0x7F4F227C, 0xCC12EDAC, 0xC5FD7753, 0x2FCFFB27]
      = [0xc4, 0x06, 0xc7, 0x82, 0xd5, 0x82, 0xe0, 0xbb, 0x65, 0x55, 0x25, 0xf5, 0x7c, 0x2a,
         0xca, 0x5a] := by
    decide
  have h2 : SM4_TTable.new.encrypt main_plaintext
      [0x4E7E134D, 0x9D43BCFD, 0x073FB591, 0xFF1F2BF7, 0xC5F598C6, 0x3BE51A5B, 0x477FF5D1,
       0xAF4F7BA7, 0xAF9FF2AC, 0x5F817E3F, 0x86BE3410, 0xFD1D29F5, 0xE5D5B8E6, 0xC51BE4A5,
       0xF2CA4064, 0x23C3F72B, 0xECDCB1EF, 0x79A75819, 0xA79F1531, 0xA9497DA1, 0x96A6CB95,
       0x0AD42B6A, 0xCCF47E5A, 0xA54571AD, 0x65553866, 0x8658A7E6, 0x310983A7, 0x4CAC9844,
       0x7F4F227C, 0xCC12EDAC, 0xC5FD7753, 0x2FCFFB27]
      = [0x6e, 0x4c, 0x2a, 0x08, 0x6d, 0x4f, 0x29, 0x0b, 0x64, 0x46, 0x20, 0x02, 0xa9, 0x8b,
         0xed, 0xcf] := by
    decide
  rw [h1, h2]
  decide

/-! ## SM3: the content of the buffer past `bufferLength` is never read -/

theorem sm3_compress_fields (ctx : SM3_CTX) (block : List Nat) :
    (sm3_compress ctx block).totalLength = ctx.totalLength ∧
      (sm3_compress ctx block).bufferLength = ctx.bufferLength ∧
      (sm3_compress ctx block).buffer = ctx.buffer :=
  ⟨rfl, rfl, rfl⟩

theorem sm3_compress_state_congr (c d : SM3_CTX) (block : List Nat) (h : c.state = d.state) :
    (sm3_compress c block).state = (sm3_compress d block).state := by
  simp only [sm3_compress, h]

theorem sm3_update_fill_eq (ctx : SM3_CTX) (data : List Nat) (h : ctx.bufferLength ≤ 64) :
    sm3_update_fill ctx data = min (64 - ctx.bufferLength) data.length := by
  unfold sm3_update_fill u64
  have e : (64 + 2 ^ 64 - ctx.bufferLength) % 2 ^ 64 = 64 - ctx.bufferLength := by omega
  simp only [e]
  split <;> omega

theorem take_append_take_drop (buf mid : List Nat) (a : Nat) (rest : List Nat)
    (ha : a ≤ buf.length) :
    (buf.take a ++ mid ++ rest).take (a + mid.length) = buf.take a ++ mid := by
  have hl : (buf.take a ++ mid).length = a + mid.length := by
    rw [List.length_append, List.length_take, Nat.min_eq_left ha]
  rw [← hl]
  exact List.take_left _ _

theorem SM3_CTX.Agree.step {c d : SM3_CTX} (h : c.Agree d) (hb : c.bufferLength ≤ 64)
    (data : List Nat) :
    (sm3_update_step c data).Agree (sm3_update_step d data) ∧
      (sm3_update_step c data).bufferLength ≤ 64 ∧
      sm3_update_fill c data = sm3_update_fill d data := by
  obtain ⟨hs, ht, hbl, htk, hlc, hld⟩ := h
  have hfc := sm3_update_fill_eq c data hb
  have hfd := sm3_update_fill_eq d data (hbl ▸ hb)
  have hfe : sm3_update_fill c data = sm3_update_fill d data := by rw [hfc, hfd, hbl]
  have hF : sm3_update_fill c data ≤ 64 - c.bufferLength := by rw [hfc]; exact Nat.min_le_left _ _
  have hF2 : sm3_update_fill c data ≤ data.length := by rw [hfc]; exact Nat.min_le_right _ _
  have hlen : (data.take (sm3_update_fill c data)).length = sm3_update_fill c data := by
    rw [List.length_take, Nat.min_eq_left hF2]
  have hu : u64 (c.bufferLength + sm3_update_fill c data)
      = c.bufferLength + sm3_update_fill c data := by
    unfold u64; omega
  -- the two buffers after the copy
  have hbc : (c.buffer.take c.bufferLength ++ data.take (sm3_update_fill c data) ++
      c.buffer.drop (c.bufferLength + sm3_update_fill c data)).length = 64 := by
    simp only [List.length_append, List.length_take, List.length_drop, hlc]
    omega
  have hbd : (d.buffer.take c.bufferLength ++ data.take (sm3_update_fill c data) ++
      d.buffer.drop (c.bufferLength + sm3_update_fill c data)).length = 64 := by
    simp only [List.length_append, List.length_take, List.length_drop, hld]
    omega
  have htake : (c.buffer.take c.bufferLength ++ data.take (sm3_update_fill c data) ++
        c.buffer.drop (c.bufferLength + sm3_update_fill c data)).take
          (c.bufferLength + sm3_update_fill c data)
      = (d.buffer.take c.bufferLength ++ data.take (sm3_update_fill c data) ++
        d.buffer.drop (c.bufferLength + sm3_update_fill c data)).take
          (c.bufferLength + sm3_update_fill c data) := by
    have e1 := take_append_take_drop c.buffer (data.take (sm3_update_fill c data)) c.bufferLength
      (c.buffer.drop (c.bufferLength + sm3_update_fill c data)) (by omega)
    have e2 := take_append_take_drop d.buffer (data.take (sm3_update_fill c data)) c.bufferLength
      (d.buffer.drop (c.bufferLength + sm3_update_fill c data)) (by omega)
    rw [hlen] at e1 e2
    rw [e1, e2, htk]
  unfold sm3_update_step
  simp only [← hfe, ← hbl, hu]
  by_cases h64 : c.bufferLength + sm3_update_fill c data = 64
  · simp only [h64, if_true]
    have hfull : c.buffer.take c.bufferLength ++ data.take (sm3_update_fill c data) ++
          c.buffer.drop 64
        = d.buffer.take c.bufferLength ++ data.take (sm3_update_fill c data) ++
          d.buffer.drop 64 := by
      rw [h64] at htake hbc hbd
      have t1 := List.take_of_length_le (Nat.le_of_eq hbc)
      have t2 := List.take_of_length_le (Nat.le_of_eq hbd)
      rw [← t1, ← t2]
      exact htake
    rw [h64] at hbc hbd
    refine ⟨⟨?_, ht, rfl, by simp, hbc, hbd⟩, by simp, trivial⟩
    simp only [sm3_compress, hs, hfull]
  · simp only [h64, if_false]
    exact ⟨⟨hs, ht, rfl, htake, hbc, hbd⟩, by omega, trivial⟩

theorem SM3_CTX.Agree.update_loop (fuel : Nat) :
    ∀ (c d : SM3_CTX) (data : List Nat), c.Agree d → c.bufferLength ≤ 64 →
      (sm3_update_loop fuel c data).Agree (sm3_update_loop fuel d data) ∧
        (sm3_update_loop fuel c data).bufferLength ≤ 64 := by
  induction fuel with
  | zero => intro c d data h hb; exact ⟨h, hb⟩
  | succ fuel ih =>
    intro c d data h hb
    rw [sm3_update_loop, sm3_update_loop]
    by_cases hd : data.length > 0
    · obtain ⟨ha, hb2, hfe⟩ := h.step hb data
      rw [if_pos hd, if_pos hd, ← hfe]
      exact ih _ _ _ ha hb2
    · rw [if_neg hd, if_neg hd]
      exact ⟨h, hb⟩

theorem take_succ_set (l : List Nat) (n v : Nat) (h : n < l.length) :
    (l.set n v).take (n + 1) = l.take n ++ [v] := by
  rw [List.take_succ, List.getElem?_set_eq_of_lt _ h]
  have e : (l.set n v).take n = l.take n := by
    apply List.ext_getElem
    · simp
    · intro i h1 h2
      have hi : i < n := by
        rw [List.length_take] at h2
        omega
      simp only [List.getElem_take, List.getElem_set]
      rw [if_neg (by omega)]
  rw [e]
  rfl

theorem foldl_set_tail (X Y : List Nat) (f : Nat → Nat) (hX : X.length = 56)
    (hY : Y.length = 8) :
    (List.range 8).foldl (fun buf i => buf.set (56 + i) (f i)) (X ++ Y)
      = X ++ (List.range 8).map f := by
  match Y, hY with
  | [y0, y1, y2, y3, y4, y5, y6, y7], _ =>
    have hr : List.range 8 = [0, 1, 2, 3, 4, 5, 6, 7] := by decide
    rw [hr]
    simp only [List.foldl_cons, List.foldl_nil, List.map_cons, List.map_nil]
    rw [List.set_append_right _ _ (by omega), List.set_append_right _ _ (by omega),
      List.set_append_right _ _ (by omega), List.set_append_right _ _ (by omega),
      List.set_append_right _ _ (by omega), List.set_append_right _ _ (by omega),
      List.set_append_right _ _ (by omega), List.set_append_right _ _ (by omega)]
    simp [hX]

theorem SM3_CTX.Agree.final_pad {c d : SM3_CTX} (h : c.Agree d) (hb : c.bufferLength < 64) :
    (sm3_final_pad c).state = (sm3_final_pad d).state ∧
      (sm3_final_pad c).buffer = (sm3_final_pad d).buffer := by
  obtain ⟨hs, ht, hbl, htk, hlc, hld⟩ := h
  have t1 := take_succ_set c.buffer c.bufferLength 0x80 (by omega)
  have t2 := take_succ_set d.buffer c.bufferLength 0x80 (by omega)
  have hpre : (c.buffer.set c.bufferLength 0x80).take (c.bufferLength + 1)
      = (d.buffer.set c.bufferLength 0x80).take (c.bufferLength + 1) := by
    rw [t1, t2, htk]
  have l1 : (c.buffer.set c.bufferLength 0x80).length = 64 := by simp [hlc]
  have l2 : (d.buffer.set c.bufferLength 0x80).length = 64 := by simp [hld]
  unfold sm3_final_pad
  simp only [← hbl, ← ht, memset_zero]
  by_cases h56 : c.bufferLength + 1 > 56
  · simp only [h56, if_true, sm3_compress_fields]
    have e64 : c.bufferLength + 1 + (64 - (c.bufferLength + 1)) = 64 := by omega
    have hfull : (c.buffer.set c.bufferLength 0x80).take (c.bufferLength + 1)
          ++ List.replicate (64 - (c.bufferLength + 1)) 0
          ++ (c.buffer.set c.bufferLength 0x80).drop
            (c.bufferLength + 1 + (64 - (c.bufferLength + 1)))
        = (d.buffer.set c.bufferLength 0x80).take (c.bufferLength + 1)
          ++ List.replicate (64 - (c.bufferLength + 1)) 0
          ++ (d.buffer.set c.bufferLength 0x80).drop
            (c.bufferLength + 1 + (64 - (c.bufferLength + 1))) := by
      rw [e64, List.drop_of_length_le (Nat.le_of_eq l1), List.drop_of_length_le (Nat.le_of_eq l2),
        hpre]
    simp only [sm3_compress, hs, hfull, and_self]
  · simp only [h56, if_false]
    refine ⟨hs, ?_⟩
    have e56 : c.bufferLength + 1 + (56 - (c.bufferLength + 1)) = 56 := by omega
    rw [e56, hpre]
    have hX : ((d.buffer.set c.bufferLength 0x80).take (c.bufferLength + 1)
        ++ List.replicate (56 - (c.bufferLength + 1)) 0).length = 56 := by
      simp only [List.length_append, List.length_take, List.length_replicate, l2]
      omega
    rw [foldl_set_tail _ _ _ hX (by simp [hlc]), foldl_set_tail _ _ _ hX (by simp [hld])]

theorem SM3_CTX.Agree.final {c d : SM3_CTX} (h : c.Agree d) (hb : c.bufferLength < 64) :
    sm3_final c = sm3_final d := by
  obtain ⟨hs, hbuf⟩ := h.final_pad hb
  simp only [sm3_final, sm3_compress, hs, hbuf]

theorem sm3_update_loop_bufferLength (fuel : Nat) :
    ∀ (c : SM3_CTX) (data : List Nat), c.bufferLength < 64 →
      (sm3_update_loop fuel c data).bufferLength < 64 := by
  induction fuel with
  | zero => intro c data h; exact h
  | succ fuel ih =>
    intro c data h
    rw [sm3_update_loop]
    by_cases hd : data.length > 0
    · rw [if_pos hd]
      apply ih
      have hf := sm3_update_fill_eq c data (Nat.le_of_lt h)
      unfold sm3_update_step
      simp only [hf]
      have hu : u64 (c.bufferLength + min (64 - c.bufferLength) data.length)
          = c.bufferLength + min (64 - c.bufferLength) data.length := by
        unfold u64; omega
      rw [hu]
      split
      · simp
      · rename_i hne
        simp only at hne ⊢
        omega
    · rw [if_neg hd]
      exact h

/-- The digest does not depend on what the local `SM3_CTX` held before
`sm3_init`, as long as its buffer has 64 bytes. -/
theorem sm3_hash_ctx_irrelevant (c d : SM3_CTX) (data : List Nat) (hc : c.buffer.length = 64)
    (hd : d.buffer.length = 64) : sm3_hash c data = sm3_hash d data := by
  unfold sm3_hash sm3_update
  have h0 : SM3_CTX.Agree
      { sm3_init c with totalLength := u64 ((sm3_init c).totalLength + u64 (data.length * 8)) }
      { sm3_init d with totalLength := u64 ((sm3_init d).totalLength + u64 (data.length * 8)) } :=
    ⟨rfl, rfl, rfl, rfl, hc, hd⟩
  have h1 := SM3_CTX.Agree.update_loop (data.length + 1) _ _ data h0 (by simp [sm3_init])
  exact h1.1.final (sm3_update_loop_bufferLength _ _ _ (by simp [sm3_init]))

/-- The digest of `"abc"` computed from the all-zero context. -/
theorem sm3_hash_zero_ctx_abc :
    sm3_hash SM3_CTX.zero sm3_test_data
      = [0x66, 0xc7, 0xf0, 0xf4, 0x62, 0xee, 0xed, 0xd9, 0xd1, 0xf2, 0xd4, 0x6b, 0xdc, 0x10, 0xe4,
         0xe2, 0x41, 0x67, 0xc4, 0x87, 0x5c, 0xf2, 0xf7, 0xa2, 0x29, 0x7d, 0xa0, 0x2b, 0x8f, 0x4b,
         0xa8, 0xe0] := by
  decide

/-- C20 (SM3 known-answer test): whatever the local context holds before
`sm3_init` (its buffer having 64 bytes), `sm3_hash` of the 3-byte message `"abc"`
is `66c7f0f462eeedd9d1f2d46bdc10e4e24167c4875cf2f7a2297da02b8f4ba8e0`, the value
`main` states as expected. -/
theorem sm3_hash_abc (ctx : SM3_CTX) (h : ctx.buffer.length = 64) :
    sm3_hash ctx sm3_test_data
      = [0x66, 0xc7, 0xf0, 0xf4, 0x62, 0xee, 0xed, 0xd9, 0xd1, 0xf2, 0xd4, 0x6b, 0xdc, 0x10, 0xe4,
         0xe2, 0x41, 0x67, 0xc4, 0x87, 0x5c, 0xf2, 0xf7, 0xa2, 0x29, 0x7d, 0xa0, 0x2b, 0x8f, 0x4b,
         0xa8, 0xe0] := by
  rw [sm3_hash_ctx_irrelevant ctx SM3_CTX.zero sm3_test_data h (by decide)]
  exact sm3_hash_zero_ctx_abc

/-- Instance of C20 with a context whose buffer holds 64 bytes `0xEE`. -/
theorem sm3_hash_abc_stale_buffer :
    sm3_hash { state := [], totalLength := 7, bufferLength := 9,
               buffer := List.replicate 64 0xEE } sm3_test_data
      = [0x66, 0xc7, 0xf0, 0xf4, 0x62, 0xee, 0xed, 0xd9, 0xd1, 0xf2, 0xd4, 0x6b, 0xdc, 0x10, 0xe4,
         0xe2, 0x41, 0x67, 0xc4, 0x87, 0x5c, 0xf2, 0xf7, 0xa2, 0x29, 0x7d, 0xa0, 0x2b, 0x8f, 0x4b,
         0xa8, 0xe0] :=
  sm3_hash_abc _ (by decide)

/-! ## XOR and the byte lanes of a word -/

theorem shiftRight_xor (x y s : Nat) : (x ^^^ y) >>> s = (x >>> s) ^^^ (y >>> s) := by
  apply Nat.eq_of_testBit_eq
  intro i
  simp only [Nat.testBit_shiftRight, Nat.testBit_xor]

theorem shiftLeft_xor (x y s : Nat) : (x ^^^ y) <<< s = (x <<< s) ^^^ (y <<< s) := by
  apply Nat.eq_of_testBit_eq
  intro i
  simp only [Nat.testBit_shiftLeft, Nat.testBit_xor]
  cases decide (i ≥ s) <;> simp

theorem div_mod_xor (x y k : Nat) :
    (x ^^^ y) / 2 ^ k % 256 = (x / 2 ^ k % 256) ^^^ (y / 2 ^ k % 256) := by
  rw [← Nat.shiftRight_eq_div_pow, ← Nat.shiftRight_eq_div_pow, ← Nat.shiftRight_eq_div_pow,
    ← and_255_eq_mod, ← and_255_eq_mod, ← and_255_eq_mod, shiftRight_xor,
    Nat.and_xor_distrib_right]

theorem mod_xor_256 (x y : Nat) : (x ^^^ y) % 256 = (x % 256) ^^^ (y % 256) := by
  rw [← and_255_eq_mod, ← and_255_eq_mod, ← and_255_eq_mod, Nat.and_xor_distrib_right]

theorem load_word_lt (b0 b1 b2 b3 : Nat) : load_word b0 b1 b2 b3 < 2 ^ 32 :=
  Nat.mod_lt _ (by norm_num)

/-- XOR of two big-endian words is the big-endian word of the byte-wise XOR. -/
theorem load_word_xor (a0 a1 a2 a3 b0 b1 b2 b3 : Nat) (ha0 : a0 < 256) (ha1 : a1 < 256)
    (ha2 : a2 < 256) (ha3 : a3 < 256) (hb0 : b0 < 256) (hb1 : b1 < 256) (hb2 : b2 < 256)
    (hb3 : b3 < 256) :
    load_word (a0 ^^^ b0) (a1 ^^^ b1) (a2 ^^^ b2) (a3 ^^^ b3)
      = load_word a0 a1 a2 a3 ^^^ load_word b0 b1 b2 b3 := by
  have hx := load_word_lt a0 a1 a2 a3
  have hy := load_word_lt b0 b1 b2 b3
  have hxy : load_word a0 a1 a2 a3 ^^^ load_word b0 b1 b2 b3 < 2 ^ 32 :=
    Nat.xor_lt_two_pow hx hy
  have sa := store_load_word a0 a1 a2 a3 ha0 ha1 ha2 ha3
  have sb := store_load_word b0 b1 b2 b3 hb0 hb1 hb2 hb3
  rw [store_word_eq] at sa sb
  simp only [List.cons.injEq, and_true] at sa sb
  obtain ⟨sa0, sa1, sa2, sa3⟩ := sa
  obtain ⟨sb0, sb1, sb2, sb3⟩ := sb
  have h := load_store_word _ hxy
  rw [div_mod_xor, div_mod_xor, div_mod_xor, mod_xor_256, sa0, sa1, sa2, sa3, sb0, sb1, sb2,
    sb3] at h
  exact h

theorem broadcast8_eq_load_word (b : Nat) (hb : b < 256) : broadcast8 b = load_word b b b b := by
  rw [load_word_eq b b b b hb hb hb hb]
  exact or_bytes_eq_add b b b b hb hb hb

theorem broadcast8_xor (x y : Nat) (hx : x < 256) (hy : y < 256) :
    broadcast8 (x ^^^ y) = broadcast8 x ^^^ broadcast8 y := by
  have hxy : x ^^^ y < 256 := Nat.xor_lt_two_pow (n := 8) hx hy
  rw [broadcast8_eq_load_word _ hxy, broadcast8_eq_load_word _ hx, broadcast8_eq_load_word _ hy]
  exact load_word_xor x x x x y y y y hx hx hx hx hy hy hy hy

theorem rotl8_lt (b n : Nat) : rotl8 b n < 256 := by
  unfold rotl8
  rw [and_255_eq_mod]
  exact Nat.mod_lt _ (by norm_num)

theorem rotl8_two_xor (x y : Nat) (hx : x < 256) (hy : y < 256) :
    rotl8 (x ^^^ y) 2 = rotl8 x 2 ^^^ rotl8 y 2 := by
  have hxy : x ^^^ y < 256 := Nat.xor_lt_two_pow (n := 8) hx hy
  have low : ∀ z, z < 256 → (z <<< 2) ||| (z >>> 6) = (z <<< 2) ^^^ (z >>> 6) := by
    intro z hz
    apply Nat.eq_of_testBit_eq
    intro i
    simp only [Nat.testBit_or, Nat.testBit_xor, Nat.testBit_shiftLeft, Nat.testBit_shiftRight]
    by_cases hi : i ≥ 2
    · have hf : z.testBit (6 + i) = false := by
        apply Nat.testBit_lt_two_pow
        calc z < 256 := hz
          _ = 2 ^ 8 := by norm_num
          _ ≤ 2 ^ (6 + i) := Nat.pow_le_pow_right (by norm_num) (by omega)
      simp [hf]
    · simp [hi]
  have sw : ∀ a b c d : Nat, (a ^^^ b) ^^^ (c ^^^ d) = (a ^^^ c) ^^^ (b ^^^ d) := by
    intro a b c d
    rw [Nat.xor_assoc, Nat.xor_assoc, ← Nat.xor_assoc b c d, Nat.xor_comm b c, Nat.xor_assoc c b d]
  unfold rotl8
  have e8 : 8 - 2 = 6 := rfl
  rw [e8, low _ hxy, low _ hx, low _ hy, shiftLeft_xor, shiftRight_xor,
    ← Nat.and_xor_distrib_right, sw]

/-- What `L_transform` and the three rotations do to a byte repeated in all four
lanes. -/
theorem L_transform_broadcast8 :
    ∀ b < 256, L_transform (broadcast8 b) = broadcast8 (rotl8 b 2) ∧
      ROTL (broadcast8 (rotl8 b 2)) 8 = broadcast8 (rotl8 b 2) ∧
      ROTL (broadcast8 (rotl8 b 2)) 16 = broadcast8 (rotl8 b 2) ∧
      ROTL (broadcast8 (rotl8 b 2)) 24 = broadcast8 (rotl8 b 2) := by
  decide

theorem SM4_SBOX_lt : ∀ v ∈ SM4_SBOX, v < 256 := by
  decide

theorem SM4_TTable.new_entries (i : Nat) (hi : i < 256) :
    SM4_TTable.new.T0.getD i 0 = broadcast8 (rotl8 (SM4_SBOX.getD i 0) 2) ∧
      SM4_TTable.new.T1.getD i 0 = broadcast8 (rotl8 (SM4_SBOX.getD i 0) 2) ∧
      SM4_TTable.new.T2.getD i 0 = broadcast8 (rotl8 (SM4_SBOX.getD i 0) 2) ∧
      SM4_TTable.new.T3.getD i 0 = broadcast8 (rotl8 (SM4_SBOX.getD i 0) 2) := by
  have hs : SM4_SBOX.getD i 0 < 256 := getD_lt_of_forall SM4_SBOX_lt (by norm_num) i
  obtain ⟨_, he⟩ := SM4_TTable.entry0_eq i hi
  obtain ⟨h0, h8, h16, h24⟩ := L_transform_broadcast8 _ hs
  have e0 : SM4_TTable.entry0 i = broadcast8 (rotl8 (SM4_SBOX.getD i 0) 2) := by
    rw [he]
    exact h0
  have t0 : SM4_TTable.new.T0.getD i 0 = SM4_TTable.entry0 i :=
    getD_map_range (fun j => SM4_TTable.entry0 j) 256 i hi
  have t1 : SM4_TTable.new.T1.getD i 0 = ROTL (SM4_TTable.entry0 i) 8 :=
    getD_map_range (fun j => ROTL (SM4_TTable.entry0 j) 8) 256 i hi
  have t2 : SM4_TTable.new.T2.getD i 0 = ROTL (SM4_TTable.entry0 i) 16 :=
    getD_map_range (fun j => ROTL (SM4_TTable.entry0 j) 16) 256 i hi
  have t3 : SM4_TTable.new.T3.getD i 0 = ROTL (SM4_TTable.entry0 i) 24 :=
    getD_map_range (fun j => ROTL (SM4_TTable.entry0 j) 24) 256 i hi
  rw [t0, t1, t2, t3, e0]
  exact ⟨rfl, h8, h16, h24⟩

theorem sm4_key_schedule_round_eq (sm4 : SM4_TTable) (s : Nat × Nat × Nat × Nat)
    (rk : List Nat) (i : Nat) :
    sm4_key_schedule_round sm4 (s, rk) i
      = (sm4.round s (CK.getD i 0), rk ++ [(sm4.round s (CK.getD i 0)).2.2.2]) := by
  obtain ⟨k0, k1, k2, k3⟩ := s
  rfl

/-- The loop of `sm4_key_schedule` after `n` passes: the registers are those of
the round loop run with `CK`, and `rk[i]` is the word that pass `i` produced. -/
theorem sm4_key_schedule_foldl (s0 : Nat × Nat × Nat × Nat) (n : Nat) :
    (List.range n).foldl (sm4_key_schedule_round SM4_TTable.new) (s0, [])
      = ((List.range n).foldl (fun x j => SM4_TTable.new.round x (CK.getD j 0)) s0,
         (List.range n).map fun i =>
           ((List.range (i + 1)).foldl (fun x j => SM4_TTable.new.round x (CK.getD j 0))
             s0).2.2.2) := by
  induction n with
  | zero => rfl
  | succ n ih =>
    rw [List.range_succ, List.foldl_append, ih]
    simp only [List.foldl_cons, List.foldl_nil, sm4_key_schedule_round_eq, List.map_append,
      List.map_cons, List.map_nil, List.foldl_append, List.range_succ]

theorem sm4_key_schedule_getD (key : List Nat) (i : Nat) (hi : i < 32) :
    (sm4_key_schedule key).getD i 0 = (ck_rounds key (i + 1)).2.2.2 := by
  unfold sm4_key_schedule
  simp only []
  rw [sm4_key_schedule_foldl]
  exact getD_map_range (fun i => (ck_rounds key (i + 1)).2.2.2) 32 i hi

theorem SM4_TTable.round_shift (T : SM4_TTable) (s : Nat × Nat × Nat × Nat) (k : Nat) :
    (T.round s k).1 = s.2.1 ∧ (T.round s k).2.1 = s.2.2.1 ∧ (T.round s k).2.2.1 = s.2.2.2 := by
  obtain ⟨x0, x1, x2, x3⟩ := s
  exact ⟨rfl, rfl, rfl⟩

theorem ck_rounds_succ (key : List Nat) (n : Nat) :
    ck_rounds key (n + 1) = SM4_TTable.new.round (ck_rounds key n) (CK.getD n 0) := by
  unfold ck_rounds
  rw [List.range_succ, List.foldl_append]
  rfl

theorem load_block_key_xor_FK (key : List Nat) (hb : ∀ b ∈ key, b < 256) :
    SM4_TTable.load_block (key_xor_FK key) = ck_rounds key 0 := by
  have g : ∀ i, key.getD i 0 < 256 := getD_lt_of_forall hb (by norm_num)
  have hF : SM4_TTable.store_block (FK.getD 0 0) (FK.getD 1 0) (FK.getD 2 0) (FK.getD 3 0)
      = [0xA3, 0xB1, 0xBA, 0xC6, 0x56, 0xAA, 0x33, 0x50, 0x67, 0x7D, 0x91, 0x97, 0xB2, 0x70,
         0x22, 0xDC] := by decide
  have hr : List.range 16 = [0, 1, 2, 3, 4, 5, 6, 7, 8, 9, 10, 11, 12, 13, 14, 15] := by decide
  have f0 : FK.getD 0 0 = load_word 0xA3 0xB1 0xBA 0xC6 := by decide
  have f1 : FK.getD 1 0 = load_word 0x56 0xAA 0x33 0x50 := by decide
  have f2 : FK.getD 2 0 = load_word 0x67 0x7D 0x91 0x97 := by decide
  have f3 : FK.getD 3 0 = load_word 0xB2 0x70 0x22 0xDC := by decide
  unfold ck_rounds key_xor_FK
  rw [hF, hr, f0, f1, f2, f3]
  simp only [List.range_zero, List.foldl_nil, SM4_TTable.load_block, List.map_cons, List.map_nil,
    List.getD_cons_zero, List.getD_cons_succ]
  rw [load_word_xor _ _ _ _ _ _ _ _ (g 0) (g 1) (g 2) (g 3) (by norm_num) (by norm_num)
      (by norm_num) (by norm_num),
    load_word_xor _ _ _ _ _ _ _ _ (g 4) (g 5) (g 6) (g 7) (by norm_num) (by norm_num)
      (by norm_num) (by norm_num),
    load_word_xor _ _ _ _ _ _ _ _ (g 8) (g 9) (g 10) (g 11) (by norm_num) (by norm_num)
      (by norm_num) (by norm_num),
    load_word_xor _ _ _ _ _ _ _ _ (g 12) (g 13) (g 14) (g 15) (by norm_num) (by norm_num)
      (by norm_num) (by norm_num)]

/-- C21 (the key schedule is the round loop run with `CK`): for every key of
bytes (16 of them in the source), `rk[i]` is the word produced by pass `i` of the round loop of
`SM4_TTable::encrypt` started from the big-endian key words XOR `FK[0..3]` with
`CK` as round keys; and `SM4_TTable::encrypt` of the block `key XOR FK` under `CK`
is `rk[31], rk[30], rk[29], rk[28]` written big-endian. -/
theorem sm4_key_schedule_is_round_loop (key : List Nat) (hb : ∀ b ∈ key, b < 256) :
    (∀ i < 32, (sm4_key_schedule key).getD i 0 = (ck_rounds key (i + 1)).2.2.2) ∧
      SM4_TTable.new.encrypt (key_xor_FK key) CK
        = SM4_TTable.store_block ((sm4_key_schedule key).getD 31 0)
            ((sm4_key_schedule key).getD 30 0) ((sm4_key_schedule key).getD 29 0)
            ((sm4_key_schedule key).getD 28 0) := by
  refine ⟨fun i hi => sm4_key_schedule_getD key i hi, ?_⟩
  rw [sm4_key_schedule_getD key 31 (by norm_num), sm4_key_schedule_getD key 30 (by norm_num),
    sm4_key_schedule_getD key 29 (by norm_num), sm4_key_schedule_getD key 28 (by norm_num)]
  have h32 : (List.range SM4_NUM_ROUNDS).foldl (fun x i => SM4_TTable.new.round x (CK.getD i 0))
      (SM4_TTable.load_block (key_xor_FK key)) = ck_rounds key 32 := by
    rw [load_block_key_xor_FK key hb]
    rfl
  unfold SM4_TTable.encrypt
  simp only [h32]
  have s32 := SM4_TTable.round_shift SM4_TTable.new (ck_rounds key 31) (CK.getD 31 0)
  have s31 := SM4_TTable.round_shift SM4_TTable.new (ck_rounds key 30) (CK.getD 30 0)
  have s30 := SM4_TTable.round_shift SM4_TTable.new (ck_rounds key 29) (CK.getD 29 0)
  rw [← ck_rounds_succ] at s32 s31 s30
  rw [s32.2.2, s32.2.1, s32.1, s31.2.2, s31.2.1, s30.2.2]

/-- Instance of C21 at the key of `main`. -/
theorem sm4_key_schedule_is_round_loop_main :
    SM4_TTable.new.encrypt (key_xor_FK main_key) CK
      = SM4_TTable.store_block ((sm4_key_schedule main_key).getD 31 0)
          ((sm4_key_schedule main_key).getD 30 0) ((sm4_key_schedule main_key).getD 29 0)
          ((sm4_key_schedule main_key).getD 28 0) :=
  (sm4_key_schedule_is_round_loop main_key (by decide)).2

/-- C22 (the T-table SM3 variant against the reference), evaluated on the
message `"abc"` of `main`: `sm3_hash_optimized1` gives `b6d43e4f e8bd2f9f ...`,
`sm3_hash` gives `66c7f0f4 62eeedd9 ...`. -/
theorem sm3_hash_optimized1_abc_differs :
    sm3_hash_optimized1 SM3_CTX.zero sm3_test_data
        = [0xb6, 0xd4, 0x3e, 0x4f, 0xe8, 0xbd, 0x2f, 0x9f, 0x0d, 0x1e, 0x95, 0x9b, 0x87, 0xbd,
           0x30, 0x5f, 0x51, 0x8a, 0x75, 0xd6, 0x3f, 0xc8, 0x0b, 0x1c, 0x85, 0xc0, 0x19, 0x39,
           0x03, 0x25, 0xb1, 0xfd] ∧
      sm3_hash SM3_CTX.zero sm3_test_data
        = [0x66, 0xc7, 0xf0, 0xf4, 0x62, 0xee, 0xed, 0xd9, 0xd1, 0xf2, 0xd4, 0x6b, 0xdc, 0x10,
           0xe4, 0xe2, 0x41, 0x67, 0xc4, 0x87, 0x5c, 0xf2, 0xf7, 0xa2, 0x29, 0x7d, 0xa0, 0x2b,
           0x8f, 0x4b, 0xa8, 0xe0] ∧
      sm3_hash_optimized1 SM3_CTX.zero sm3_test_data ≠ sm3_hash SM3_CTX.zero sm3_test_data := by
  have h1 : sm3_hash_optimized1 SM3_CTX.zero sm3_test_data
      = [0xb6, 0xd4, 0x3e, 0x4f, 0xe8, 0xbd, 0x2f, 0x9f, 0x0d, 0x1e, 0x95, 0x9b, 0x87, 0xbd,
         0x30, 0x5f, 0x51, 0x8a, 0x75, 0xd6, 0x3f, 0xc8, 0x0b, 0x1c, 0x85, 0xc0, 0x19, 0x39,
         0x03, 0x25, 0xb1, 0xfd] := by
    decide
  rw [h1, sm3_hash_zero_ctx_abc]
  decide

/-- C23 (the four SM4 tables coincide): for every index `i` in `0..255`,
`T0[i] = T1[i] = T2[i] = T3[i]`, each being the byte `rotl8(SM4_SBOX[i], 2)` in all
four byte lanes; and for every 32-bit `t` the XOR of the four lookups of a round
is the byte `rotl8(s, 2)` in all four lanes, where `s` is the XOR of the S-box
images of the four bytes of `t`. -/
theorem SM4_TTable.new_tables_coincide :
    (∀ i < 256,
      SM4_TTable.new.T0.getD i 0 = broadcast8 (rotl8 (SM4_SBOX.getD i 0) 2) ∧
      SM4_TTable.new.T1.getD i 0 = SM4_TTable.new.T0.getD i 0 ∧
      SM4_TTable.new.T2.getD i 0 = SM4_TTable.new.T0.getD i 0 ∧
      SM4_TTable.new.T3.getD i 0 = SM4_TTable.new.T0.getD i 0) ∧
    (∀ t < 2 ^ 32, SM4_TTable.new.lookup t = broadcast8 (rotl8 (sbox_xor t) 2)) := by
  constructor
  · intro i hi
    obtain ⟨h0, h1, h2, h3⟩ := SM4_TTable.new_entries i hi
    exact ⟨h0, by rw [h1, h0], by rw [h2, h0], by rw [h3, h0]⟩
  · intro t ht
    have s : ∀ i, SM4_SBOX.getD i 0 < 256 := getD_lt_of_forall SM4_SBOX_lt (by norm_num)
    have ha : t &&& 0xFF < 256 := by rw [and_255_eq_mod]; exact Nat.mod_lt _ (by norm_num)
    have hb : (t >>> 8) &&& 0xFF < 256 := by rw [and_255_eq_mod]; exact Nat.mod_lt _ (by norm_num)
    have hc : (t >>> 16) &&& 0xFF < 256 := by
      rw [and_255_eq_mod]; exact Nat.mod_lt _ (by norm_num)
    have hd : t >>> 24 < 256 := by
      rw [Nat.shiftRight_eq_div_pow]
      omega
    unfold SM4_TTable.lookup sbox_xor
    rw [(SM4_TTable.new_entries _ ha).1, (SM4_TTable.new_entries _ hb).2.1,
      (SM4_TTable.new_entries _ hc).2.2.1, (SM4_TTable.new_entries _ hd).2.2.2,
      ← broadcast8_xor _ _ (rotl8_lt _ _) (rotl8_lt _ _), ← rotl8_two_xor _ _ (s _) (s _),
      ← broadcast8_xor _ _ (rotl8_lt _ _) (rotl8_lt _ _),
      ← rotl8_two_xor _ _ (Nat.xor_lt_two_pow (n := 8) (s _) (s _)) (s _),
      ← broadcast8_xor _ _ (rotl8_lt _ _) (rotl8_lt _ _),
      ← rotl8_two_xor _ _
        (Nat.xor_lt_two_pow (n := 8) (Nat.xor_lt_two_pow (n := 8) (s _) (s _)) (s _)) (s _)]

/-- Instance of C23 at index `0` (S-box byte `0xD6`) and at `t = 0x01020304`. -/
theorem SM4_TTable.new_tables_coincide_instance :
    SM4_TTable.new.T3.getD 0 0 = SM4_TTable.new.T0.getD 0 0 ∧
      SM4_TTable.new.lookup 0x01020304 = broadcast8 (rotl8 (sbox_xor 0x01020304) 2) :=
  ⟨(SM4_TTable.new_tables_coincide.1 0 (by decide)).2.2.2,
    SM4_TTable.new_tables_coincide.2 0x01020304 (by decide)⟩

/-- C26 (the precomputed SM3 round constants), evaluated on the code:
`T_table[16] = 0x7a879d8a`, while the rotation of `T_16 = 0x7a879d8a` by 16 is
`0x9d8a7a87`; the entries that equal the rotated constant are exactly those of
rounds `0..15`. -/
theorem T_table_mismatch :
    T_table.getD 16 0 = 0x7a879d8a ∧ ROTL32 SM3_T2 16 = 0x9d8a7a87 ∧
      T_table.getD 16 0 ≠ ROTL32 (if 16 < 16 then SM3_T1 else SM3_T2) (16 % 32) ∧
      (List.range 64).filter
          (fun j => decide (T_table.getD j 0 = ROTL32 (if j < 16 then SM3_T1 else SM3_T2) (j % 32)))
        = List.range 16 := by
  decide

/-! ## SM3: the update loop -/

theorem sm3_update_loop_nil (fuel : Nat) (c : SM3_CTX) : sm3_update_loop fuel c [] = c := by
  cases fuel <;> simp [sm3_update_loop]

theorem sm3_update_fill_le (c : SM3_CTX) (data : List Nat) :
    sm3_update_fill c data ≤ data.length := by
  unfold sm3_update_fill
  simp only
  split <;> omega

theorem sm3_update_step_eq_copy (c : SM3_CTX) (data : List Nat) :
    sm3_update_step c data = sm3_copy_step c (data.take (sm3_update_fill c data)) := by
  have hl : (data.take (sm3_update_fill c data)).length = sm3_update_fill c data := by
    rw [List.length_take, Nat.min_eq_left (sm3_update_fill_le c data)]
  unfold sm3_update_step sm3_copy_step
  simp only [hl]

theorem sm3_update_loop_succ (fuel : Nat) (c : SM3_CTX) (data : List Nat) (h : 0 < data.length) :
    sm3_update_loop (fuel + 1) c data
      = sm3_update_loop fuel (sm3_copy_step c (data.take (sm3_update_fill c data)))
          (data.drop (sm3_update_fill c data)) := by
  rw [sm3_update_loop, if_pos h, sm3_update_step_eq_copy]

/-- What `sm3_copy_step` does when the chunk does not fill the buffer. -/
theorem sm3_copy_step_short (c : SM3_CTX) (chunk : List Nat)
    (h : c.bufferLength + chunk.length < 64) :
    sm3_copy_step c chunk
      = { c with
          buffer := (c.buffer.take c.bufferLength ++ chunk ++
            c.buffer.drop (c.bufferLength + chunk.length))
          bufferLength := c.bufferLength + chunk.length } := by
  have hu : u64 (c.bufferLength + chunk.length) = c.bufferLength + chunk.length := by
    unfold u64; omega
  unfold sm3_copy_step
  simp only [hu]
  rw [if_neg (by omega)]

/-- What `sm3_copy_step` does when the chunk fills the buffer. -/
theorem sm3_copy_step_full (c : SM3_CTX) (chunk : List Nat)
    (h : c.bufferLength + chunk.length = 64) (hl : c.buffer.length = 64) :
    sm3_copy_step c chunk
      = { state := sm3_compress_state c.state (c.buffer.take c.bufferLength ++ chunk)
          totalLength := c.totalLength
          bufferLength := 0
          buffer := c.buffer.take c.bufferLength ++ chunk } := by
  have hu : u64 (c.bufferLength + chunk.length) = 64 := by
    unfold u64; omega
  have hd : c.buffer.drop (c.bufferLength + chunk.length) = [] :=
    List.drop_of_length_le (by omega)
  unfold sm3_copy_step
  simp only [hu, hd, List.append_nil, if_true]
  rfl

theorem sm3_copy_step_bufferLength (c : SM3_CTX) (chunk : List Nat)
    (h : c.bufferLength + chunk.length ≤ 64) : (sm3_copy_step c chunk).bufferLength < 64 := by
  have hu : u64 (c.bufferLength + chunk.length) = c.bufferLength + chunk.length := by
    unfold u64; omega
  unfold sm3_copy_step
  simp only [hu]
  split
  · simp
  · rename_i hne
    simp only at hne ⊢
    omega

theorem sm3_copy_step_buffer_length (c : SM3_CTX) (chunk : List Nat)
    (h : c.bufferLength + chunk.length ≤ 64) (hl : c.buffer.length = 64) :
    (sm3_copy_step c chunk).buffer.length = 64 := by
  have hb : (c.buffer.take c.bufferLength ++ chunk ++
      c.buffer.drop (c.bufferLength + chunk.length)).length = 64 := by
    simp only [List.length_append, List.length_take, List.length_drop, hl]
    omega
  unfold sm3_copy_step
  simp only
  split
  · exact hb
  · exact hb

theorem sm3_copy_step_totalLength (c : SM3_CTX) (chunk : List Nat) :
    (sm3_copy_step c chunk).totalLength = c.totalLength := by
  unfold sm3_copy_step
  simp only
  split <;> rfl

/-- The chunk that one pass copies, when `bufferLength < 64`. -/
theorem sm3_update_chunk (c : SM3_CTX) (data : List Nat) (h : c.bufferLength < 64) :
    sm3_update_fill c data = min (64 - c.bufferLength) data.length ∧
      c.bufferLength + (data.take (sm3_update_fill c data)).length ≤ 64 ∧
      (0 < data.length → (data.drop (sm3_update_fill c data)).length < data.length) := by
  have hf := sm3_update_fill_eq c data (Nat.le_of_lt h)
  refine ⟨hf, ?_, ?_⟩
  · rw [List.length_take, hf]
    omega
  · intro hd
    rw [List.length_drop, hf]
    omega

/-- Enough fuel: once the bound covers the length of the data, the loop has run
to its end and more fuel changes nothing. -/
theorem sm3_update_loop_fuel (f1 : Nat) :
    ∀ (f2 : Nat) (c : SM3_CTX) (data : List Nat), c.bufferLength < 64 → data.length ≤ f1 →
      data.length ≤ f2 → sm3_update_loop f1 c data = sm3_update_loop f2 c data := by
  induction f1 with
  | zero =>
    intro f2 c data _ h1 _
    have : data = [] := List.length_eq_zero.1 (by omega)
    subst this
    rw [sm3_update_loop_nil, sm3_update_loop_nil]
  | succ f1 ih =>
    intro f2 c data hb h1 h2
    by_cases hd : 0 < data.length
    · obtain ⟨f2, rfl⟩ : ∃ k, f2 = k + 1 := ⟨f2 - 1, by omega⟩
      obtain ⟨_, hc, hdrop⟩ := sm3_update_chunk c data hb
      rw [sm3_update_loop_succ _ _ _ hd, sm3_update_loop_succ _ _ _ hd]
      have := hdrop hd
      exact ih f2 _ _ (sm3_copy_step_bufferLength _ _ hc) (by omega) (by omega)
    · have : data = [] := List.length_eq_zero.1 (by omega)
      subst this
      rw [sm3_update_loop_nil, sm3_update_loop_nil]

theorem drop_append_take_drop (buf mid : List Nat) (a k : Nat) (ha : a ≤ buf.length) :
    (buf.take a ++ mid ++ buf.drop (a + mid.length)).drop (a + mid.length + k)
      = buf.drop (a + mid.length + k) := by
  have hl : (buf.take a ++ mid).length = a + mid.length := by
    rw [List.length_append, List.length_take, Nat.min_eq_left ha]
  rw [← hl, List.drop_append, List.drop_drop, hl]

/-- Copying `x` and then `y` into the buffer is copying `x ++ y`, as long as `x`
does not fill the buffer. -/
theorem sm3_copy_step_append (c : SM3_CTX) (x y : List Nat)
    (hx : c.bufferLength + x.length < 64) (hl : c.buffer.length = 64) :
    sm3_copy_step (sm3_copy_step c x) y = sm3_copy_step c (x ++ y) := by
  rw [sm3_copy_step_short c x hx]
  unfold sm3_copy_step
  simp only [List.length_append]
  have e1 := take_append_take_drop c.buffer x c.bufferLength
    (c.buffer.drop (c.bufferLength + x.length)) (by omega)
  have e2 := drop_append_take_drop c.buffer x c.bufferLength y.length (by omega)
  rw [e1, e2]
  simp only [List.append_assoc, Nat.add_assoc]

theorem sm3_copy_step_set_totalLength (c : SM3_CTX) (chunk : List Nat) (t : Nat) :
    sm3_copy_step { c with totalLength := t } chunk
      = { sm3_copy_step c chunk with totalLength := t } := by
  unfold sm3_copy_step
  simp only
  split <;> rfl

theorem sm3_update_loop_set_totalLength (fuel : Nat) :
    ∀ (c : SM3_CTX) (data : List Nat) (t : Nat),
      sm3_update_loop fuel { c with totalLength := t } data
        = { sm3_update_loop fuel c data with totalLength := t } := by
  induction fuel with
  | zero => intro c data t; rfl
  | succ fuel ih =>
    intro c data t
    by_cases hd : 0 < data.length
    · rw [sm3_update_loop_succ _ _ _ hd, sm3_update_loop_succ _ _ _ hd]
      have hf : sm3_update_fill { c with totalLength := t } data = sm3_update_fill c data := rfl
      rw [hf, sm3_copy_step_set_totalLength, ih]
    · have : data = [] := List.length_eq_zero.1 (by omega)
      subst this
      rw [sm3_update_loop_nil, sm3_update_loop_nil]

theorem sm3_update_loop_totalLength (fuel : Nat) :
    ∀ (c : SM3_CTX) (data : List Nat),
      (sm3_update_loop fuel c data).totalLength = c.totalLength := by
  induction fuel with
  | zero => intro c data; rfl
  | succ fuel ih =>
    intro c data
    by_cases hd : 0 < data.length
    · rw [sm3_update_loop_succ _ _ _ hd, ih, sm3_copy_step_totalLength]
    · have : data = [] := List.length_eq_zero.1 (by omega)
      subst this
      rw [sm3_update_loop_nil]

theorem sm3_update_loop_buffer_length (fuel : Nat) :
    ∀ (c : SM3_CTX) (data : List Nat), c.bufferLength < 64 → c.buffer.length = 64 →
      (sm3_update_loop fuel c data).buffer.length = 64 := by
  induction fuel with
  | zero => intro c data _ h; exact h
  | succ fuel ih =>
    intro c data hb hl
    by_cases hd : 0 < data.length
    · obtain ⟨_, hc, _⟩ := sm3_update_chunk c data hb
      rw [sm3_update_loop_succ _ _ _ hd]
      exact ih _ _ (sm3_copy_step_bufferLength _ _ hc) (sm3_copy_step_buffer_length _ _ hc hl)
    · have : data = [] := List.length_eq_zero.1 (by omega)
      subst this
      rw [sm3_update_loop_nil]
      exact hl

/-- The loop of `sm3_update` run on `a` and then on `b` is the loop run on
`a ++ b`, for any bounds that cover the lengths. -/
theorem sm3_update_loop_append (n : Nat) :
    ∀ (a b : List Nat) (c : SM3_CTX) (f1 f2 f3 : Nat), a.length ≤ n → a.length ≤ f1 →
      b.length ≤ f2 → a.length + b.length ≤ f3 → c.bufferLength < 64 → c.buffer.length = 64 →
      sm3_update_loop f2 (sm3_update_loop f1 c a) b = sm3_update_loop f3 c (a ++ b) := by
  induction n with
  | zero =>
    intro a b c f1 f2 f3 hn _ h2 h3 hb _
    have : a = [] := List.length_eq_zero.1 (by omega)
    subst this
    rw [sm3_update_loop_nil, List.nil_append]
    exact sm3_update_loop_fuel f2 f3 c b hb h2 (by simpa using h3)
  | succ n ih =>
    intro a b c f1 f2 f3 hn h1 h2 h3 hb hl
    by_cases ha : 0 < a.length
    · obtain ⟨f1, rfl⟩ : ∃ k, f1 = k + 1 := ⟨f1 - 1, by omega⟩
      obtain ⟨f3, rfl⟩ : ∃ k, f3 = k + 1 := ⟨f3 - 1, by omega⟩
      have hab : 0 < (a ++ b).length := by rw [List.length_append]; omega
      obtain ⟨hfa, hca, _⟩ := sm3_update_chunk c a hb
      obtain ⟨hfab, _, _⟩ := sm3_update_chunk c (a ++ b) hb
      rw [List.length_append] at hfab
      rw [sm3_update_loop_succ _ _ _ ha, sm3_update_loop_succ _ _ _ hab]
      by_cases hfull : 64 - c.bufferLength ≤ a.length
      · -- the first pass takes its bytes from `a` alone
        have e : sm3_update_fill c (a ++ b) = sm3_update_fill c a := by omega
        have hle : sm3_update_fill c a ≤ a.length := sm3_update_fill_le c a
        rw [e, List.take_append_of_le_length hle, List.drop_append_of_le_length hle]
        refine ih _ b _ f1 f2 f3 ?_ ?_ h2 ?_ (sm3_copy_step_bufferLength _ _ hca)
          (sm3_copy_step_buffer_length _ _ hca hl)
        · rw [List.length_drop]; omega
        · rw [List.length_drop]; omega
        · rw [List.length_drop]; omega
      · -- `a` fits in the buffer without filling it
        have efa : sm3_update_fill c a = a.length := by omega
        have hta : a.take (sm3_update_fill c a) = a := by
          rw [efa]; exact List.take_length a
        have hda : a.drop (sm3_update_fill c a) = [] := by
          rw [efa]; exact List.drop_length a
        have hxa : c.bufferLength + a.length < 64 := by omega
        rw [hta, hda, sm3_update_loop_nil]
        by_cases hbz : 0 < b.length
        · obtain ⟨f2, rfl⟩ : ∃ k, f2 = k + 1 := ⟨f2 - 1, by omega⟩
          have hb1 : (sm3_copy_step c a).bufferLength = c.bufferLength + a.length := by
            rw [sm3_copy_step_short c a hxa]
          have hb1lt : (sm3_copy_step c a).bufferLength < 64 := by omega
          obtain ⟨hfb, hcb, _⟩ := sm3_update_chunk (sm3_copy_step c a) b hb1lt
          rw [hb1] at hfb
          have efab : sm3_update_fill c (a ++ b)
              = a.length + sm3_update_fill (sm3_copy_step c a) b := by omega
          have hfble : sm3_update_fill (sm3_copy_step c a) b ≤ b.length := sm3_update_fill_le _ b
          rw [sm3_update_loop_succ _ _ _ hbz, sm3_copy_step_append c a _ hxa hl, efab,
            List.take_append, List.drop_append]
          refine sm3_update_loop_fuel f2 f3 _ _ ?_ ?_ ?_
          · refine sm3_copy_step_bufferLength _ _ ?_
            rw [List.length_append, List.length_take]
            omega
          · rw [List.length_drop]; omega
          · rw [List.length_drop]; omega
        · have : b = [] := List.length_eq_zero.1 (by omega)
          subst this
          have efab : sm3_update_fill c (a ++ []) = a.length := by
            simp only [List.length_nil, Nat.add_zero] at hfab
            omega
          rw [sm3_update_loop_nil, efab, List.append_nil, List.take_length, List.drop_length,
            sm3_update_loop_nil]
    · have : a = [] := List.length_eq_zero.1 (by omega)
      subst this
      rw [sm3_update_loop_nil, List.nil_append]
      exact sm3_update_loop_fuel f2 f3 c b hb h2 (by simpa using h3)

theorem sm3_update_eq (c : SM3_CTX) (data : List Nat) :
    sm3_update c data
      = { sm3_update_loop (data.length + 1) c data with
          totalLength := u64 (c.totalLength + u64 (data.length * 8)) } := by
  unfold sm3_update
  exact sm3_update_loop_set_totalLength _ _ _ _

/-- C24 (SM3 streaming equivalence): for every context with `bufferLength < 64`
(its buffer being the 64-byte array of the source) and every two byte strings `a` and
`b`, `sm3_update` with `a` and then with `b` leaves the same context (state words,
`totalLength`, `bufferLength` and buffer contents) as one `sm3_update` with `a ++ b`;
the update loop has run to its end once its bound covers the data, so it terminates,
and it keeps `bufferLength < 64`. -/
theorem sm3_update_streaming (ctx : SM3_CTX) (a b : List Nat) (hb : ctx.bufferLength < 64)
    (hl : ctx.buffer.length = 64) :
    sm3_update (sm3_update ctx a) b = sm3_update ctx (a ++ b) ∧
      (∀ fuel, a.length ≤ fuel →
        sm3_update_loop fuel ctx a = sm3_update_loop a.length ctx a) ∧
      (sm3_update_loop a.length ctx a).bufferLength < 64 ∧
      (sm3_update ctx a).bufferLength < 64 := by
  refine ⟨?_, ?_, sm3_update_loop_bufferLength _ _ _ hb, ?_⟩
  · have h1 : (sm3_update_loop (a.length + 1) ctx a).bufferLength < 64 :=
      sm3_update_loop_bufferLength _ _ _ hb
    have h2 : (sm3_update_loop (a.length + 1) ctx a).buffer.length = 64 :=
      sm3_update_loop_buffer_length _ _ _ hb hl
    have key := sm3_update_loop_append a.length a b ctx (a.length + 1) (b.length + 1)
      ((a ++ b).length + 1) (Nat.le_refl _) (by omega) (by omega)
      (by rw [List.length_append]; omega) hb hl
    have et : u64 (u64 (ctx.totalLength + u64 (a.length * 8)) + u64 (b.length * 8))
        = u64 (ctx.totalLength + u64 ((a ++ b).length * 8)) := by
      rw [List.length_append]
      unfold u64
      omega
    rw [sm3_update_eq ctx (a ++ b), sm3_update_eq _ b, sm3_update_eq ctx a,
      sm3_update_loop_set_totalLength, key]
    simp only [et]
  · intro fuel hf
    exact sm3_update_loop_fuel fuel a.length ctx a hb hf (Nat.le_refl _)
  · rw [sm3_update_eq]
    exact sm3_update_loop_bufferLength _ _ _ hb

/-- Instance of C24 on the context of `sm3_init` with `a = "ab"` and `b = "c"`. -/
theorem sm3_update_streaming_abc :
    (sm3_init SM3_CTX.zero).bufferLength < 64 ∧
      sm3_update (sm3_update (sm3_init SM3_CTX.zero) [0x61, 0x62]) [0x63]
        = sm3_update (sm3_init SM3_CTX.zero) sm3_test_data :=
  ⟨by decide, (sm3_update_streaming (sm3_init SM3_CTX.zero) [0x61, 0x62] [0x63] (by decide)
    (by decide)).1⟩

/-! ## SM3: padding -/

theorem sm3_compress_state_eq (c : SM3_CTX) (block : List Nat) :
    (sm3_compress c block).state = sm3_compress_state c.state block :=
  sm3_compress_state_congr _ _ _ rfl

theorem sm3_final_pad_spec (c : SM3_CTX) (hb : c.bufferLength < 64) (hl : c.buffer.length = 64) :
    (sm3_final_pad c).state
        = (if 56 ≤ c.bufferLength then
            sm3_compress_state c.state (c.buffer.take c.bufferLength ++ [0x80] ++
              List.replicate (63 - c.bufferLength) 0)
          else c.state) ∧
      (sm3_final_pad c).buffer
        = (if 56 ≤ c.bufferLength then List.replicate 56 0
          else c.buffer.take c.bufferLength ++ [0x80] ++
            List.replicate (55 - c.bufferLength) 0) ++ be_bytes64 c.totalLength := by
  have t1 := take_succ_set c.buffer c.bufferLength 0x80 (by omega)
  have l1 : (c.buffer.set c.bufferLength 0x80).length = 64 := by simp [hl]
  unfold sm3_final_pad
  simp only [memset_zero]
  by_cases h56 : c.bufferLength + 1 > 56
  · have h56b : 56 ≤ c.bufferLength := by omega
    simp only [h56, h56b, if_true, sm3_compress_fields]
    have e64 : c.bufferLength + 1 + (64 - (c.bufferLength + 1)) = 64 := by omega
    have e63 : 64 - (c.bufferLength + 1) = 63 - c.bufferLength := by omega
    rw [e64, List.drop_of_length_le (Nat.le_of_eq l1), t1, e63, List.append_nil]
    refine ⟨sm3_compress_state_eq _ _, ?_⟩
    have hB : (c.buffer.take c.bufferLength ++ [0x80] ++
        List.replicate (63 - c.bufferLength) 0).length = 64 := by
      simp only [List.length_append, List.length_take, List.length_replicate, List.length_cons,
        List.length_nil, hl]
      omega
    rw [foldl_set_tail _ _ _ (by simp) (by rw [List.length_drop, hB])]
    simp [be_bytes64]
  · have h56b : ¬ 56 ≤ c.bufferLength := by omega
    simp only [h56, h56b, if_false]
    refine ⟨trivial, ?_⟩
    have e56 : c.bufferLength + 1 + (56 - (c.bufferLength + 1)) = 56 := by omega
    have e55 : 56 - (c.bufferLength + 1) = 55 - c.bufferLength := by omega
    rw [e56, t1, e55]
    have hX : (c.buffer.take c.bufferLength ++ [0x80] ++
        List.replicate (55 - c.bufferLength) 0).length = 56 := by
      simp only [List.length_append, List.length_take, List.length_replicate, List.length_cons,
        List.length_nil, hl]
      omega
    rw [foldl_set_tail _ _ _ hX (by simp [hl])]
    rfl

/-- The digest that `sm3_final` writes, from the state, the buffered bytes and
`totalLength`: one last block when at most 55 bytes are buffered, two otherwise. -/
theorem sm3_final_spec (c : SM3_CTX) (hb : c.bufferLength < 64) (hl : c.buffer.length = 64) :
    sm3_final c
      = sm3_digest
          (if 56 ≤ c.bufferLength then
            sm3_compress_state
              (sm3_compress_state c.state (c.buffer.take c.bufferLength ++ [0x80] ++
                List.replicate (63 - c.bufferLength) 0))
              (List.replicate 56 0 ++ be_bytes64 c.totalLength)
          else
            sm3_compress_state c.state (c.buffer.take c.bufferLength ++ [0x80] ++
              List.replicate (55 - c.bufferLength) 0 ++ be_bytes64 c.totalLength)) := by
  obtain ⟨hs, hbuf⟩ := sm3_final_pad_spec c hb hl
  unfold sm3_final
  simp only
  rw [sm3_compress_state_eq, hs, hbuf]
  split <;> rfl

/-- The loop of `sm3_update` from an empty buffer: the state is folded over the
full 64-byte blocks of the data and the rest stays in the buffer. -/
theorem sm3_update_loop_blocks (n : Nat) :
    ∀ (m : List Nat) (c : SM3_CTX) (f : Nat), m.length ≤ n → m.length ≤ f →
      c.bufferLength = 0 → c.buffer.length = 64 →
      (sm3_update_loop f c m).state = sm3_fold_blocks c.state (m.length / 64) m ∧
        (sm3_update_loop f c m).bufferLength = m.length % 64 ∧
        (sm3_update_loop f c m).buffer.take (m.length % 64) = m.drop (64 * (m.length / 64)) ∧
        (sm3_update_loop f c m).buffer.length = 64 := by
  induction n with
  | zero =>
    intro m c f hn _ hb hl
    have : m = [] := List.length_eq_zero.1 (by omega)
    subst this
    rw [sm3_update_loop_nil]
    exact ⟨rfl, hb, rfl, hl⟩
  | succ n ih =>
    intro m c f hn hf hb hl
    by_cases hm : 0 < m.length
    · obtain ⟨f, rfl⟩ : ∃ k, f = k + 1 := ⟨f - 1, by omega⟩
      obtain ⟨hfill, _, _⟩ := sm3_update_chunk c m (by omega)
      rw [hb] at hfill
      rw [sm3_update_loop_succ _ _ _ hm]
      by_cases h64 : 64 ≤ m.length
      · have e : sm3_update_fill c m = 64 := by omega
        have hlt : (m.take 64).length = 64 := by
          rw [List.length_take]; omega
        have hld : (m.drop 64).length = m.length - 64 := List.length_drop _ _
        rw [e, sm3_copy_step_full c _ (by omega) hl]
        simp only [hb, List.take_zero, List.nil_append]
        obtain ⟨i1, i2, i3, i4⟩ := ih (m.drop 64)
          { state := sm3_compress_state c.state (m.take 64), totalLength := c.totalLength,
            bufferLength := 0, buffer := m.take 64 } f (by omega) (by omega) rfl hlt
        have ed : m.length / 64 = (m.length - 64) / 64 + 1 := by omega
        have em : m.length % 64 = (m.length - 64) % 64 := by omega
        rw [hld] at i1 i2 i3
        refine ⟨?_, ?_, ?_, i4⟩
        · rw [i1, ed]
          rfl
        · rw [i2, em]
        · rw [em, i3, ed, List.drop_drop]
          congr 1
          omega
      · have e : sm3_update_fill c m = m.length := by omega
        have e0 : m.length / 64 = 0 := by omega
        have e1 : m.length % 64 = m.length := by omega
        rw [e, List.take_length, List.drop_length, sm3_update_loop_nil,
          sm3_copy_step_short c m (by omega), e0, e1]
        simp only [hb, List.take_zero, List.nil_append, Nat.zero_add, Nat.mul_zero, List.drop_zero]
        refine ⟨rfl, trivial, ?_, ?_⟩
        · exact List.take_left _ _
        · simp only [List.length_append, List.length_drop, hl]
          omega
    · have : m = [] := List.length_eq_zero.1 (by omega)
      subst this
      rw [sm3_update_loop_nil]
      exact ⟨rfl, hb, rfl, hl⟩

/-- Folding over the blocks of `x ++ y` when `x` consists of `n` full blocks. -/
theorem sm3_fold_blocks_append (n : Nat) :
    ∀ (st x y : List Nat) (k : Nat), x.length = 64 * n →
      sm3_fold_blocks st (n + k) (x ++ y) = sm3_fold_blocks (sm3_fold_blocks st n x) k y := by
  induction n with
  | zero =>
    intro st x y k hx
    have : x = [] := List.length_eq_zero.1 (by omega)
    subst this
    simp [sm3_fold_blocks]
  | succ n ih =>
    intro st x y k hx
    have e : n + 1 + k = (n + k) + 1 := by omega
    rw [e, sm3_fold_blocks, sm3_fold_blocks, List.take_append_of_le_length (by omega),
      List.drop_append_of_le_length (by omega)]
    exact ih _ _ _ _ (by rw [List.length_drop]; omega)

/-- Folding over `n` blocks reads only the first `64 * n` bytes. -/
theorem sm3_fold_blocks_take (n : Nat) :
    ∀ (st x : List Nat), sm3_fold_blocks st n x = sm3_fold_blocks st n (x.take (64 * n)) := by
  induction n with
  | zero => intro st x; rfl
  | succ n ih =>
    intro st x
    rw [sm3_fold_blocks, sm3_fold_blocks, ih, ih _ (List.drop 64 (List.take _ x)),
      List.take_take, List.drop_take]
    have e1 : min 64 (64 * (n + 1)) = 64 := by omega
    have e2 : 64 * (n + 1) - 64 = 64 * n := by omega
    rw [e1, e2, List.take_take, Nat.min_self]

theorem be_bytes64_length (x : Nat) : (be_bytes64 x).length = 8 := by
  simp [be_bytes64]

theorem sm3_fold_blocks_one (st l : List Nat) (h : l.length = 64) :
    sm3_fold_blocks st 1 l = sm3_compress_state st l := by
  rw [sm3_fold_blocks, sm3_fold_blocks, List.take_of_length_le (Nat.le_of_eq h)]

theorem sm3_fold_blocks_two (st x y : List Nat) (hx : x.length = 64) (hy : y.length = 64) :
    sm3_fold_blocks st 2 (x ++ y) = sm3_compress_state (sm3_compress_state st x) y := by
  rw [sm3_fold_blocks, List.take_left' hx, List.drop_left' hx, sm3_fold_blocks_one _ _ hy]

/-- C25 (SM3 padding): for every message `m` shorter than `2^61` bytes (the
local context having the 64-byte buffer of the source), `sm3_hash` writes the
big-endian serialisation of the state obtained by folding `sm3_compress`, from the
initial state of `sm3_init`, over the consecutive 64-byte blocks of
`m ++ [0x80] ++ k zero bytes ++ the 8-byte big-endian encoding of 8 * |m|`; the padded
length is a multiple of 64, one block more than the full blocks of `m` when
`|m| mod 64 ≤ 55` and two when it is `≥ 56`, and no smaller `k` gives a multiple of
64. -/
theorem sm3_hash_padding (ctx : SM3_CTX) (m : List Nat) (hl : ctx.buffer.length = 64)
    (hm : m.length < 2 ^ 61) :
    sm3_hash ctx m
        = sm3_digest (sm3_fold_blocks sm3_iv ((sm3_pad m).length / 64) (sm3_pad m)) ∧
      (sm3_pad m).length
        = 64 * (m.length / 64 + (if m.length % 64 ≤ 55 then 1 else 2)) ∧
      (∀ j, j < sm3_padding_zeros m.length → (m.length + 1 + j + 8) % 64 ≠ 0) := by
  have hlen : (sm3_pad m).length
      = 64 * (m.length / 64 + (if m.length % 64 ≤ 55 then 1 else 2)) := by
    unfold sm3_pad sm3_padding_zeros
    simp only [List.length_append, List.length_replicate, List.length_cons, List.length_nil,
      be_bytes64_length]
    split <;> omega
  refine ⟨?_, hlen, ?_⟩
  · have hdiv : (sm3_pad m).length / 64
        = m.length / 64 + (if m.length % 64 ≤ 55 then 1 else 2) := by
      rw [hlen, Nat.mul_div_cancel_left _ (by decide)]
    obtain ⟨u1, u2, u3, u4⟩ := sm3_update_loop_blocks m.length m (sm3_init ctx) (m.length + 1)
      (Nat.le_refl _) (by omega) rfl hl
    have hb : (sm3_update (sm3_init ctx) m).bufferLength < 64 := by
      rw [sm3_update_eq]
      simp only [u2]
      omega
    have htl : (sm3_update (sm3_init ctx) m).totalLength = 8 * m.length := by
      rw [sm3_update_eq]
      show u64 (0 + u64 (m.length * 8)) = 8 * m.length
      unfold u64
      omega
    have hst : (sm3_update (sm3_init ctx) m).state
        = sm3_fold_blocks sm3_iv (m.length / 64) m := by
      rw [sm3_update_eq]
      exact u1
    have hbl : (sm3_update (sm3_init ctx) m).bufferLength = m.length % 64 := by
      rw [sm3_update_eq]
      exact u2
    have hbuf : (sm3_update (sm3_init ctx) m).buffer.take (m.length % 64)
        = m.drop (64 * (m.length / 64)) := by
      rw [sm3_update_eq]
      exact u3
    have hbufl : (sm3_update (sm3_init ctx) m).buffer.length = 64 := by
      rw [sm3_update_eq]
      exact u4
    -- the message as its full blocks followed by the rest
    have hsplit : m = m.take (64 * (m.length / 64)) ++ m.drop (64 * (m.length / 64)) :=
      (List.take_append_drop _ _).symm
    have hhead : (m.take (64 * (m.length / 64))).length = 64 * (m.length / 64) := by
      rw [List.length_take]; omega
    have hrem : (m.drop (64 * (m.length / 64))).length = m.length % 64 := by
      rw [List.length_drop]; omega
    have hS : sm3_fold_blocks sm3_iv (m.length / 64) m
        = sm3_fold_blocks sm3_iv (m.length / 64) (m.take (64 * (m.length / 64))) :=
      sm3_fold_blocks_take _ _ _
    have hpad : sm3_pad m = m.take (64 * (m.length / 64)) ++
        (m.drop (64 * (m.length / 64)) ++ [0x80] ++
          List.replicate (sm3_padding_zeros m.length) 0 ++ be_bytes64 (8 * m.length)) := by
      unfold sm3_pad
      simp only [← List.append_assoc, List.take_append_drop]
    unfold sm3_hash
    rw [sm3_final_spec _ hb hbufl, hst, hbl, hbuf, htl, hdiv, hpad,
      sm3_fold_blocks_append _ _ _ _ _ hhead, ← hS]
    by_cases h56 : 56 ≤ m.length % 64
    · have hk : sm3_padding_zeros m.length = (63 - m.length % 64) + 56 := by
        unfold sm3_padding_zeros; omega
      rw [if_pos h56, if_neg (by omega), hk, List.replicate_add]
      have hx : (m.drop (64 * (m.length / 64)) ++ [0x80] ++
          List.replicate (63 - m.length % 64) 0).length = 64 := by
        simp only [List.length_append, List.length_replicate, List.length_cons, List.length_nil,
          hrem]
        omega
      have hy : (List.replicate 56 0 ++ be_bytes64 (8 * m.length)).length = 64 := by
        simp only [List.length_append, List.length_replicate, be_bytes64_length]
      have e : m.drop (64 * (m.length / 64)) ++ [0x80] ++
            (List.replicate (63 - m.length % 64) 0 ++ List.replicate 56 0) ++
            be_bytes64 (8 * m.length)
          = (m.drop (64 * (m.length / 64)) ++ [0x80] ++
              List.replicate (63 - m.length % 64) 0) ++
            (List.replicate 56 0 ++ be_bytes64 (8 * m.length)) := by
        simp only [List.append_assoc]
      rw [e, sm3_fold_blocks_two _ _ _ hx hy]
    · have hk : sm3_padding_zeros m.length = 55 - m.length % 64 := by
        unfold sm3_padding_zeros; omega
      rw [if_neg h56, if_pos (by omega), hk]
      have hx : (m.drop (64 * (m.length / 64)) ++ [0x80] ++
          List.replicate (55 - m.length % 64) 0 ++ be_bytes64 (8 * m.length)).length = 64 := by
        simp only [List.length_append, List.length_replicate, List.length_cons, List.length_nil,
          hrem, be_bytes64_length]
        omega
      rw [sm3_fold_blocks_one _ _ hx]
  · intro j hj
    unfold sm3_padding_zeros at hj
    omega

/-- Instance of C25 on the message `"abc"` of `main`: one padded block. -/
theorem sm3_hash_padding_abc :
    SM3_CTX.zero.buffer.length = 64 ∧ sm3_test_data.length < 2 ^ 61 ∧
      sm3_hash SM3_CTX.zero sm3_test_data
        = sm3_digest (sm3_fold_blocks sm3_iv 1
            (sm3_test_data ++ [0x80] ++ List.replicate 52 0 ++ [0, 0, 0, 0, 0, 0, 0, 24])) :=
  ⟨by decide, by decide,
    (sm3_hash_padding SM3_CTX.zero sm3_test_data (by decide) (by decide)).1⟩
